import Mathlib

/-!
# Hard special leaves of the Deleglise-Rivat algorithm

A shallow embedding of `src/deleglise-rivat/pi_deleglise_rivat1.cpp` (`cross_off`, `S2_hard`,
`S2`, `pi_deleglise_rivat1`), of `ideal_num_threads` of `src/primecount.cpp` and of the Fenwick
build loop of `practice/tree.cc`, and the properties of them that the specification states.

Conventions of the embedding.

* `int64_t` values that the code keeps non-negative (`x`, `y`, `z`, `c`, positions, indices,
  primes) are `Nat`; values that can be negative (`mu`, counts, `phi`, `S2_result`) are `Int`.
  Overflow is outside the embedding: the specification assumes every product and sum fits.
* `std::vector` is `List`; a read or write outside the vector, a negative index, and a division
  by zero are undefined behaviour in the source and make the embedded function return `none`.
* Every `for` loop is a structurally recursive function. Loops whose trip count is not the
  loop variable itself carry a fuel argument; running out of fuel while the loop condition
  still holds returns `none`, so a result `some _` always is the result of a terminating run.
* The class `BinaryIndexedTree` is not part of the sources. The code is embedded over an
  arbitrary implementation of its three methods, and the calls made on the tree object are
  recorded in a ghost field `calls` of the state.
-/

namespace Primecount

/-! ## Collaborators -/

/-- Modelled from the spec: `isqrt` of `imath.hpp` (not among the sources), the floor square
root `⌊√n⌋`, computed as the greatest `r ≤ n` with `r * r ≤ n`. -/
def isqrt (n : Nat) : Nat :=
  Nat.findGreatest (fun r => r * r ≤ n) n

/-- Doubling loop of `next_power_of_2`: the first of `p, 2p, 4p, ...` that is `≥ n`. -/
def next_power_of_2_loop (n : Nat) : Nat → Nat → Nat
  | 0, p => p
  | fuel + 1, p => if n ≤ p then p else next_power_of_2_loop n fuel (2 * p)

/-- Modelled from the spec: `next_power_of_2` of `imath.hpp` (not among the sources), the least
power of two that is `≥ n` (so `1` for `n = 0`). -/
def next_power_of_2 (n : Nat) : Nat :=
  next_power_of_2_loop n n 1

/-- Modelled from the spec: `generate_primes<int32_t>(y)` of `generate.hpp` (not among the
sources), the ordered sequence of the primes `≤ y`, 1-indexed, with `primes[0] = 0`. -/
def generate_primes (y : Nat) : List Nat :=
  0 :: (List.range (y + 1)).filter (fun n => @decide (Nat.Prime n) (Nat.decidablePrime1 n))

/-- Modelled from the spec: `generate_pi(y)` of `generate.hpp` (not among the sources), the
lookup table with `pi[n]` = number of primes `≤ n` for `0 ≤ n ≤ y`. -/
def generate_pi (y : Nat) : List Nat :=
  (List.range (y + 1)).map (fun n =>
    ((List.range (n + 1)).filter
      (fun k => @decide (Nat.Prime k) (Nat.decidablePrime1 k))).length)

/-- The calls that `S2_hard` and `cross_off` make on the tree object. -/
inductive TreeCall where
  | init (size : Nat)
  | update (pos : Nat)
  | count (low pos : Nat)
  deriving DecidableEq

/-- Modelled from the spec: the interface of the class `BinaryIndexedTree`
(`BinaryIndexedTree.hpp` is not among the sources) as the code uses it: a default-constructed
object, `init(sieve)`, `update(pos)` and `count(low, pos)`. -/
structure BinaryIndexedTree where
  /-- The state of a tree object. -/
  τ : Type
  /-- The default-constructed object of `BinaryIndexedTree tree;`. -/
  empty : τ
  /-- The method `tree.init(sieve)`. -/
  init : τ → List Bool → τ
  /-- The method `tree.update(pos)`. -/
  update : τ → Nat → τ
  /-- The method `tree.count(low, pos)`. -/
  count : τ → Nat → Nat → Int

/-- Modelled from the spec: a reference implementation of the tree that keeps the presence
array itself; `update(pos)` removes offset `pos`, and `count(low, pos)`, called with the
segment start `low` and a position `pos` of the segment, returns the number of offsets in
`0 .. pos - low` that are still present. -/
def windowTree : BinaryIndexedTree where
  τ := List Bool
  empty := []
  init := fun _ sieve => sieve
  update := fun t pos => t.set pos false
  count := fun t low pos => (((t.take (pos - low + 1)).count true : Nat) : Int)

/-- Modelled from the spec: the tree exactly as section 4.1 words it, where both arguments of
`count(a, b)` are offsets and the result is the number of present offsets in `[a, b]`
(`0` for an empty or inverted range). -/
def offsetTree : BinaryIndexedTree where
  τ := List Bool
  empty := []
  init := fun _ sieve => sieve
  update := fun t pos => t.set pos false
  count := fun t a b => ((((t.take (b + 1)).drop a).count true : Nat) : Int)

/-! ## The embedded code -/

/-- Integer division of the source; a zero divisor is undefined behaviour. -/
def cdiv (a b : Nat) : Option Nat :=
  if b = 0 then none else some (a / b)

/-- The mutable locals of `S2_hard` (lines 82-89) and the ghost record of tree calls. -/
structure HardState (T : BinaryIndexedTree) where
  /-- The array `vector<char> sieve(segment_size)`; `true` is 1 (present). -/
  sieve : List Bool
  /-- The array `vector<int64_t> next`, the resumable cursors. -/
  next : List Nat
  /-- The array `vector<int64_t> phi`, the running prefix totals. -/
  phi : List Int
  /-- The object `BinaryIndexedTree tree`. -/
  tree : T.τ
  /-- The accumulator `S2_result`. -/
  S2_result : Int
  /-- Ghost: every call made on `tree` so far, oldest first. -/
  calls : List TreeCall

/-- The loop of `cross_off` (lines 54-61): `for (; m < high; m += prime * 2)`. Returns the
final `m` and the state. -/
def cross_off_loop (T : BinaryIndexedTree) (prime low high : Nat) :
    Nat → Nat → HardState T → Option (Nat × HardState T)
  | 0, m, st => if m < high then none else some (m, st)
  | fuel + 1, m, st =>
    if m < high then
      if m < low then none
      else
        match st.sieve[m - low]? with
        | none => none
        | some true =>
          cross_off_loop T prime low high fuel (m + prime * 2)
            { st with
              sieve := st.sieve.set (m - low) false
              tree := T.update st.tree (m - low)
              calls := st.calls ++ [TreeCall.update (m - low)] }
        | some false => cross_off_loop T prime low high fuel (m + prime * 2) st
    else some (m, st)

/-- The function `cross_off` (lines 44-64). The reference parameter `multiple` is passed by
value and its final value returned. -/
def cross_off (T : BinaryIndexedTree) (prime low high multiple : Nat) (st : HardState T) :
    Option (Nat × HardState T) :=
  cross_off_loop T prime low high high multiple st

/-- The inner pre-sieve loop (lines 106-107): `for (prime = primes[b]; k < high; k += prime)
sieve[k - low] = 0`. Returns the final `k` and the sieve. -/
def presieve_loop (prime low high : Nat) : Nat → Nat → List Bool → Option (Nat × List Bool)
  | 0, k, sieve => if k < high then none else some (k, sieve)
  | fuel + 1, k, sieve =>
    if k < high then
      if k < low then none
      else if k - low < sieve.length then
        presieve_loop prime low high fuel (k + prime) (sieve.set (k - low) false)
      else none
    else some (k, sieve)

/-- The pre-sieve (lines 103-109): `for (b = 1; b <= c; b++)`. -/
def presieve (T : BinaryIndexedTree) (primes : List Nat) (c low high : Nat) :
    Nat → Nat → HardState T → Option (HardState T)
  | 0, b, st => if b ≤ c then none else some st
  | fuel + 1, b, st =>
    if b ≤ c then do
      let k ← st.next[b]?
      let prime ← primes[b]?
      let (k, sieve) ← presieve_loop prime low high high k st.sieve
      presieve T primes c low high fuel (b + 1)
        { st with sieve := sieve, next := st.next.set b k }
    else some st

/-- The leaf loop of phase A (lines 127-136): `for (m = max_m; m > min_m; m--)`, by recursion
on `m`. -/
def leavesA (T : BinaryIndexedTree) (x low b prime min_m : Nat) (lpf : List Nat)
    (mu : List Int) : Nat → HardState T → Option (HardState T)
  | 0, st => some st
  | m + 1, st =>
    if m + 1 > min_m then do
      let mu_m ← mu[m + 1]?
      if mu_m ≠ 0 then do
        let lpf_m ← lpf[m + 1]?
        if prime < lpf_m then do
          let n := prime * (m + 1)
          let xn ← cdiv x n
          let count := T.count st.tree low xn
          let phi_b ← st.phi[b]?
          let phi_xn := phi_b + count
          leavesA T x low b prime min_m lpf mu m
            { st with
              S2_result := st.S2_result - mu_m * phi_xn
              calls := st.calls ++ [TreeCall.count low xn] }
        else leavesA T x low b prime min_m lpf mu m st
      else leavesA T x low b prime min_m lpf mu m st
    else some st

/-- The leaf loop of phase B (lines 154-161): `for (; primes[l] > min_hard; l--)`, by recursion
on `l`; decrementing `l = 0` leaves the table. -/
def leavesB (T : BinaryIndexedTree) (x low b prime min_hard : Nat) (primes : List Nat) :
    Nat → HardState T → Option (HardState T)
  | l, st => do
    let prime_l ← primes[l]?
    if prime_l > min_hard then do
      let n := prime * prime_l
      let xn ← cdiv x n
      let count := T.count st.tree low xn
      let phi_b ← st.phi[b]?
      let phi_xn := phi_b + count
      let st' : HardState T :=
        { st with
          S2_result := st.S2_result + phi_xn
          calls := st.calls ++ [TreeCall.count low xn] }
      match l with
      | 0 => none
      | l' + 1 => leavesB T x low b prime min_hard primes l' st'
    else some st

/-- The tail shared by both phases (lines 138-139 and 163-164): fold the survivor count of the
segment into `phi[b]`, then cross off the multiples of `prime`. -/
def fold_and_cross_off (T : BinaryIndexedTree) (low high b prime : Nat) (st : HardState T) :
    Option (HardState T) := do
  let phi_b ← st.phi[b]?
  let st1 : HardState T :=
    { st with
      phi := st.phi.set b (phi_b + T.count st.tree low (high - 1))
      calls := st.calls ++ [TreeCall.count low (high - 1)] }
  let multiple ← st1.next[b]?
  let (m, st2) ← cross_off T prime low high multiple st1
  some { st2 with next := st2.next.set b m }

/-- How a phase loop was left: by its loop condition, with the index `b` reached, or by
`goto next_segment`. -/
inductive Flow (α : Type) where
  | fallthrough (b : Nat) (st : α)
  | next_segment (st : α)

/-- Phase A (lines 118-140): `for (; b <= pi_sqrty; b++)`. With `prune = false` the early exit
of line 124 is removed. -/
def phaseA (T : BinaryIndexedTree) (prune : Bool) (x y low high pi_sqrty : Nat)
    (primes lpf : List Nat) (mu : List Int) :
    Nat → Nat → HardState T → Option (Flow (HardState T))
  | 0, b, st => if b ≤ pi_sqrty then none else some (Flow.fallthrough b st)
  | fuel + 1, b, st =>
    if b ≤ pi_sqrty then do
      let prime ← primes[b]?
      let min_m := max (← cdiv x (prime * high)) (← cdiv y prime)
      let max_m := min (← cdiv x (prime * low)) y
      if prune && decide (prime ≥ max_m) then some (Flow.next_segment st)
      else do
        let st1 ← leavesA T x low b prime min_m lpf mu max_m st
        let st2 ← fold_and_cross_off T low high b prime st1
        phaseA T prune x y low high pi_sqrty primes lpf mu fuel (b + 1) st2
    else some (Flow.fallthrough b st)

/-- Phase B (lines 145-165): `for (; b <= pi_sqrtz; b++)`. With `prune = false` the early exit
of line 151 is removed. -/
def phaseB (T : BinaryIndexedTree) (prune : Bool) (x y z low high pi_sqrtz : Nat)
    (primes pi : List Nat) :
    Nat → Nat → HardState T → Option (Flow (HardState T))
  | 0, b, st => if b ≤ pi_sqrtz then none else some (Flow.fallthrough b st)
  | fuel + 1, b, st =>
    if b ≤ pi_sqrtz then do
      let prime ← primes[b]?
      let l ← pi[min (min (← cdiv x (prime * low)) (← cdiv z prime)) y]?
      let min_hard := max (← cdiv x (prime * high)) prime
      let prime_l ← primes[l]?
      if prune && decide (prime ≥ prime_l) then some (Flow.next_segment st)
      else do
        let st1 ← leavesB T x low b prime min_hard primes l st
        let st2 ← fold_and_cross_off T low high b prime st1
        phaseB T prune x y z low high pi_sqrtz primes pi fuel (b + 1) st2
    else some (Flow.fallthrough b st)

/-- The body of the segment loop (lines 94-167) for the segment starting at `low`. -/
def segment (T : BinaryIndexedTree) (segment_size : Nat) (prune : Bool)
    (x y z c pi_sqrty pi_sqrtz : Nat) (primes pi lpf : List Nat) (mu : List Int)
    (low : Nat) (st : HardState T) : Option (HardState T) := do
  let limit := z + 1
  let high := min (low + segment_size) limit
  let b := c + 1
  let st0 : HardState T := { st with sieve := List.replicate st.sieve.length true }
  let st1 ← presieve T primes c low high c 1 st0
  let st2 : HardState T :=
    { st1 with
      tree := T.init st1.tree st1.sieve
      calls := st1.calls ++ [TreeCall.init st1.sieve.length] }
  match ← phaseA T prune x y low high pi_sqrty primes lpf mu pi_sqrty b st2 with
  | Flow.next_segment st3 => some st3
  | Flow.fallthrough b st3 =>
    match ← phaseB T prune x y z low high pi_sqrtz primes pi pi_sqrtz b st3 with
    | Flow.next_segment st4 => some st4
    | Flow.fallthrough _ st4 => some st4

/-- The segment loop (line 92): `for (low = 1; low < limit; low += segment_size)`. -/
def segments (T : BinaryIndexedTree) (segment_size : Nat) (prune : Bool)
    (x y z c pi_sqrty pi_sqrtz : Nat) (primes pi lpf : List Nat) (mu : List Int) :
    Nat → Nat → HardState T → Option (HardState T)
  | 0, low, st => if low < z + 1 then none else some st
  | fuel + 1, low, st =>
    if low < z + 1 then do
      let st1 ← segment T segment_size prune x y z c pi_sqrty pi_sqrtz primes pi lpf mu low st
      segments T segment_size prune x y z c pi_sqrty pi_sqrtz primes pi lpf mu fuel
        (low + segment_size) st1
    else some st

/-- The function `S2_hard` (lines 70-171) with the segment size and the pruning exposed as
parameters; returns the final state. -/
def S2_hard_run (T : BinaryIndexedTree) (segment_size : Nat) (prune : Bool)
    (x y z c : Nat) (pi lpf : List Nat) (mu : List Int) : Option (HardState T) := do
  let pi_sqrty ← pi[isqrt y]?
  let pi_sqrtz ← pi[min (isqrt z) y]?
  let primes := generate_primes y
  let st : HardState T :=
    { sieve := List.replicate segment_size false
      next := primes
      phi := List.replicate primes.length 0
      tree := T.empty
      S2_result := 0
      calls := [] }
  segments T segment_size prune x y z c pi_sqrty pi_sqrtz primes pi lpf mu (z + 1) 1 st

/-- The function `S2_hard` (lines 70-171): the segment size is
`next_power_of_2(isqrt(limit))` and both early exits are in place. -/
def S2_hard (T : BinaryIndexedTree) (x y z c : Nat) (pi lpf : List Nat) (mu : List Int) :
    Option Int :=
  (S2_hard_run T (next_power_of_2 (isqrt (z + 1))) true x y z c pi lpf mu).map
    (fun st => st.S2_result)

/-- The variant of `S2_hard` in which both early exits (`goto next_segment`, lines 124-125 and
151-152) are removed, so that every `b` in `c + 1 .. pi_sqrtz` is processed in every
segment. -/
def S2_hard_unpruned (T : BinaryIndexedTree) (x y z c : Nat) (pi lpf : List Nat)
    (mu : List Int) : Option Int :=
  (S2_hard_run T (next_power_of_2 (isqrt (z + 1))) false x y z c pi lpf mu).map
    (fun st => st.S2_result)

/-- The function `S2` (lines 174-189). The functions `S2_trivial` and `S2_easy` of `S2.hpp`
are not among the sources and are parameters; their last argument is the thread count. -/
def S2 (T : BinaryIndexedTree) (S2_trivial S2_easy : Nat → Nat → Nat → Nat → Nat → Int)
    (x y z c : Nat) (lpf : List Nat) (mu : List Int) : Option Int := do
  let pi := generate_pi y
  let s2_trivial := S2_trivial x y z c 1
  let s2_easy := S2_easy x y z c 1
  let s2_hard ← S2_hard T x y z c pi lpf mu
  let s2 := s2_trivial + s2_easy + s2_hard
  some s2

/-- Modelled from the spec: the collaborators of `pi_deleglise_rivat1` that are not among the
sources or that compute in floating point (`get_alpha_deleglise_rivat` and the product
`x13 * alpha` are `double` arithmetic). Each is an arbitrary function that may fail. -/
structure Collaborators where
  /-- The type `double`. -/
  D : Type
  /-- The function `get_alpha_deleglise_rivat(x)`. -/
  get_alpha_deleglise_rivat : Int → Option D
  /-- The function `iroot<3>(x)`. -/
  iroot3 : Int → Option Int
  /-- The conversion `(int64_t) (x13 * alpha)`. -/
  scale : Int → D → Option Int
  /-- The function `PhiTiny::get_c(y)`. -/
  get_c : Nat → Option Nat
  /-- The function `P2(x, y, threads)`. -/
  P2 : Nat → Nat → Nat → Option Int
  /-- The function `generate_moebius(y)`. -/
  generate_moebius : Nat → Option (List Int)
  /-- The function `generate_lpf(y)`. -/
  generate_lpf : Nat → Option (List Nat)
  /-- The function `pi_legendre(y)`. -/
  pi_legendre : Nat → Option Int
  /-- The function `S1(x, y, c, threads)`. -/
  S1 : Nat → Nat → Nat → Nat → Option Int
  /-- The function `S2_trivial(x, y, z, c, threads)`. -/
  S2_trivial : Nat → Nat → Nat → Nat → Nat → Int
  /-- The function `S2_easy(x, y, z, c, threads)`. -/
  S2_easy : Nat → Nat → Nat → Nat → Nat → Int

/-- The function `pi_deleglise_rivat1` (lines 200-222). The argument `x` is any `int64_t`;
past the guard `x < 2` it is non-negative. A value `y ≤ 0` makes `x / y` a division by zero or
leaves the non-negative range of the embedding, and gives `none`. -/
def pi_deleglise_rivat1 (K : Collaborators) (T : BinaryIndexedTree) (x : Int) : Option Int :=
  if x < 2 then some 0
  else do
    let alpha ← K.get_alpha_deleglise_rivat x
    let x13 ← K.iroot3 x
    let y ← K.scale x13 alpha
    if y ≤ 0 then none
    else do
      let z := x.toNat / y.toNat
      let c ← K.get_c y.toNat
      let p2 ← K.P2 x.toNat y.toNat 1
      let mu ← K.generate_moebius y.toNat
      let lpf ← K.generate_lpf y.toNat
      let pi_y ← K.pi_legendre y.toNat
      let s1 ← K.S1 x.toNat y.toNat c 1
      let s2 ← S2 T K.S2_trivial K.S2_easy x.toNat y.toNat z c lpf mu
      let phi := s1 + s2
      let sum := phi + pi_y - 1 - p2
      some sum

/-- Collaborators that all fail: whatever calls one of them does not return a value. -/
def failing_collaborators : Collaborators where
  D := Unit
  get_alpha_deleglise_rivat := fun _ => none
  iroot3 := fun _ => none
  scale := fun _ _ => none
  get_c := fun _ => none
  P2 := fun _ _ _ => none
  generate_moebius := fun _ => none
  generate_lpf := fun _ => none
  pi_legendre := fun _ => none
  S1 := fun _ _ _ _ => none
  S2_trivial := fun _ _ _ _ _ => 0
  S2_easy := fun _ _ _ _ _ => 0

/-! ## Reference definitions -/

/-- The function `phi(n, a)` of the glossary: the number of integers in `1..n` that are
divisible by none of the first `a` primes `primes[1], ..., primes[a]`. -/
def phi_ref (primes : List Nat) (n a : Nat) : Nat :=
  ((Finset.Icc 1 n).filter
    (fun v : Nat => ∀ j : Nat, 1 ≤ j → j ≤ a → ¬ primes.getD j 0 ∣ v)).card

/-- The Moebius-weighted sum of the hard leaves: over `c < b ≤ pi(isqrt(y))` and
`y / primes[b] < m ≤ y` with `mu(m) ≠ 0`, `primes[b] < lpf(m)` and
`1 ≤ x / (primes[b] * m) ≤ z`, of `mu(m) * phi(x / (primes[b] * m), b - 1)`. -/
def leaves_A (x y z c : Nat) (pi primes lpf : List Nat) (mu : List Int) : Int :=
  ∑ b ∈ Finset.Ioc c (pi.getD (isqrt y) 0),
    ∑ m ∈ (Finset.Ioc (y / primes.getD b 0) y).filter (fun m : Nat =>
        mu.getD m 0 ≠ 0 ∧ primes.getD b 0 < lpf.getD m 0 ∧
        1 ≤ x / (primes.getD b 0 * m) ∧ x / (primes.getD b 0 * m) ≤ z),
      mu.getD m 0 * (phi_ref primes (x / (primes.getD b 0 * m)) (b - 1) : Int)

/-- The prime-pair sum of the hard leaves with the lower bound `lo` of `b` as a parameter:
over `lo < b ≤ pi(min(isqrt(z), y))` and prime indices `l` with
`primes[b] < primes[l] ≤ min(z / primes[b], y)` and `1 ≤ x / (primes[b] * primes[l]) ≤ z`, of
`phi(x / (primes[b] * primes[l]), b - 1)`. -/
def leaves_B (lo x y z : Nat) (pi primes : List Nat) : Int :=
  ∑ b ∈ Finset.Ioc lo (pi.getD (min (isqrt z) y) 0),
    ∑ l ∈ (Finset.Icc 1 (primes.length - 1)).filter (fun l : Nat =>
        primes.getD b 0 < primes.getD l 0 ∧
        primes.getD l 0 ≤ min (z / primes.getD b 0) y ∧
        1 ≤ x / (primes.getD b 0 * primes.getD l 0) ∧
        x / (primes.getD b 0 * primes.getD l 0) ≤ z),
      (phi_ref primes (x / (primes.getD b 0 * primes.getD l 0)) (b - 1) : Int)

/-- The reference value of `S2_hard` as the specification words it: the prime-pair sum starts
right after `pi(isqrt(y))`. -/
def S2_hard_claimed (x y z c : Nat) (pi lpf : List Nat) (mu : List Int) : Int :=
  - leaves_A x y z c pi (generate_primes y) lpf mu
    + leaves_B (pi.getD (isqrt y) 0) x y z pi (generate_primes y)

/-- The reference value of `S2_hard` that the code computes: no prime index `b ≤ c` is
visited, so the prime-pair sum starts after `max(c, pi(isqrt(y)))`. -/
def S2_hard_ref (x y z c : Nat) (pi lpf : List Nat) (mu : List Int) : Int :=
  - leaves_A x y z c pi (generate_primes y) lpf mu
    + leaves_B (max c (pi.getD (isqrt y) 0)) x y z pi (generate_primes y)

/-- The ceiling square root `⌈√n⌉`. -/
def ceil_sqrt (n : Nat) : Nat :=
  if isqrt n * isqrt n = n then isqrt n else isqrt n + 1

/-- The contract of the tree that the leaf counting relies on, over an abstraction `abs` of
the tree state to the presence array it stands for: `init` takes over the array, `update`
removes a present offset, and `count(low, pos)` is the number of still-present positions in
`[low, pos]`, position `v` being offset `v - low`. -/
structure TreeContract (T : BinaryIndexedTree) (abs : T.τ → List Bool) : Prop where
  /-- After `init(sieve)` the tree stands for `sieve`. -/
  abs_init : ∀ (t : T.τ) (sieve : List Bool), abs (T.init t sieve) = sieve
  /-- The method `update(pos)` removes the present offset `pos`. -/
  abs_update : ∀ (t : T.τ) (pos : Nat), (abs t)[pos]? = some true →
    abs (T.update t pos) = (abs t).set pos false
  /-- The method `count(low, pos)` counts the present offsets `0 .. pos - low`. -/
  count_eq : ∀ (t : T.τ) (low pos : Nat), low ≤ pos → pos - low < (abs t).length →
    T.count t low pos = ((((abs t).take (pos - low + 1)).count true : Nat) : Int)

/-! ## The invariants of the segmented sieve -/

/-- The step with which the multiples of `primes[j]` are crossed off: `prime` in the pre-sieve
(`j ≤ c`), `prime * 2` in `cross_off` (`j > c`). -/
def stride (c : Nat) (primes : List Nat) (j : Nat) : Nat :=
  if j ≤ c then primes.getD j 0 else primes.getD j 0 * 2

/-- Position `u` is one that prime index `j` crosses off: it lies in the progression
`primes[j], primes[j] + stride, primes[j] + 2 * stride, ...`. -/
def removed (c : Nat) (primes : List Nat) (j u : Nat) : Prop :=
  u % stride c primes j = primes.getD j 0 % stride c primes j

instance (c : Nat) (primes : List Nat) (j u : Nat) : Decidable (removed c primes j u) := by
  unfold removed; infer_instance

/-- Position `u` is crossed off by none of the prime indices `1, ..., b - 1`. -/
def survives (c : Nat) (primes : List Nat) (b u : Nat) : Prop :=
  ∀ j : Nat, 1 ≤ j → j < b → ¬ removed c primes j u

instance (c : Nat) (primes : List Nat) (b u : Nat) : Decidable (survives c primes b u) := by
  unfold survives; infer_instance

/-- The number of positions in `1..n` that survive the prime indices `1, ..., b - 1`. -/
def phi_sieve (c : Nat) (primes : List Nat) (n b : Nat) : Nat :=
  ((Finset.Icc 1 n).filter (fun u : Nat => survives c primes b u)).card

/-- The cursor `v` of prime index `j` is right for a segment starting at `low`: it is the
first position `≥ low` that `j` crosses off. -/
def CursorOK (c : Nat) (primes : List Nat) (low j v : Nat) : Prop :=
  removed c primes j v ∧ low ≤ v ∧ v < low + stride c primes j

/-- The presence array of the segment `[low, high)` is at stage `b`: a position is present iff
it survives the prime indices `1, ..., b - 1`. -/
def SieveAt (c : Nat) (primes : List Nat) (low high b : Nat) (sieve : List Bool) : Prop :=
  ∀ u : Nat, low ≤ u → u < high → sieve[u - low]? = some (decide (survives c primes b u))

/-- The value of one phase-A leaf `(b, m)`. -/
def leafA (x c : Nat) (primes lpf : List Nat) (mu : List Int) (b m : Nat) : Int :=
  if mu.getD m 0 ≠ 0 ∧ primes.getD b 0 < lpf.getD m 0 then
    mu.getD m 0 * (phi_sieve c primes (x / (primes.getD b 0 * m)) b : Int)
  else 0

/-- The phase-A leaves of prime index `b` whose quotient `x / n` lies in `[lo, hi)`. -/
def segsumA (x y c : Nat) (primes lpf : List Nat) (mu : List Int) (lo hi b : Nat) : Int :=
  ∑ m ∈ Finset.Ioc (y / primes.getD b 0) y,
    if lo ≤ x / (primes.getD b 0 * m) ∧ x / (primes.getD b 0 * m) < hi then
      leafA x c primes lpf mu b m
    else 0

/-- The phase-B leaves of prime index `b` whose quotient `x / n` lies in `[lo, hi)`. -/
def segsumB (x y z c : Nat) (primes : List Nat) (lo hi b : Nat) : Int :=
  ∑ l ∈ Finset.Icc 1 (primes.length - 1),
    if primes.getD b 0 < primes.getD l 0 ∧ primes.getD l 0 ≤ min (z / primes.getD b 0) y ∧
        lo ≤ x / (primes.getD b 0 * primes.getD l 0) ∧
        x / (primes.getD b 0 * primes.getD l 0) < hi then
      (phi_sieve c primes (x / (primes.getD b 0 * primes.getD l 0)) b : Int)
    else 0

/-- The signed sum of all hard leaves whose quotient `x / n` lies in `[lo, hi)`. -/
def hard_sum (x y z c pi_sqrty pi_sqrtz : Nat) (primes lpf : List Nat) (mu : List Int)
    (lo hi : Nat) : Int :=
  - ∑ b ∈ Finset.Ioc c pi_sqrty, segsumA x y c primes lpf mu lo hi b
    + ∑ b ∈ Finset.Ioc (max c pi_sqrty) pi_sqrtz, segsumB x y z c primes lo hi b

/-- What the code needs of the prime table and the prime-count table of bound `y`. -/
structure PrimeTables (y : Nat) (primes pi : List Nat) : Prop where
  /-- The table starts with the sentinel `primes[0] = 0`. -/
  zero : primes.getD 0 0 = 0
  /-- The table is not empty. -/
  length_pos : 0 < primes.length
  /-- Every entry from index 1 on is at least 2. -/
  two_le : ∀ j : Nat, 1 ≤ j → j < primes.length → 2 ≤ primes.getD j 0
  /-- The first prime is 2. -/
  first : 1 < primes.length → primes.getD 1 0 = 2
  /-- The table is strictly increasing. -/
  mono : ∀ i j : Nat, i < j → j < primes.length → primes.getD i 0 < primes.getD j 0
  /-- The table has `y + 1` entries for the arguments `0..y`. -/
  pi_length : pi.length = y + 1
  /-- Every value of `pi` is an index of the prime table. -/
  pi_lt : ∀ n : Nat, n ≤ y → pi.getD n 0 < primes.length
  /-- The value `pi[n]` is the index of the last prime that is `≤ n`. -/
  pi_spec : ∀ n j : Nat, n ≤ y → j < primes.length → (primes.getD j 0 ≤ n ↔ j ≤ pi.getD n 0)

/-- The state is ready for the leaf queries of prime index `b` in the segment `[low, high)`:
the tree stands for the presence array, the array is at stage `b`, and `phi[b]` is the number
of positions below the segment that survive the prime indices `1, ..., b - 1`. -/
structure LeafReady (T : BinaryIndexedTree) (abs : T.τ → List Bool) (c : Nat)
    (primes : List Nat) (low high b : Nat) (st : HardState T) : Prop where
  /-- The tree stands for the presence array. -/
  tree_eq : abs st.tree = st.sieve
  /-- The presence array is at stage `b`. -/
  stage : SieveAt c primes low high b st.sieve
  /-- The segment fits into the presence array. -/
  window : high - low ≤ st.sieve.length
  /-- The index `b` is inside `phi`. -/
  phi_lt : b < st.phi.length
  /-- The running total of `b` covers the positions below the segment. -/
  phi_eq : st.phi.getD b 0 = (phi_sieve c primes (low - 1) b : Int)

/-- The invariant at the head of the phase loops, before prime index `b` is processed in the
segment `[low, high)`; the indices below `live` are the ones whose cursor and running total
have been kept up to date in every earlier segment. -/
structure PhaseInv (T : BinaryIndexedTree) (abs : T.τ → List Bool) (c : Nat)
    (primes : List Nat) (segment_size low high live b : Nat) (st : HardState T) : Prop where
  /-- The presence array has `segment_size` entries. -/
  sieve_len : st.sieve.length = segment_size
  /-- The segment fits into the presence array. -/
  window : high - low ≤ segment_size
  /-- The array `next` has one entry per entry of the prime table. -/
  next_len : st.next.length = primes.length
  /-- The array `phi` has one entry per entry of the prime table. -/
  phi_len : st.phi.length = primes.length
  /-- The tree stands for the presence array. -/
  tree_eq : abs st.tree = st.sieve
  /-- The presence array is at stage `b`. -/
  stage : SieveAt c primes low high b st.sieve
  /-- The cursors of the indices done in this segment are right for the next segment. -/
  done_cursor : ∀ j : Nat, 1 ≤ j → j < b → CursorOK c primes high j (st.next.getD j 0)
  /-- The running totals of the indices done in this segment cover the segment. -/
  done_phi : ∀ j : Nat, c < j → j < b →
    st.phi.getD j 0 = (phi_sieve c primes (high - 1) j : Int)
  /-- The cursors of the live indices still to do are right for this segment. -/
  todo_cursor : ∀ j : Nat, b ≤ j → j < live → CursorOK c primes low j (st.next.getD j 0)
  /-- The running totals of the live indices still to do cover the positions below. -/
  todo_phi : ∀ j : Nat, b ≤ j → j < live →
    st.phi.getD j 0 = (phi_sieve c primes (low - 1) j : Int)

/-- The invariant at the head of the segment loop, before the segment starting at `low`. -/
structure SegInv (T : BinaryIndexedTree) (c : Nat) (primes : List Nat)
    (segment_size low live : Nat) (st : HardState T) : Prop where
  /-- The presence array has `segment_size` entries. -/
  sieve_len : st.sieve.length = segment_size
  /-- The array `next` has one entry per entry of the prime table. -/
  next_len : st.next.length = primes.length
  /-- The array `phi` has one entry per entry of the prime table. -/
  phi_len : st.phi.length = primes.length
  /-- The cursors of the pre-sieve indices and of the live indices are right. -/
  cursor : ∀ j : Nat, 1 ≤ j → j ≤ c ∨ j < live → CursorOK c primes low j (st.next.getD j 0)
  /-- The running totals of the live indices cover the positions below `low`. -/
  phi_eq : ∀ j : Nat, c < j → j < live →
    st.phi.getD j 0 = (phi_sieve c primes (low - 1) j : Int)

/-- The early exit fires when prime index `b` is reached in a segment starting at `low`: the
test of line 124 for an index of phase A, the test of line 151 for an index of phase B. -/
def Dead (x y z pi_sqrty : Nat) (primes pi : List Nat) (low b : Nat) : Prop :=
  if b ≤ pi_sqrty then
    primes.getD b 0 ≥ min (x / (primes.getD b 0 * low)) y
  else
    primes.getD b 0 ≥
      primes.getD (pi.getD (min (min (x / (primes.getD b 0 * low)) (z / primes.getD b 0)) y) 0) 0

/-- What a call on the tree made while the segment `[low, high)` is processed looks like:
`init` is given the whole presence array, `update` is given the offset `m - low` of a position
`m` of the segment, and `count` is given the segment start `low` itself and a position of the
segment. -/
def SegCall (segment_size low high : Nat) : TreeCall → Prop
  | TreeCall.init size => size = segment_size
  | TreeCall.update pos => ∃ m : Nat, pos = m - low ∧ low ≤ m ∧ m < high
  | TreeCall.count a pos => a = low ∧ low ≤ pos ∧ pos < high

/-- The record `new` extends the record `old` by calls that all satisfy `P`. -/
def CallsFrom (P : TreeCall → Prop) (old new : List TreeCall) : Prop :=
  ∃ added : List TreeCall, new = old ++ added ∧ ∀ call ∈ added, P call

/-- What a call on the tree made by `S2_hard` looks like: it is a call of one of the segments
`[1 + k * segment_size, min(1 + (k + 1) * segment_size, z + 1))`. -/
def HardCall (segment_size z : Nat) (call : TreeCall) : Prop :=
  ∃ k : Nat, SegCall segment_size (1 + k * segment_size)
    (min (1 + k * segment_size + segment_size) (z + 1)) call

/-! ## The states that a run of `S2_hard` passes through -/

/-- The locals of `S2_hard` as lines 82-89 initialise them. -/
def S2_hard_init (T : BinaryIndexedTree) (segment_size y : Nat) : HardState T :=
  { sieve := List.replicate segment_size false
    next := generate_primes y
    phi := List.replicate (generate_primes y).length 0
    tree := T.empty
    S2_result := 0
    calls := [] }

/-- The state at the head of the segment loop (line 92) after `k` iterations, that is before
the segment starting at `low = 1 + k * segment_size`; `none` when the loop has ended before. -/
def segment_head (T : BinaryIndexedTree) (segment_size : Nat) (prune : Bool)
    (x y z c pi_sqrty pi_sqrtz : Nat) (primes pi lpf : List Nat) (mu : List Int)
    (st0 : HardState T) : Nat → Option (HardState T)
  | 0 => some st0
  | k + 1 => do
    let st ← segment_head T segment_size prune x y z c pi_sqrty pi_sqrtz primes pi lpf mu st0 k
    if 1 + k * segment_size < z + 1 then
      segment T segment_size prune x y z c pi_sqrty pi_sqrtz primes pi lpf mu
        (1 + k * segment_size) st
    else none

/-- The state of `S2_hard` at the head of the segment loop after `k` iterations. -/
def S2_hard_head (T : BinaryIndexedTree) (segment_size : Nat) (prune : Bool)
    (x y z c : Nat) (pi lpf : List Nat) (mu : List Int) (k : Nat) : Option (HardState T) := do
  let pi_sqrty ← pi[isqrt y]?
  let pi_sqrtz ← pi[min (isqrt z) y]?
  segment_head T segment_size prune x y z c pi_sqrty pi_sqrtz (generate_primes y) pi lpf mu
    (S2_hard_init T segment_size y) k

/-- The state of `S2_hard` in iteration `k` of the segment loop when the phase loops stand at
the head of their iteration for the prime index `b`: the body of the segment loop is run on
the state at the head of iteration `k` with both loop bounds cut to `b - 1`, so that lines
95-112 and the iterations of the indices below `b` are run and no more. (When an early exit
fires at an index below `b`, this is the state at that exit.) The theorem
`S2_hard_head_from_at` shows that the run passes through this state: the body with the bounds
of the code is `phases_from`, the phase loops run on from `b`, applied to it. -/
def S2_hard_at (T : BinaryIndexedTree) (segment_size : Nat) (prune : Bool)
    (x y z c : Nat) (pi lpf : List Nat) (mu : List Int) (k b : Nat) :
    Option (HardState T) := do
  let pi_sqrty ← pi[isqrt y]?
  let pi_sqrtz ← pi[min (isqrt z) y]?
  let st ← segment_head T segment_size prune x y z c pi_sqrty pi_sqrtz (generate_primes y) pi
    lpf mu (S2_hard_init T segment_size y) k
  if 1 + k * segment_size < z + 1 then
    segment T segment_size prune x y z c (min pi_sqrty (b - 1)) (min pi_sqrtz (b - 1))
      (generate_primes y) pi lpf mu (1 + k * segment_size) st
  else none

instance (x y z pi_sqrty : Nat) (primes pi : List Nat) (low b : Nat) :
    Decidable (Dead x y z pi_sqrty primes pi low b) := by
  unfold Dead; infer_instance

/-- The leaves of the prime index `b` are evaluated in the segment starting at `low`: `b` is in
the range `c + 1 .. max(pi_sqrty, pi_sqrtz)` of the two phase loops, and the early exit fires
neither when `b` is reached nor at an index before it. (The theorems `phases_from_stepA` and
`phases_from_stepB` show that the phase loops, reaching such an index, run its leaf loop.) -/
def Evaluated (x y z c pi_sqrty pi_sqrtz : Nat) (primes pi : List Nat) (low b : Nat) : Prop :=
  c < b ∧ b ≤ max pi_sqrty pi_sqrtz ∧
    ∀ j : Nat, j ≤ b → c < j → ¬ Dead x y z pi_sqrty primes pi low j

instance (x y z c pi_sqrty pi_sqrtz : Nat) (primes pi : List Nat) (low b : Nat) :
    Decidable (Evaluated x y z c pi_sqrty pi_sqrtz primes pi low b) := by
  unfold Evaluated; infer_instance

/-- The phase loops of the segment starting at `low` are left by `goto next_segment` at the
prime index `b`: `b` is the first index of the range `c + 1 .. max(pi_sqrty, pi_sqrtz)` at
which the exit test holds. (The theorem `phases_from_exit` shows that the phase loops,
reaching an index at which the test holds, are left at once.) -/
def ExitsAt (x y z c pi_sqrty pi_sqrtz : Nat) (primes pi : List Nat) (low b : Nat) : Prop :=
  c < b ∧ b ≤ max pi_sqrty pi_sqrtz ∧ Dead x y z pi_sqrty primes pi low b ∧
    ∀ j : Nat, j < b → c < j → ¬ Dead x y z pi_sqrty primes pi low j

instance (x y z c pi_sqrty pi_sqrtz : Nat) (primes pi : List Nat) (low b : Nat) :
    Decidable (ExitsAt x y z c pi_sqrty pi_sqrtz primes pi low b) := by
  unfold ExitsAt; infer_instance

/-- The count of the running-total invariant as the data model words it: the number of
integers in `1..n` that are divisible by none of `primes[0], ..., primes[b]`. -/
def phi_inclusive (primes : List Nat) (n b : Nat) : Nat :=
  ((Finset.Icc 1 n).filter (fun v : Nat => ∀ j : Nat, j ≤ b → ¬ primes.getD j 0 ∣ v)).card

/-- The two phase loops of the body of the segment loop (lines 118-165) from the prime index
`b` on, as the body runs them. -/
def phases_from (T : BinaryIndexedTree) (prune : Bool) (x y z low high pi_sqrty pi_sqrtz : Nat)
    (primes pi lpf : List Nat) (mu : List Int) (b : Nat) (st : HardState T) :
    Option (HardState T) := do
  match ← phaseA T prune x y low high pi_sqrty primes lpf mu pi_sqrty b st with
  | Flow.next_segment st3 => some st3
  | Flow.fallthrough b st3 =>
    match ← phaseB T prune x y z low high pi_sqrtz primes pi pi_sqrtz b st3 with
    | Flow.next_segment st4 => some st4
    | Flow.fallthrough _ st4 => some st4



/-! ## The Fenwick build loop of `practice/tree.cc` -/

/-- The locals of `main` in `practice/tree.cc` that the build loop writes: the array `tree_`
and, as a ghost record, the pair `(i, j - 1)` of every read `tree_[j - 1]` made while node `i`
is built. -/
structure BuildState where
  /-- The array `vector<int64_t> tree_`. -/
  tree_ : List Int
  /-- Ghost: the reads `tree_[j - 1]` of the inner loop, oldest first. -/
  reads : List (Nat × Nat)

/-- The expression `(i + 1) & ~i` of line 16 for an `int64_t` value `i ≥ 0`: the complement
`~i` has the 64-bit pattern `2^64 - 1 - i`. -/
def low_bit (i : Nat) : Nat :=
  (i + 1) &&& (2 ^ 64 - 1 - i)

/-- The inner loop (lines 17-20): `for (j = i; k >>= 1; j &= j - 1) tree_[i] += tree_[j - 1]`.
The condition shifts `k` and tests it; a read at index `-1` or past the end is undefined
behaviour. -/
def build_inner (i : Nat) : Nat → Nat → Nat → BuildState → Option BuildState
  | 0, k, _, s => if k >>> 1 ≠ 0 then none else some s
  | fuel + 1, k, j, s =>
    if k >>> 1 ≠ 0 then
      if j = 0 then none
      else do
        let a ← s.tree_[i]?
        let b ← s.tree_[j - 1]?
        build_inner i fuel (k >>> 1) (j &&& (j - 1))
          { tree_ := s.tree_.set i (a + b), reads := s.reads ++ [(i, j - 1)] }
    else some s

/-- The build loop (lines 13-21): `for (i = 0; i < size_; i++)`. The inner loop gets the fuel
64, the number of shifts after which any 64-bit `k` is zero. -/
def build_loop (sieve : List Int) (size_ : Nat) : Nat → Nat → BuildState → Option BuildState
  | 0, i, s => if i < size_ then none else some s
  | fuel + 1, i, s =>
    if i < size_ then do
      let v ← sieve[i * 2]?
      if i < s.tree_.length then do
        let k := low_bit i
        let s1 ← build_inner i 64 k i { s with tree_ := s.tree_.set i v }
        build_loop sieve size_ fuel (i + 1) s1
      else none
    else some s

/-- Lines 11-21 of `practice/tree.cc` for an input array `sieve`: `size_ = n / 2`, the array
`tree_(size_)` of zeros, and the build loop. -/
def tree_build (sieve : List Int) : Option BuildState :=
  let size_ := sieve.length / 2
  build_loop sieve size_ size_ 0 { tree_ := List.replicate size_ 0, reads := [] }

/-- The run of `main` in `practice/tree.cc`: `n = 16` and `sieve[i] = i` (lines 7-10). -/
def tree_main : Option BuildState :=
  tree_build ((List.range 16).map (fun i => (i : Int)))

/-- The sum that node `i` of the tree stands for: the entries `sieve[2 * j]` for the `k`
indices `j` in `(i - k, i]`, where `k = (i + 1) & ~i`. -/
def node_sum (sieve : List Int) (i : Nat) : Int :=
  ∑ j ∈ Finset.Ico (i + 1 - low_bit i) (i + 1), sieve.getD (2 * j) 0

/-! ## `ideal_num_threads` of `primecount.cpp` -/

/-- The conversion `(int) v` of an `int64_t` value `v`: the value modulo `2^32`, taken in the
range `-2^31 .. 2^31 - 1` of `int`. -/
def to_int (v : Int) : Int :=
  (v + 2 ^ 31) % 2 ^ 32 - 2 ^ 31

/-- The division `a / b` of `int64_t` values, rounding toward zero; a zero divisor and the
quotient `INT64_MIN / -1` are undefined behaviour. -/
def idiv (a b : Int) : Option Int :=
  if b = 0 ∨ (a = -2 ^ 63 ∧ b = -1) then none else some (Int.tdiv a b)

/-- The function `ideal_num_threads` (`primecount.cpp`, lines 228-234). The argument `threads`
is an `int`, the other two are `int64_t`. -/
def ideal_num_threads (threads sieve_limit thread_threshold : Int) : Option Int := do
  let thread_threshold := max 1 thread_threshold
  let threads := to_int (min threads (← idiv sieve_limit thread_threshold))
  let threads := max 1 threads
  some threads


/-! ## The guard on `update` -/

/-- The offsets passed to `update` in a record of tree calls, oldest first. -/
def update_offsets : List TreeCall → List Nat
  | [] => []
  | TreeCall.update pos :: rest => pos :: update_offsets rest
  | TreeCall.init _ :: rest => update_offsets rest
  | TreeCall.count _ _ :: rest => update_offsets rest

/-- The guard on `update` since the tree was built from the presence array `base`: the calls
`tail` made on the tree since then hold no `init`, the offsets they remove are pairwise
different, each of them is present in `base` and absent in the current presence array `sieve`,
and no entry that is absent in `base` is present in `sieve`. -/
structure Guarded (base sieve : List Bool) (tail : List TreeCall) : Prop where
  /-- The tree has not been rebuilt. -/
  no_init : ∀ size : Nat, TreeCall.init size ∉ tail
  /-- No offset is removed twice. -/
  nodup : (update_offsets tail).Nodup
  /-- Every removed offset was present when the tree was built. -/
  was_present : ∀ off ∈ update_offsets tail, base[off]? = some true
  /-- Every removed offset is absent now. -/
  now_absent : ∀ off ∈ update_offsets tail, sieve[off]? = some false
  /-- Every entry that is present now was present when the tree was built. -/
  below : ∀ i : Nat, sieve[i]? = some true → base[i]? = some true

/-- The state `st` is guarded since the tree was built from `base`, `pre` being the calls made
before the build and the build itself. -/
def GuardedSince {T : BinaryIndexedTree} (base : List Bool) (pre : List TreeCall)
    (st : HardState T) : Prop :=
  ∃ tail : List TreeCall, st.calls = pre ++ tail ∧ Guarded base st.sieve tail

/-- The state with which a phase loop was left. -/
def Flow.state {α : Type} : Flow α → α
  | Flow.fallthrough _ st => st
  | Flow.next_segment st => st


/-! ## Facts about the collaborators -/

theorem isqrt_sq_le (n : Nat) : isqrt n * isqrt n ≤ n := by
  unfold isqrt
  have h : (fun r => r * r ≤ n) (Nat.findGreatest (fun r => r * r ≤ n) n) :=
    Nat.findGreatest_spec (P := fun r => r * r ≤ n) (Nat.zero_le n) (by simp)
  exact h

theorem le_isqrt_iff (r n : Nat) : r ≤ isqrt n ↔ r * r ≤ n := by
  constructor
  · intro h
    exact le_trans (Nat.mul_le_mul h h) (isqrt_sq_le n)
  · intro h
    unfold isqrt
    have hr : r ≤ n := by
      rcases Nat.eq_zero_or_pos r with h0 | h0
      · omega
      · calc r = r * 1 := by ring
          _ ≤ r * r := Nat.mul_le_mul_left r h0
          _ ≤ n := h
    exact Nat.le_findGreatest (P := fun r => r * r ≤ n) hr h

theorem isqrt_le (n : Nat) : isqrt n ≤ n := by
  unfold isqrt
  exact Nat.findGreatest_le n

theorem isqrt_eq_sqrt (n : Nat) : isqrt n = Nat.sqrt n := by
  apply le_antisymm
  · rw [Nat.le_sqrt]
    exact isqrt_sq_le n
  · rw [le_isqrt_iff]
    exact Nat.sqrt_le n

/-- The primality test used by the table generators decides `Nat.Prime`. -/
theorem decide_prime_iff (n : Nat) :
    @decide (Nat.Prime n) (Nat.decidablePrime1 n) = true ↔ Nat.Prime n := by
  simp

theorem primes_below_sorted (y : Nat) :
    ((List.range (y + 1)).filter
      (fun n => @decide (Nat.Prime n) (Nat.decidablePrime1 n))).Pairwise (· < ·) :=
  List.Pairwise.filter _ (List.pairwise_lt_range (y + 1))

theorem generate_primes_sorted (y : Nat) : (generate_primes y).Pairwise (· < ·) := by
  unfold generate_primes
  rw [List.pairwise_cons]
  refine ⟨?_, primes_below_sorted y⟩
  intro p hp
  rw [List.mem_filter] at hp
  have := (decide_prime_iff p).1 hp.2
  exact this.pos

theorem generate_primes_length_pos (y : Nat) : 0 < (generate_primes y).length := by
  simp [generate_primes]

theorem generate_primes_zero (y : Nat) : (generate_primes y).getD 0 0 = 0 := by
  simp [generate_primes]

theorem generate_primes_mem (y j : Nat) (h1 : 1 ≤ j) (hj : j < (generate_primes y).length) :
    Nat.Prime ((generate_primes y).getD j 0) ∧ (generate_primes y).getD j 0 ≤ y := by
  obtain ⟨i, rfl⟩ : ∃ i, j = i + 1 := ⟨j - 1, by omega⟩
  unfold generate_primes at hj ⊢
  simp only [List.length_cons, Nat.add_lt_add_iff_right] at hj
  rw [List.getD_eq_getElem _ _ (by simpa using hj)]
  simp only [List.getElem_cons_succ]
  have hmem := List.getElem_mem hj
  rw [List.mem_filter, List.mem_range] at hmem
  exact ⟨(decide_prime_iff _).1 hmem.2, by omega⟩

theorem generate_primes_mono (y i j : Nat) (hij : i < j) (hj : j < (generate_primes y).length) :
    (generate_primes y).getD i 0 < (generate_primes y).getD j 0 := by
  rw [List.getD_eq_getElem _ _ (by omega), List.getD_eq_getElem _ _ hj]
  exact (List.pairwise_iff_getElem.1 (generate_primes_sorted y)) i j (by omega) hj hij

theorem generate_pi_length (y : Nat) : (generate_pi y).length = y + 1 := by
  simp [generate_pi]

theorem generate_pi_getD (y n : Nat) (hn : n ≤ y) :
    (generate_pi y).getD n 0 =
      ((List.range (n + 1)).filter
        (fun k => @decide (Nat.Prime k) (Nat.decidablePrime1 k))).length := by
  have hlt : n < (generate_pi y).length := by rw [generate_pi_length]; omega
  rw [List.getD_eq_getElem _ _ hlt]
  simp [generate_pi]

/-- The primes `≤ y` are the primes `≤ n` followed by primes `> n`. -/
theorem primes_below_split (y n : Nat) (hn : n ≤ y) :
    ∃ rest : List Nat,
      (List.range (y + 1)).filter (fun k => @decide (Nat.Prime k) (Nat.decidablePrime1 k)) =
        (List.range (n + 1)).filter (fun k => @decide (Nat.Prime k) (Nat.decidablePrime1 k))
          ++ rest ∧
      (∀ p ∈ rest, n < p) ∧
      (∀ p ∈ (List.range (n + 1)).filter
        (fun k => @decide (Nat.Prime k) (Nat.decidablePrime1 k)), p ≤ n) := by
  refine ⟨((List.range (y - n)).map (n + 1 + ·)).filter
    (fun k => @decide (Nat.Prime k) (Nat.decidablePrime1 k)), ?_, ?_, ?_⟩
  · rw [← List.filter_append, ← List.range_add]
    congr 2
    omega
  · intro p hp
    rw [List.mem_filter, List.mem_map] at hp
    obtain ⟨⟨k, _, rfl⟩, _⟩ := hp
    omega
  · intro p hp
    rw [List.mem_filter, List.mem_range] at hp
    omega

theorem generate_primes_pi_spec (y n j : Nat) (hn : n ≤ y) (hj : j < (generate_primes y).length) :
    (generate_primes y).getD j 0 ≤ n ↔ j ≤ (generate_pi y).getD n 0 := by
  rw [generate_pi_getD y n hn]
  obtain ⟨rest, hsplit, hrest, hfirst⟩ := primes_below_split y n hn
  rw [List.getD_eq_getElem _ _ hj]
  unfold generate_primes at hj ⊢
  simp only [hsplit] at hj ⊢
  rcases j with _ | i
  · simp
  · simp only [List.getElem_cons_succ]
    simp only [List.length_cons, List.length_append, Nat.add_lt_add_iff_right] at hj
    by_cases hi : i < ((List.range (n + 1)).filter
        (fun k => @decide (Nat.Prime k) (Nat.decidablePrime1 k))).length
    · rw [List.getElem_append_left hi]
      have := hfirst _ (List.getElem_mem hi)
      constructor
      · intro _; omega
      · intro _; exact this
    · have hi' : ((List.range (n + 1)).filter
        (fun k => @decide (Nat.Prime k) (Nat.decidablePrime1 k))).length ≤ i := by omega
      rw [List.getElem_append_right hi']
      have hlt : i - ((List.range (n + 1)).filter
        (fun k => @decide (Nat.Prime k) (Nat.decidablePrime1 k))).length < rest.length := by
        omega
      have := hrest _ (List.getElem_mem hlt)
      constructor
      · intro h; omega
      · intro h; omega

theorem generate_pi_lt (y n : Nat) (hn : n ≤ y) :
    (generate_pi y).getD n 0 < (generate_primes y).length := by
  rw [generate_pi_getD y n hn]
  obtain ⟨rest, hsplit, _, _⟩ := primes_below_split y n hn
  unfold generate_primes
  rw [hsplit]
  simp only [List.length_cons, List.length_append]
  omega

theorem generate_primes_first (y : Nat) (h : 1 < (generate_primes y).length) :
    (generate_primes y).getD 1 0 = 2 := by
  have h2 := (generate_primes_mem y 1 le_rfl h).1.two_le
  have hy := (generate_primes_mem y 1 le_rfl h).2
  -- the prime 2 is in the table, at an index that cannot exceed 1
  have hmem : 2 ∈ (List.range (y + 1)).filter
      (fun k => @decide (Nat.Prime k) (Nat.decidablePrime1 k)) := by
    rw [List.mem_filter, List.mem_range]
    exact ⟨by omega, (decide_prime_iff 2).2 Nat.prime_two⟩
  obtain ⟨i, hi, hget⟩ := List.getElem_of_mem hmem
  have hi' : i + 1 < (generate_primes y).length := by
    simpa [generate_primes] using hi
  have hval : (generate_primes y).getD (i + 1) 0 = 2 := by
    rw [List.getD_eq_getElem _ _ hi']
    simpa [generate_primes] using hget
  rcases Nat.eq_zero_or_pos i with h0 | h0
  · subst h0; exact hval
  · have := generate_primes_mono y 1 (i + 1) (by omega) hi'
    omega

/-- The generated tables have every property the code relies on. -/
theorem generate_tables (y : Nat) : PrimeTables y (generate_primes y) (generate_pi y) where
  zero := generate_primes_zero y
  length_pos := generate_primes_length_pos y
  two_le := fun j h1 hj => (generate_primes_mem y j h1 hj).1.two_le
  first := generate_primes_first y
  mono := generate_primes_mono y
  pi_length := generate_pi_length y
  pi_lt := generate_pi_lt y
  pi_spec := fun n j hn hj => generate_primes_pi_spec y n j hn hj

/-! ## Arithmetic of progressions and quotients -/

theorem mod_class_unique (s a b : Nat) (h : a % s = b % s) (hab : a ≤ b) (hb : b < a + s) :
    a = b := by
  have h0 : (b - a) % s = 0 := Nat.sub_mod_eq_zero_of_mod_eq h.symm
  have hd : s ∣ b - a := Nat.dvd_of_mod_eq_zero h0
  rcases Nat.eq_zero_or_pos (b - a) with hz | hpos
  · omega
  · have := Nat.le_of_dvd hpos hd
    omega

theorem le_div_swap (x p m low : Nat) (hp : 0 < p) (hm : 0 < m) (hlow : 0 < low) :
    low ≤ x / (p * m) ↔ m ≤ x / (p * low) := by
  rw [Nat.le_div_iff_mul_le (Nat.mul_pos hp hm), Nat.le_div_iff_mul_le (Nat.mul_pos hp hlow)]
  constructor <;> intro h <;> nlinarith [h]

theorem div_lt_swap (x p m high : Nat) (hp : 0 < p) (hm : 0 < m) (hhigh : 0 < high) :
    x / (p * m) < high ↔ x / (p * high) < m := by
  rw [Nat.div_lt_iff_lt_mul (Nat.mul_pos hp hm), Nat.div_lt_iff_lt_mul (Nat.mul_pos hp hhigh)]
  constructor <;> intro h <;> nlinarith [h]

/-! ## Counting present positions -/

theorem count_take_eq_card (P : Nat → Prop) [DecidablePred P] (sieve : List Bool)
    (low high : Nat)
    (h : ∀ u : Nat, low ≤ u → u < high → sieve[u - low]? = some (decide (P u))) :
    ∀ k : Nat, low + k ≤ high →
      (sieve.take k).count true = ((Finset.Ico low (low + k)).filter P).card := by
  intro k
  induction k with
  | zero => intro _; simp
  | succ k ih =>
    intro hk
    have hu := h (low + k) (by omega) (by omega)
    have hidx : low + k - low = k := by omega
    rw [hidx] at hu
    rw [List.take_succ, List.count_append, ih (by omega), hu]
    have hins : Finset.Ico low (low + (k + 1)) = insert (low + k) (Finset.Ico low (low + k)) := by
      ext u
      simp only [Finset.mem_Ico, Finset.mem_insert]
      omega
    rw [hins, Finset.filter_insert]
    by_cases hP : P (low + k)
    · simp [hP]
    · simp [hP]

theorem count_window (P : Nat → Prop) [DecidablePred P] (sieve : List Bool)
    (low high v : Nat)
    (h : ∀ u : Nat, low ≤ u → u < high → sieve[u - low]? = some (decide (P u)))
    (hv1 : low ≤ v) (hv2 : v < high) :
    (sieve.take (v - low + 1)).count true = ((Finset.Icc low v).filter P).card := by
  rw [count_take_eq_card P sieve low high h (v - low + 1) (by omega)]
  congr 2
  ext u
  simp only [Finset.mem_Ico, Finset.mem_Icc]
  omega

theorem card_below_add (P : Nat → Prop) [DecidablePred P] (low v : Nat) (h1 : 1 ≤ low)
    (hv : low ≤ v + 1) :
    ((Finset.Icc 1 (low - 1)).filter P).card + ((Finset.Icc low v).filter P).card =
      ((Finset.Icc 1 v).filter P).card := by
  rw [← Finset.card_union_of_disjoint]
  · congr 1
    ext u
    simp only [Finset.mem_union, Finset.mem_filter, Finset.mem_Icc]
    constructor
    · rintro (⟨h, hp⟩ | ⟨h, hp⟩)
      · exact ⟨by omega, hp⟩
      · exact ⟨by omega, hp⟩
    · rintro ⟨h, hp⟩
      by_cases hu : u < low
      · exact Or.inl ⟨by omega, hp⟩
      · exact Or.inr ⟨by omega, hp⟩
  · rw [Finset.disjoint_left]
    intro u h1 h2
    simp only [Finset.mem_filter, Finset.mem_Icc] at h1 h2
    omega

/-! ## The record of tree calls -/

theorem CallsFrom.refl (P : TreeCall → Prop) (l : List TreeCall) : CallsFrom P l l :=
  ⟨[], by simp, by simp⟩

theorem CallsFrom.trans {P : TreeCall → Prop} {l1 l2 l3 : List TreeCall}
    (h1 : CallsFrom P l1 l2) (h2 : CallsFrom P l2 l3) : CallsFrom P l1 l3 := by
  obtain ⟨a1, rfl, ha1⟩ := h1
  obtain ⟨a2, rfl, ha2⟩ := h2
  refine ⟨a1 ++ a2, by simp, ?_⟩
  intro call hc
  rcases List.mem_append.1 hc with h | h
  · exact ha1 call h
  · exact ha2 call h

theorem CallsFrom.snoc {P : TreeCall → Prop} (l : List TreeCall) (call : TreeCall)
    (h : P call) : CallsFrom P l (l ++ [call]) :=
  ⟨[call], rfl, by simpa using h⟩

theorem CallsFrom.mono {P Q : TreeCall → Prop} {l1 l2 : List TreeCall}
    (h : CallsFrom P l1 l2) (hPQ : ∀ call, P call → Q call) : CallsFrom Q l1 l2 := by
  obtain ⟨a, rfl, ha⟩ := h
  exact ⟨a, rfl, fun call hc => hPQ call (ha call hc)⟩

theorem CallsFrom.forall {P : TreeCall → Prop} {l1 l2 : List TreeCall}
    (h : CallsFrom P l1 l2) (h1 : ∀ call ∈ l1, P call) : ∀ call ∈ l2, P call := by
  obtain ⟨a, rfl, ha⟩ := h
  intro call hc
  rcases List.mem_append.1 hc with h | h
  · exact h1 call h
  · exact ha call h

/-! ## The crossing-off loops -/

/-- One step of a crossing-off loop on the presence array: clearing position `k` turns the
array described by "crossed below `k`" into the one described by "crossed below `k + s`". -/
theorem sieve_step (Q : Nat → Prop) [DecidablePred Q] (s r low high k : Nat) (sieve : List Bool)
    (hs : 0 < s) (hk : k % s = r) (hlow : low ≤ k) (hhigh : k < high)
    (hlen : high - low ≤ sieve.length)
    (h : ∀ u : Nat, low ≤ u → u < high →
      sieve[u - low]? = some (decide (Q u ∧ ¬ (u % s = r ∧ u < k)))) :
    ∀ u : Nat, low ≤ u → u < high →
      (sieve.set (k - low) false)[u - low]? =
        some (decide (Q u ∧ ¬ (u % s = r ∧ u < k + s))) := by
  intro u hu1 hu2
  by_cases huk : u = k
  · subst huk
    rw [List.getElem?_set_self (by omega)]
    have : ¬ (Q u ∧ ¬ (u % s = r ∧ u < u + s)) := by
      intro hq
      exact hq.2 ⟨hk, by omega⟩
    rw [decide_eq_false this]
  · rw [List.getElem?_set_ne (by omega), h u hu1 hu2]
    congr 1
    have : (u % s = r ∧ u < k + s) ↔ (u % s = r ∧ u < k) := by
      constructor
      · rintro ⟨h1, h2⟩
        refine ⟨h1, ?_⟩
        by_contra hge
        have := mod_class_unique s k u (by rw [hk, h1]) (by omega) (by omega)
        exact huk this.symm
      · rintro ⟨h1, h2⟩
        exact ⟨h1, by omega⟩
    simp only [this]

theorem presieve_loop_spec (Q : Nat → Prop) [DecidablePred Q] (s r low high : Nat)
    (hs : 0 < s) :
    ∀ (fuel k : Nat) (sieve : List Bool), high ≤ k + fuel → k % s = r → low ≤ k →
      k < high + s → high - low ≤ sieve.length →
      (∀ u : Nat, low ≤ u → u < high →
        sieve[u - low]? = some (decide (Q u ∧ ¬ (u % s = r ∧ u < k)))) →
      ∃ (k' : Nat) (sieve' : List Bool),
        presieve_loop s low high fuel k sieve = some (k', sieve') ∧
        sieve'.length = sieve.length ∧ k' % s = r ∧ high ≤ k' ∧ k' < high + s ∧
        ∀ u : Nat, low ≤ u → u < high →
          sieve'[u - low]? = some (decide (Q u ∧ ¬ u % s = r)) := by
  intro fuel
  induction fuel with
  | zero =>
    intro k sieve hfuel hk hlow hks hlen h
    refine ⟨k, sieve, ?_, rfl, hk, by omega, hks, ?_⟩
    · simp only [presieve_loop]
      rw [if_neg (by omega)]
    · intro u hu1 hu2
      rw [h u hu1 hu2]
      have : u < k := by omega
      simp [this]
  | succ fuel ih =>
    intro k sieve hfuel hk hlow hks hlen h
    by_cases hkh : k < high
    · have hstep := sieve_step Q s r low high k sieve hs hk hlow hkh hlen h
      obtain ⟨k', sieve', hrun, hlen', hk', hhk', hks', hfin⟩ :=
        ih (k + s) (sieve.set (k - low) false) (by omega)
          (by rw [Nat.add_mod_right]; exact hk) (by omega) (by omega)
          (by rw [List.length_set]; exact hlen) hstep
      refine ⟨k', sieve', ?_, ?_, hk', hhk', hks', hfin⟩
      · simp only [presieve_loop]
        rw [if_pos hkh, if_neg (by omega), if_pos (by omega)]
        exact hrun
      · rw [hlen', List.length_set]
    · refine ⟨k, sieve, ?_, rfl, hk, by omega, hks, ?_⟩
      · simp only [presieve_loop]
        rw [if_neg hkh]
      · intro u hu1 hu2
        rw [h u hu1 hu2]
        have : u < k := by omega
        simp [this]

theorem set_false_of_getElem? (l : List Bool) (i : Nat) (h : l[i]? = some false) :
    l.set i false = l := by
  apply List.ext_getElem?
  intro j
  by_cases hij : i = j
  · subst hij
    have hlt : i < l.length := by
      by_contra hge
      rw [List.getElem?_eq_none (by omega)] at h
      exact Option.noConfusion h
    rw [List.getElem?_set_self hlt, h]
  · rw [List.getElem?_set_ne hij]

theorem cross_off_loop_spec (T : BinaryIndexedTree) (abs : T.τ → List Bool)
    (hT : TreeContract T abs) (Q : Nat → Prop) [DecidablePred Q] (p r low high : Nat)
    (hp : 0 < p) :
    ∀ (fuel m : Nat) (st : HardState T), high ≤ m + fuel → m % (p * 2) = r → low ≤ m →
      m < high + p * 2 → high - low ≤ st.sieve.length → abs st.tree = st.sieve →
      (∀ u : Nat, low ≤ u → u < high →
        st.sieve[u - low]? = some (decide (Q u ∧ ¬ (u % (p * 2) = r ∧ u < m)))) →
      ∃ (m' : Nat) (st' : HardState T),
        cross_off_loop T p low high fuel m st = some (m', st') ∧
        st'.sieve.length = st.sieve.length ∧ abs st'.tree = st'.sieve ∧
        st'.next = st.next ∧ st'.phi = st.phi ∧ st'.S2_result = st.S2_result ∧
        m' % (p * 2) = r ∧ high ≤ m' ∧ m' < high + p * 2 ∧
        (∀ u : Nat, low ≤ u → u < high →
          st'.sieve[u - low]? = some (decide (Q u ∧ ¬ u % (p * 2) = r))) ∧
        CallsFrom (SegCall st.sieve.length low high) st.calls st'.calls := by
  have hs : 0 < p * 2 := by omega
  intro fuel
  induction fuel with
  | zero =>
    intro m st hfuel hm hlow hms hlen habs h
    refine ⟨m, st, ?_, rfl, habs, rfl, rfl, rfl, hm, by omega, hms, ?_, CallsFrom.refl _ _⟩
    · simp only [cross_off_loop]
      rw [if_neg (by omega)]
    · intro u hu1 hu2
      rw [h u hu1 hu2]
      have : u < m := by omega
      simp [this]
  | succ fuel ih =>
    intro m st hfuel hm hlow hms hlen habs h
    by_cases hmh : m < high
    · have hstep := sieve_step Q (p * 2) r low high m st.sieve hs hm hlow hmh hlen h
      have hcur := h m hlow hmh
      by_cases hq : Q m
      · -- the position is present: it is cleared and the tree is told
        have hval : st.sieve[m - low]? = some true := by
          rw [hcur]
          have : Q m ∧ ¬ (m % (p * 2) = r ∧ m < m) := ⟨hq, fun hh => by omega⟩
          rw [decide_eq_true this]
        obtain ⟨m', st', hrun, hlen', habs', hnext, hphi, hres, hm', hhm', hms', hfin, hcalls⟩ :=
          ih (m + p * 2)
            { st with
              sieve := st.sieve.set (m - low) false
              tree := T.update st.tree (m - low)
              calls := st.calls ++ [TreeCall.update (m - low)] }
            (by omega) (by rw [Nat.add_mod_right]; exact hm) (by omega) (by omega)
            (by simp only [List.length_set]; exact hlen)
            (by
              simp only
              rw [hT.abs_update st.tree (m - low) (by rw [habs]; exact hval), habs])
            hstep
        refine ⟨m', st', ?_, ?_, habs', hnext, hphi, hres, hm', hhm', hms', hfin, ?_⟩
        · simp only [cross_off_loop]
          rw [if_pos hmh, if_neg (by omega), hval]
          exact hrun
        · rw [hlen']; simp only [List.length_set]
        · simp only [List.length_set] at hcalls
          exact CallsFrom.trans (CallsFrom.snoc _ _
            (show SegCall _ low high (TreeCall.update (m - low)) from ⟨m, rfl, hlow, hmh⟩)) hcalls
      · -- the position is absent already: nothing changes
        have hval : st.sieve[m - low]? = some false := by
          rw [hcur]
          have : ¬ (Q m ∧ ¬ (m % (p * 2) = r ∧ m < m)) := fun hh => hq hh.1
          rw [decide_eq_false this]
        rw [set_false_of_getElem? st.sieve (m - low) hval] at hstep
        obtain ⟨m', st', hrun, hlen', habs', hnext, hphi, hres, hm', hhm', hms', hfin, hcalls⟩ :=
          ih (m + p * 2) st (by omega) (by rw [Nat.add_mod_right]; exact hm) (by omega)
            (by omega) hlen habs hstep
        refine ⟨m', st', ?_, hlen', habs', hnext, hphi, hres, hm', hhm', hms', hfin, hcalls⟩
        simp only [cross_off_loop]
        rw [if_pos hmh, if_neg (by omega), hval]
        exact hrun
    · refine ⟨m, st, ?_, rfl, habs, rfl, rfl, rfl, hm, by omega, hms, ?_, CallsFrom.refl _ _⟩
      · simp only [cross_off_loop]
        rw [if_neg hmh]
      · intro u hu1 hu2
        rw [h u hu1 hu2]
        have : u < m := by omega
        simp [this]

/-! ## Stages of the sieve -/

theorem getElem?_eq_some_getD {α : Type} (l : List α) (i : Nat) (d : α) (h : i < l.length) :
    l[i]? = some (l.getD i d) := by
  rw [List.getD_eq_getElem _ _ h, List.getElem?_eq_getElem h]

theorem getD_set_self {α : Type} (l : List α) (i : Nat) (a d : α) (h : i < l.length) :
    (l.set i a).getD i d = a := by
  simp [List.getD_eq_getElem?_getD, List.getElem?_set_self h]

theorem getD_set_ne {α : Type} (l : List α) (i j : Nat) (a d : α) (h : i ≠ j) :
    (l.set i a).getD j d = l.getD j d := by
  simp [List.getD_eq_getElem?_getD, List.getElem?_set_ne h]

theorem survives_succ (c : Nat) (primes : List Nat) (b u : Nat) (hb : 1 ≤ b) :
    survives c primes (b + 1) u ↔ survives c primes b u ∧ ¬ removed c primes b u := by
  unfold survives
  constructor
  · intro h
    exact ⟨fun j h1 h2 => h j h1 (by omega), h b hb (by omega)⟩
  · rintro ⟨h1, h2⟩ j hj1 hj2
    by_cases hjb : j = b
    · subst hjb; exact h2
    · exact h1 j hj1 (by omega)

theorem survives_one (c : Nat) (primes : List Nat) (u : Nat) : survives c primes 1 u := by
  intro j h1 h2
  omega

/-- Below a right cursor nothing of the segment is crossed off by that prime index. -/
theorem not_removed_below_cursor (c : Nat) (primes : List Nat) (low j k u : Nat)
    (hk : CursorOK c primes low j k) (hu1 : low ≤ u) (hu2 : u < k) :
    ¬ removed c primes j u := by
  intro hr
  obtain ⟨hrk, hlk, hks⟩ := hk
  unfold removed at hr hrk
  have := mod_class_unique (stride c primes j) u k (by rw [hr, hrk]) (by omega) (by omega)
  omega

theorem presieve_spec (T : BinaryIndexedTree) (c : Nat) (primes : List Nat) (low high : Nat)
    (hc : c < primes.length) (hpos : ∀ j : Nat, 1 ≤ j → j ≤ c → 0 < primes.getD j 0)
    (hlh : low ≤ high) :
    ∀ (fuel b : Nat) (st : HardState T), c + 1 ≤ b + fuel → 1 ≤ b → b ≤ c + 1 →
      st.next.length = primes.length → high - low ≤ st.sieve.length →
      SieveAt c primes low high b st.sieve →
      (∀ j : Nat, b ≤ j → j ≤ c → CursorOK c primes low j (st.next.getD j 0)) →
      ∃ st' : HardState T,
        presieve T primes c low high fuel b st = some st' ∧
        st'.sieve.length = st.sieve.length ∧ st'.next.length = st.next.length ∧
        SieveAt c primes low high (c + 1) st'.sieve ∧
        (∀ j : Nat, b ≤ j → j ≤ c → CursorOK c primes high j (st'.next.getD j 0)) ∧
        (∀ j : Nat, j < b ∨ c < j → st'.next.getD j 0 = st.next.getD j 0) ∧
        st'.phi = st.phi ∧ st'.tree = st.tree ∧ st'.S2_result = st.S2_result ∧
        st'.calls = st.calls := by
  intro fuel
  induction fuel with
  | zero =>
    intro b st hfuel hb1 hbc hnext hlen hsieve hcur
    have hb : b = c + 1 := by omega
    subst hb
    refine ⟨st, ?_, rfl, rfl, hsieve, ?_, fun _ _ => rfl, rfl, rfl, rfl, rfl⟩
    · simp only [presieve]
      rw [if_neg (by omega)]
    · intro j h1 h2; omega
  | succ fuel ih =>
    intro b st hfuel hb1 hbc hnext hlen hsieve hcur
    by_cases hb : b ≤ c
    · have hstride : stride c primes b = primes.getD b 0 := by
        unfold stride; rw [if_pos hb]
      have hp := hpos b hb1 hb
      have hk := hcur b le_rfl hb
      -- the inner loop brings the array from stage `b` to stage `b + 1`
      have hstart : ∀ u : Nat, low ≤ u → u < high →
          st.sieve[u - low]? = some (decide (survives c primes b u ∧
            ¬ (u % primes.getD b 0 = primes.getD b 0 % primes.getD b 0 ∧
              u < st.next.getD b 0))) := by
        intro u hu1 hu2
        rw [hsieve u hu1 hu2]
        congr 1
        have : ¬ (u % primes.getD b 0 = primes.getD b 0 % primes.getD b 0 ∧
            u < st.next.getD b 0) := by
          rintro ⟨h1, h2⟩
          apply not_removed_below_cursor c primes low b _ u hk hu1 h2
          unfold removed
          rw [hstride]; exact h1
        simp only [this, not_false_eq_true, and_true]
      obtain ⟨hk1, hk2, hk3⟩ := hk
      unfold removed at hk1
      rw [hstride] at hk1 hk3
      obtain ⟨k', sieve', hrun, hlen', hk', hhk', hks', hfin⟩ :=
        presieve_loop_spec (fun u => survives c primes b u) (primes.getD b 0)
          (primes.getD b 0 % primes.getD b 0) low high hp high (st.next.getD b 0) st.sieve
          (by omega) hk1 hk2 (by omega) hlen hstart
      have hstage : SieveAt c primes low high (b + 1) sieve' := by
        intro u hu1 hu2
        rw [hfin u hu1 hu2]
        congr 1
        apply decide_eq_decide.2
        rw [survives_succ c primes b u hb1]
        unfold removed
        rw [hstride]
      obtain ⟨st', hrun', hl1, hl2, hs', hc', hother, hphi, htree, hres, hcalls⟩ :=
        ih (b + 1) { st with sieve := sieve', next := st.next.set b k' } (by omega) (by omega)
          (by omega) (by simp only [List.length_set]; exact hnext)
          (by simp only; rw [hlen']; exact hlen) hstage
          (by
            intro j hj1 hj2
            simp only
            rw [getD_set_ne _ _ _ _ _ (by omega)]
            exact hcur j (by omega) hj2)
      refine ⟨st', ?_, ?_, ?_, hs', ?_, ?_, hphi, htree, hres, hcalls⟩
      · simp only [presieve]
        rw [if_pos hb, getElem?_eq_some_getD st.next b 0 (by omega),
          getElem?_eq_some_getD primes b 0 (by omega)]
        simp only [Option.bind_eq_bind, Option.some_bind, hrun]
        exact hrun'
      · rw [hl1]; simp only; exact hlen'
      · rw [hl2]; simp only [List.length_set]
      · intro j hj1 hj2
        by_cases hjb : j = b
        · subst hjb
          rw [hother j (Or.inl (by omega))]
          simp only
          rw [getD_set_self _ _ _ _ (by omega)]
          refine ⟨?_, hhk', ?_⟩
          · unfold removed; rw [hstride]; exact hk'
          · rw [hstride]; exact hks'
        · exact hc' j (by omega) hj2
      · intro j hj
        rw [hother j (by omega)]
        simp only
        rw [getD_set_ne _ _ _ _ _ (by omega)]
    · have hb' : b = c + 1 := by omega
      subst hb'
      refine ⟨st, ?_, rfl, rfl, hsieve, ?_, fun _ _ => rfl, rfl, rfl, rfl, rfl⟩
      · simp only [presieve]
        rw [if_neg (by omega)]
      · intro j h1 h2; omega

/-! ## The leaf loops -/

/-- A leaf query returns `phi`: the running total plus the live count of the tree is the
number of positions in `1..v` that survive the prime indices `1, ..., b - 1`. -/
theorem query_eq (T : BinaryIndexedTree) (abs : T.τ → List Bool) (hT : TreeContract T abs)
    (c : Nat) (primes : List Nat) (low high b v : Nat) (st : HardState T)
    (h : LeafReady T abs c primes low high b st) (hlow : 1 ≤ low) (hv1 : low ≤ v)
    (hv2 : v < high) :
    st.phi.getD b 0 + T.count st.tree low v = (phi_sieve c primes v b : Int) := by
  have hwin := h.window
  rw [hT.count_eq st.tree low v hv1 (by rw [h.tree_eq]; omega), h.tree_eq, h.phi_eq,
    count_window (fun u => survives c primes b u) st.sieve low high v h.stage hv1 hv2]
  unfold phi_sieve
  rw [← Nat.cast_add, card_below_add (fun u => survives c primes b u) low v hlow (by omega)]

theorem cdiv_pos (a b : Nat) (h : 0 < b) : cdiv a b = some (a / b) := by
  unfold cdiv
  rw [if_neg (by omega)]

theorem leavesA_spec (T : BinaryIndexedTree) (abs : T.τ → List Bool) (hT : TreeContract T abs)
    (x y c low high b min_m : Nat) (primes lpf : List Nat) (mu : List Int)
    (hp : 0 < primes.getD b 0) (hlow : 1 ≤ low) (hhigh : 0 < high)
    (hmu : y < mu.length) (hlpf : y < lpf.length)
    (hmin : x / (primes.getD b 0 * high) ≤ min_m) :
    ∀ (m : Nat) (st : HardState T), m ≤ y → m ≤ x / (primes.getD b 0 * low) →
      LeafReady T abs c primes low high b st →
      ∃ st' : HardState T,
        leavesA T x low b (primes.getD b 0) min_m lpf mu m st = some st' ∧
        st'.S2_result = st.S2_result - ∑ m' ∈ Finset.Ioc min_m m, leafA x c primes lpf mu b m' ∧
        st'.sieve = st.sieve ∧ st'.next = st.next ∧ st'.phi = st.phi ∧ st'.tree = st.tree ∧
        CallsFrom (SegCall st.sieve.length low high) st.calls st'.calls := by
  intro m
  induction m with
  | zero =>
    intro st _ _ _
    exact ⟨st, by simp [leavesA], by simp, rfl, rfl, rfl, rfl, CallsFrom.refl _ _⟩
  | succ m ih =>
    intro st hmy hmx hready
    by_cases hgt : m + 1 > min_m
    · have hsum : ∑ m' ∈ Finset.Ioc min_m (m + 1), leafA x c primes lpf mu b m' =
          ∑ m' ∈ Finset.Ioc min_m m, leafA x c primes lpf mu b m' +
            leafA x c primes lpf mu b (m + 1) := Finset.sum_Ioc_succ_top (by omega) _
      have hmuget : mu[m + 1]? = some (mu.getD (m + 1) 0) :=
        getElem?_eq_some_getD mu (m + 1) 0 (by omega)
      have hlpfget : lpf[m + 1]? = some (lpf.getD (m + 1) 0) :=
        getElem?_eq_some_getD lpf (m + 1) 0 (by omega)
      by_cases hleaf : mu.getD (m + 1) 0 ≠ 0 ∧ primes.getD b 0 < lpf.getD (m + 1) 0
      · -- a leaf: the query lies in the segment
        have hv1 : low ≤ x / (primes.getD b 0 * (m + 1)) :=
          (le_div_swap x _ (m + 1) low hp (by omega) (by omega)).2 hmx
        have hv2 : x / (primes.getD b 0 * (m + 1)) < high :=
          (div_lt_swap x _ (m + 1) high hp (by omega) hhigh).2 (by omega)
        have hq := query_eq T abs hT c primes low high b _ st hready hlow hv1 hv2
        obtain ⟨st', hrun, hres, hs, hn, hph, ht, hcalls⟩ :=
          ih { st with
               S2_result := st.S2_result - mu.getD (m + 1) 0 *
                 (st.phi.getD b 0 + T.count st.tree low (x / (primes.getD b 0 * (m + 1))))
               calls := st.calls ++
                 [TreeCall.count low (x / (primes.getD b 0 * (m + 1)))] }
            (by omega) (by omega)
            ⟨hready.tree_eq, hready.stage, hready.window, hready.phi_lt, hready.phi_eq⟩
        refine ⟨st', ?_, ?_, hs, hn, hph, ht,
          CallsFrom.trans (CallsFrom.snoc _ _
            (show SegCall _ low high (TreeCall.count low _) from ⟨rfl, hv1, hv2⟩)) hcalls⟩
        · simp only [leavesA]
          rw [if_pos hgt, hmuget]
          simp only [Option.bind_eq_bind, Option.some_bind]
          rw [if_pos hleaf.1, hlpfget]
          simp only [Option.some_bind]
          rw [if_pos hleaf.2, cdiv_pos _ _ (Nat.mul_pos hp (by omega)),
            getElem?_eq_some_getD st.phi b 0 hready.phi_lt]
          simp only [Option.some_bind]
          exact hrun
        · rw [hres, hsum]
          simp only
          rw [hq]
          unfold leafA
          rw [if_pos hleaf]
          ring
      · -- not a leaf
        obtain ⟨st', hrun, hres, hs, hn, hph, ht, hcalls⟩ :=
          ih st (by omega) (by omega) hready
        refine ⟨st', ?_, ?_, hs, hn, hph, ht, hcalls⟩
        · simp only [leavesA]
          rw [if_pos hgt, hmuget]
          simp only [Option.bind_eq_bind, Option.some_bind]
          by_cases hmu0 : mu.getD (m + 1) 0 ≠ 0
          · rw [if_pos hmu0, hlpfget]
            simp only [Option.some_bind]
            rw [if_neg (fun hh => hleaf ⟨hmu0, hh⟩)]
            exact hrun
          · rw [if_neg hmu0]
            exact hrun
        · rw [hres, hsum]
          unfold leafA
          rw [if_neg hleaf]
          ring
    · refine ⟨st, ?_, ?_, rfl, rfl, rfl, rfl, CallsFrom.refl _ _⟩
      · simp only [leavesA]
        rw [if_neg hgt]
      · rw [Finset.Ioc_eq_empty (by omega)]
        simp

theorem primes_mono_le (y : Nat) (primes pi : List Nat) (htab : PrimeTables y primes pi)
    (i j : Nat) (hij : i ≤ j) (hj : j < primes.length) :
    primes.getD i 0 ≤ primes.getD j 0 := by
  rcases Nat.eq_or_lt_of_le hij with h | h
  · subst h; exact le_rfl
  · exact le_of_lt (htab.mono i j h hj)

theorem leavesB_spec (T : BinaryIndexedTree) (abs : T.τ → List Bool) (hT : TreeContract T abs)
    (x y c low high b min_hard : Nat) (primes pi : List Nat) (htab : PrimeTables y primes pi)
    (hp : 0 < primes.getD b 0) (hlow : 1 ≤ low) (hhigh : 0 < high)
    (hmin : x / (primes.getD b 0 * high) ≤ min_hard) :
    ∀ (l : Nat) (st : HardState T), l < primes.length →
      primes.getD l 0 ≤ x / (primes.getD b 0 * low) →
      LeafReady T abs c primes low high b st →
      ∃ st' : HardState T,
        leavesB T x low b (primes.getD b 0) min_hard primes l st = some st' ∧
        st'.S2_result = st.S2_result + ∑ l' ∈ Finset.range (l + 1),
          (if min_hard < primes.getD l' 0 then
            (phi_sieve c primes (x / (primes.getD b 0 * primes.getD l' 0)) b : Int) else 0) ∧
        st'.sieve = st.sieve ∧ st'.next = st.next ∧ st'.phi = st.phi ∧ st'.tree = st.tree ∧
        CallsFrom (SegCall st.sieve.length low high) st.calls st'.calls := by
  intro l
  induction l with
  | zero =>
    intro st hl _ _
    refine ⟨st, ?_, ?_, rfl, rfl, rfl, rfl, CallsFrom.refl _ _⟩
    · rw [leavesB, getElem?_eq_some_getD primes 0 0 hl, htab.zero]
      simp
    · rw [Finset.sum_range_one, if_neg (by rw [htab.zero]; omega)]
      simp
  | succ l ih =>
    intro st hl hle hready
    have hget : primes[l + 1]? = some (primes.getD (l + 1) 0) :=
      getElem?_eq_some_getD primes (l + 1) 0 hl
    by_cases hgt : primes.getD (l + 1) 0 > min_hard
    · have hpl : 0 < primes.getD (l + 1) 0 := by omega
      have hv1 : low ≤ x / (primes.getD b 0 * primes.getD (l + 1) 0) :=
        (le_div_swap x _ _ low hp hpl (by omega)).2 hle
      have hv2 : x / (primes.getD b 0 * primes.getD (l + 1) 0) < high :=
        (div_lt_swap x _ _ high hp hpl hhigh).2 (by omega)
      have hq := query_eq T abs hT c primes low high b _ st hready hlow hv1 hv2
      have hmono := primes_mono_le y primes pi htab l (l + 1) (by omega) hl
      obtain ⟨st', hrun, hres, hs, hn, hph, ht, hcalls⟩ :=
        ih { st with
             S2_result := st.S2_result +
               (st.phi.getD b 0 +
                 T.count st.tree low (x / (primes.getD b 0 * primes.getD (l + 1) 0)))
             calls := st.calls ++
               [TreeCall.count low (x / (primes.getD b 0 * primes.getD (l + 1) 0))] }
          (by omega) (by omega)
          ⟨hready.tree_eq, hready.stage, hready.window, hready.phi_lt, hready.phi_eq⟩
      refine ⟨st', ?_, ?_, hs, hn, hph, ht,
        CallsFrom.trans (CallsFrom.snoc _ _
          (show SegCall _ low high (TreeCall.count low _) from ⟨rfl, hv1, hv2⟩)) hcalls⟩
      · rw [leavesB, hget]
        simp only [Option.bind_eq_bind, Option.some_bind]
        rw [if_pos hgt, cdiv_pos _ _ (Nat.mul_pos hp hpl),
          getElem?_eq_some_getD st.phi b 0 hready.phi_lt]
        simp only [Option.some_bind]
        exact hrun
      · rw [hres, Finset.sum_range_succ _ (l + 1), if_pos hgt]
        simp only
        rw [hq]
        ring
    · refine ⟨st, ?_, ?_, rfl, rfl, rfl, rfl, CallsFrom.refl _ _⟩
      · rw [leavesB, hget]
        simp only [Option.bind_eq_bind, Option.some_bind]
        rw [if_neg hgt]
      · rw [Finset.sum_eq_zero]
        · simp
        · intro l' hl'
          rw [Finset.mem_range] at hl'
          have := primes_mono_le y primes pi htab l' (l + 1) (by omega) hl
          rw [if_neg (by omega)]

theorem fold_and_cross_off_spec (T : BinaryIndexedTree) (abs : T.τ → List Bool)
    (hT : TreeContract T abs) (c : Nat) (primes : List Nat) (low high b : Nat)
    (st : HardState T) (hp : 0 < primes.getD b 0) (hlow : 1 ≤ low) (hlh : low < high)
    (hcb : c < b) (hnext : b < st.next.length)
    (hready : LeafReady T abs c primes low high b st)
    (hcur : CursorOK c primes low b (st.next.getD b 0)) :
    ∃ st' : HardState T,
      fold_and_cross_off T low high b (primes.getD b 0) st = some st' ∧
      st'.sieve.length = st.sieve.length ∧ abs st'.tree = st'.sieve ∧
      SieveAt c primes low high (b + 1) st'.sieve ∧
      st'.S2_result = st.S2_result ∧
      (∃ m : Nat, st'.next = st.next.set b m ∧ CursorOK c primes high b m) ∧
      st'.phi = st.phi.set b (phi_sieve c primes (high - 1) b : Int) ∧
      CallsFrom (SegCall st.sieve.length low high) st.calls st'.calls := by
  have hstride : stride c primes b = primes.getD b 0 * 2 := by
    unfold stride; rw [if_neg (by omega)]
  have hq := query_eq T abs hT c primes low high b (high - 1) st hready hlow (by omega)
    (by omega)
  obtain ⟨hk1, hk2, hk3⟩ := hcur
  have hstart : ∀ u : Nat, low ≤ u → u < high →
      st.sieve[u - low]? = some (decide (survives c primes b u ∧
        ¬ (u % (primes.getD b 0 * 2) = primes.getD b 0 % (primes.getD b 0 * 2) ∧
          u < st.next.getD b 0))) := by
    intro u hu1 hu2
    rw [hready.stage u hu1 hu2]
    congr 1
    apply decide_eq_decide.2
    have : ¬ (u % (primes.getD b 0 * 2) = primes.getD b 0 % (primes.getD b 0 * 2) ∧
        u < st.next.getD b 0) := by
      rintro ⟨h1, h2⟩
      apply not_removed_below_cursor c primes low b _ u ⟨hk1, hk2, hk3⟩ hu1 h2
      unfold removed
      rw [hstride]; exact h1
    simp only [this, not_false_eq_true, and_true]
  unfold removed at hk1
  rw [hstride] at hk1 hk3
  obtain ⟨m', st', hrun, hlen', habs', hnext', hphi', hres', hm', hhm', hms', hfin, hcalls⟩ :=
    cross_off_loop_spec T abs hT (fun u => survives c primes b u) (primes.getD b 0)
      (primes.getD b 0 % (primes.getD b 0 * 2)) low high hp high (st.next.getD b 0)
      { st with
        phi := st.phi.set b (st.phi.getD b 0 + T.count st.tree low (high - 1))
        calls := st.calls ++ [TreeCall.count low (high - 1)] }
      (by omega) hk1 hk2 (by omega) hready.window hready.tree_eq hstart
  refine ⟨{ st' with next := st'.next.set b m' }, ?_, hlen', habs', ?_, hres',
    ⟨m', ?_, ?_, hhm', ?_⟩, ?_,
    CallsFrom.trans (CallsFrom.snoc _ _
      (show SegCall _ low high (TreeCall.count low (high - 1)) from
        ⟨rfl, by omega, by omega⟩)) hcalls⟩
  · unfold fold_and_cross_off
    rw [getElem?_eq_some_getD st.phi b 0 hready.phi_lt]
    simp only [Option.bind_eq_bind, Option.some_bind]
    rw [getElem?_eq_some_getD st.next b 0 hnext]
    simp only [Option.some_bind]
    unfold cross_off
    rw [hrun]
    simp only [Option.some_bind]
  · intro u hu1 hu2
    rw [hfin u hu1 hu2]
    congr 1
    apply decide_eq_decide.2
    rw [survives_succ c primes b u (by omega)]
    unfold removed
    rw [hstride]
  · simp only
    rw [hnext']
  · unfold removed; rw [hstride]; exact hm'
  · rw [hstride]; exact hms'
  · simp only
    rw [hphi']
    simp only
    rw [hq]

/-! ## The leaves of one prime index in one segment -/

theorem segsumA_eq (x y c : Nat) (primes lpf : List Nat) (mu : List Int) (low high b : Nat)
    (hp : 0 < primes.getD b 0) (hlow : 0 < low) (hhigh : 0 < high) :
    segsumA x y c primes lpf mu low high b =
      ∑ m ∈ Finset.Ioc (max (x / (primes.getD b 0 * high)) (y / primes.getD b 0))
          (min (x / (primes.getD b 0 * low)) y),
        leafA x c primes lpf mu b m := by
  unfold segsumA
  rw [← Finset.sum_filter]
  apply Finset.sum_congr _ (fun _ _ => rfl)
  ext m
  simp only [Finset.mem_filter, Finset.mem_Ioc]
  constructor
  · rintro ⟨⟨h1, h2⟩, h3, h4⟩
    have hm : 0 < m := lt_of_le_of_lt (Nat.zero_le _) h1
    have h3' := (le_div_swap x _ m low hp hm hlow).1 h3
    have h4' := (div_lt_swap x _ m high hp hm hhigh).1 h4
    exact ⟨max_lt h4' h1, le_min h3' h2⟩
  · rintro ⟨h1, h2⟩
    have h1a := lt_of_le_of_lt (le_max_left _ _) h1
    have h1b := lt_of_le_of_lt (le_max_right _ _) h1
    have h2a := le_trans h2 (min_le_left _ _)
    have h2b := le_trans h2 (min_le_right _ _)
    have hm : 0 < m := lt_of_le_of_lt (Nat.zero_le _) h1b
    exact ⟨⟨h1b, h2b⟩, (le_div_swap x _ m low hp hm hlow).2 h2a,
      (div_lt_swap x _ m high hp hm hhigh).2 h1a⟩

theorem segsumB_eq (x y z c : Nat) (primes pi : List Nat) (htab : PrimeTables y primes pi)
    (low high b : Nat) (hp : 0 < primes.getD b 0) (hlow : 0 < low) (hhigh : 0 < high) :
    segsumB x y z c primes low high b =
      ∑ l ∈ Finset.range
          (pi.getD (min (min (x / (primes.getD b 0 * low)) (z / primes.getD b 0)) y) 0 + 1),
        (if max (x / (primes.getD b 0 * high)) (primes.getD b 0) < primes.getD l 0 then
          (phi_sieve c primes (x / (primes.getD b 0 * primes.getD l 0)) b : Int) else 0) := by
  unfold segsumB
  rw [← Finset.sum_filter, ← Finset.sum_filter]
  apply Finset.sum_congr _ (fun _ _ => rfl)
  have hn0 : min (min (x / (primes.getD b 0 * low)) (z / primes.getD b 0)) y ≤ y :=
    min_le_right _ _
  have hl0 := htab.pi_lt _ hn0
  ext l
  simp only [Finset.mem_filter, Finset.mem_Icc, Finset.mem_range]
  constructor
  · rintro ⟨⟨h1, h2⟩, h3, h4, h5, h6⟩
    have hl : l < primes.length := by have := htab.length_pos; omega
    have hpl : 0 < primes.getD l 0 := by omega
    have h5' := (le_div_swap x _ _ low hp hpl hlow).1 h5
    have h6' := (div_lt_swap x _ _ high hp hpl hhigh).1 h6
    have hle : primes.getD l 0 ≤
        min (min (x / (primes.getD b 0 * low)) (z / primes.getD b 0)) y :=
      le_min (le_min h5' (le_trans h4 (min_le_left _ _))) (le_trans h4 (min_le_right _ _))
    have := (htab.pi_spec _ l hn0 hl).1 hle
    exact ⟨by omega, max_lt h6' h3⟩
  · rintro ⟨h1, h2⟩
    have hl : l < primes.length := by omega
    have hle := (htab.pi_spec _ l hn0 hl).2 (by omega)
    have h2a := lt_of_le_of_lt (le_max_left _ _) h2
    have h2b := lt_of_le_of_lt (le_max_right _ _) h2
    have hpl : 0 < primes.getD l 0 := by omega
    have hl1 : 1 ≤ l := by
      rcases Nat.eq_zero_or_pos l with h0 | h0
      · subst h0
        rw [htab.zero] at hpl
        omega
      · exact h0
    have ha := le_trans hle (min_le_left _ _)
    have hb := le_trans hle (min_le_right _ _)
    have haa := le_trans ha (min_le_left _ _)
    have hab := le_trans ha (min_le_right _ _)
    exact ⟨⟨hl1, by omega⟩, h2b, le_min hab hb,
      (le_div_swap x _ _ low hp hpl hlow).2 haa, (div_lt_swap x _ _ high hp hpl hhigh).2 h2a⟩

/-! ## Soundness and monotonicity of the early exits -/

theorem prime_sq_le (y : Nat) (primes pi : List Nat) (htab : PrimeTables y primes pi)
    (b : Nat) (hb : b ≤ pi.getD (isqrt y) 0) :
    b < primes.length ∧ primes.getD b 0 * primes.getD b 0 ≤ y := by
  have hlt := htab.pi_lt (isqrt y) (isqrt_le y)
  have hb' : b < primes.length := by omega
  have := (htab.pi_spec (isqrt y) b (isqrt_le y) hb').2 hb
  exact ⟨hb', (le_isqrt_iff _ _).1 this⟩

/-- When the exit of phase A fires, the quotient bound is what made it fire. -/
theorem exitA_bound (y : Nat) (primes pi : List Nat) (htab : PrimeTables y primes pi)
    (x low b : Nat) (hb1 : 1 ≤ b) (hb : b ≤ pi.getD (isqrt y) 0)
    (hexit : primes.getD b 0 ≥ min (x / (primes.getD b 0 * low)) y) :
    x / (primes.getD b 0 * low) ≤ primes.getD b 0 := by
  obtain ⟨hlen, hsq⟩ := prime_sq_le y primes pi htab b hb
  have h2 := htab.two_le b hb1 hlen
  rcases le_total (x / (primes.getD b 0 * low)) y with h | h
  · rw [min_eq_left h] at hexit
    exact hexit
  · rw [min_eq_right h] at hexit
    have : primes.getD b 0 * 2 ≤ primes.getD b 0 * primes.getD b 0 :=
      Nat.mul_le_mul_left _ h2
    omega

theorem segsumA_eq_zero_of_exitA (y : Nat) (primes pi : List Nat)
    (htab : PrimeTables y primes pi) (x c : Nat) (lpf : List Nat) (mu : List Int)
    (low high b b' : Nat) (hlow : 0 < low) (hb1 : 1 ≤ b) (hbb : b ≤ b')
    (hb' : b' ≤ pi.getD (isqrt y) 0)
    (hexit : primes.getD b 0 ≥ min (x / (primes.getD b 0 * low)) y) :
    segsumA x y c primes lpf mu low high b' = 0 := by
  have hbound := exitA_bound y primes pi htab x low b hb1 (by omega) hexit
  obtain ⟨hlen', hsq'⟩ := prime_sq_le y primes pi htab b' hb'
  have hlen : b < primes.length := by omega
  have hp := htab.two_le b hb1 hlen
  have hp' := htab.two_le b' (by omega) hlen'
  have hmono := primes_mono_le y primes pi htab b b' hbb hlen'
  unfold segsumA
  apply Finset.sum_eq_zero
  intro m hm
  rw [Finset.mem_Ioc] at hm
  rw [if_neg]
  rintro ⟨h1, _⟩
  have hm0 : 0 < m := lt_of_le_of_lt (Nat.zero_le _) hm.1
  have h1' := (le_div_swap x _ m low (by omega) hm0 hlow).1 h1
  have hdiv : x / (primes.getD b' 0 * low) ≤ x / (primes.getD b 0 * low) :=
    Nat.div_le_div_left (Nat.mul_le_mul_right low hmono) (Nat.mul_pos (by omega) hlow)
  have hy : primes.getD b' 0 ≤ y / primes.getD b' 0 :=
    (Nat.le_div_iff_mul_le (by omega)).2 hsq'
  omega

theorem segsumB_eq_zero_of_exitA (y : Nat) (primes pi : List Nat)
    (htab : PrimeTables y primes pi) (x z c : Nat)
    (low high b b' : Nat) (hlow : 0 < low) (hb1 : 1 ≤ b) (hbb : b < b')
    (hb : b ≤ pi.getD (isqrt y) 0) (hlen' : b' < primes.length)
    (hexit : primes.getD b 0 ≥ min (x / (primes.getD b 0 * low)) y) :
    segsumB x y z c primes low high b' = 0 := by
  have hbound := exitA_bound y primes pi htab x low b hb1 hb hexit
  have hlen : b < primes.length := by omega
  have hp := htab.two_le b hb1 hlen
  have hmono := htab.mono b b' hbb hlen'
  unfold segsumB
  apply Finset.sum_eq_zero
  intro l hl
  rw [if_neg]
  rintro ⟨h1, _, h3, _⟩
  have h3' := (le_div_swap x _ _ low (by omega) (by omega) hlow).1 h3
  have hdiv : x / (primes.getD b' 0 * low) ≤ x / (primes.getD b 0 * low) :=
    Nat.div_le_div_left (Nat.mul_le_mul_right low (le_of_lt hmono))
      (Nat.mul_pos (by omega) hlow)
  omega

theorem pi_mono (y : Nat) (primes pi : List Nat) (htab : PrimeTables y primes pi)
    (n n' : Nat) (hnn : n' ≤ n) (hn : n ≤ y) : pi.getD n' 0 ≤ pi.getD n 0 := by
  have hlt := htab.pi_lt n' (by omega)
  have h1 := (htab.pi_spec n' _ (by omega) hlt).2 le_rfl
  exact (htab.pi_spec n _ hn hlt).1 (by omega)

theorem segsumB_eq_zero_of_exitB (y : Nat) (primes pi : List Nat)
    (htab : PrimeTables y primes pi) (x z c : Nat)
    (low high b b' : Nat) (hlow : 0 < low) (hb1 : 1 ≤ b) (hbb : b ≤ b')
    (hlen' : b' < primes.length)
    (hexit : primes.getD b 0 ≥ primes.getD
      (pi.getD (min (min (x / (primes.getD b 0 * low)) (z / primes.getD b 0)) y) 0) 0) :
    segsumB x y z c primes low high b' = 0 := by
  have hlen : b < primes.length := by omega
  have hp := htab.two_le b hb1 hlen
  have hmono := primes_mono_le y primes pi htab b b' hbb hlen'
  have hn0 : min (min (x / (primes.getD b 0 * low)) (z / primes.getD b 0)) y ≤ y :=
    min_le_right _ _
  have hl0 := htab.pi_lt _ hn0
  unfold segsumB
  apply Finset.sum_eq_zero
  intro l hl
  rw [Finset.mem_Icc] at hl
  rw [if_neg]
  rintro ⟨h1, h2, h3, _⟩
  have hll : l < primes.length := by omega
  have h3' := (le_div_swap x _ _ low (by omega) (by omega) hlow).1 h3
  have hdiv : x / (primes.getD b' 0 * low) ≤ x / (primes.getD b 0 * low) :=
    Nat.div_le_div_left (Nat.mul_le_mul_right low hmono) (Nat.mul_pos (by omega) hlow)
  have hdivz : z / primes.getD b' 0 ≤ z / primes.getD b 0 :=
    Nat.div_le_div_left hmono (by omega)
  have h2a := le_trans h2 (min_le_left _ _)
  have h2b := le_trans h2 (min_le_right _ _)
  have hle : primes.getD l 0 ≤
      min (min (x / (primes.getD b 0 * low)) (z / primes.getD b 0)) y :=
    le_min (le_min (by omega) (by omega)) h2b
  have hidx := (htab.pi_spec _ l hn0 hll).1 hle
  have := primes_mono_le y primes pi htab l _ hidx hl0
  omega

theorem dead_mono (y : Nat) (primes pi : List Nat) (htab : PrimeTables y primes pi)
    (x z pi_sqrty low low' b : Nat) (hlow : 0 < low) (hll : low ≤ low') (hb1 : 1 ≤ b)
    (hlen : b < primes.length) (h : Dead x y z pi_sqrty primes pi low b) :
    Dead x y z pi_sqrty primes pi low' b := by
  have hp := htab.two_le b hb1 hlen
  have hdiv : x / (primes.getD b 0 * low') ≤ x / (primes.getD b 0 * low) :=
    Nat.div_le_div_left (Nat.mul_le_mul_left _ hll) (Nat.mul_pos (by omega) hlow)
  unfold Dead at h ⊢
  by_cases hb : b ≤ pi_sqrty
  · rw [if_pos hb] at h ⊢
    exact le_trans (min_le_min_right y hdiv) h
  · rw [if_neg hb] at h ⊢
    have hn0 : min (min (x / (primes.getD b 0 * low)) (z / primes.getD b 0)) y ≤ y :=
      min_le_right _ _
    have hle : min (min (x / (primes.getD b 0 * low')) (z / primes.getD b 0)) y ≤
        min (min (x / (primes.getD b 0 * low)) (z / primes.getD b 0)) y :=
      min_le_min_right y (min_le_min_right _ hdiv)
    have hpi := pi_mono y primes pi htab _ _ hle hn0
    have := primes_mono_le y primes pi htab _ _ hpi (htab.pi_lt _ hn0)
    exact le_trans this h

/-! ## The phase loops -/

/-- Processing prime index `b` (leaf loop, then fold and cross-off) advances the phase
invariant from `b` to `b + 1`. -/
theorem phase_step (T : BinaryIndexedTree) (abs : T.τ → List Bool) (hT : TreeContract T abs)
    (c : Nat) (primes : List Nat) (segment_size low high live b : Nat) (st st1 : HardState T)
    (hp : 0 < primes.getD b 0) (hlow : 1 ≤ low) (hlh : low < high) (hcb : c < b)
    (hlive : b < live) (hblen : b < primes.length)
    (hinv : PhaseInv T abs c primes segment_size low high live b st)
    (hs : st1.sieve = st.sieve) (hn : st1.next = st.next) (hph : st1.phi = st.phi)
    (ht : st1.tree = st.tree) :
    ∃ st2 : HardState T,
      fold_and_cross_off T low high b (primes.getD b 0) st1 = some st2 ∧
      st2.S2_result = st1.S2_result ∧
      PhaseInv T abs c primes segment_size low high live (b + 1) st2 ∧
      CallsFrom (SegCall segment_size low high) st1.calls st2.calls := by
  have hready : LeafReady T abs c primes low high b st1 :=
    ⟨by rw [ht, hs]; exact hinv.tree_eq, by rw [hs]; exact hinv.stage,
      by rw [hs, hinv.sieve_len]; exact hinv.window, by rw [hph, hinv.phi_len]; exact hblen,
      by rw [hph]; exact hinv.todo_phi b le_rfl hlive⟩
  obtain ⟨st2, hrun, hlen2, habs2, hstage2, hres2, ⟨m, hnext2, hcur2⟩, hphi2, hcalls2⟩ :=
    fold_and_cross_off_spec T abs hT c primes low high b st1 hp hlow hlh hcb
      (by rw [hn, hinv.next_len]; exact hblen) hready
      (by rw [hn]; exact hinv.todo_cursor b le_rfl hlive)
  rw [hs, hinv.sieve_len] at hcalls2
  refine ⟨st2, hrun, hres2, ?_, hcalls2⟩
  refine ⟨by rw [hlen2, hs]; exact hinv.sieve_len, hinv.window,
    by rw [hnext2, List.length_set, hn]; exact hinv.next_len,
    by rw [hphi2, List.length_set, hph]; exact hinv.phi_len, habs2, hstage2, ?_, ?_, ?_, ?_⟩
  · intro j hj1 hj2
    rw [hnext2, hn]
    by_cases hjb : j = b
    · subst hjb
      rw [getD_set_self _ _ _ _ (by rw [hinv.next_len]; exact hblen)]
      exact hcur2
    · rw [getD_set_ne _ _ _ _ _ (fun h => hjb h.symm)]
      exact hinv.done_cursor j hj1 (by omega)
  · intro j hj1 hj2
    rw [hphi2, hph]
    by_cases hjb : j = b
    · subst hjb
      rw [getD_set_self _ _ _ _ (by rw [hinv.phi_len]; exact hblen)]
    · rw [getD_set_ne _ _ _ _ _ (fun h => hjb h.symm)]
      exact hinv.done_phi j hj1 (by omega)
  · intro j hj1 hj2
    rw [hnext2, hn, getD_set_ne _ _ _ _ _ (by omega)]
    exact hinv.todo_cursor j (by omega) hj2
  · intro j hj1 hj2
    rw [hphi2, hph, getD_set_ne _ _ _ _ _ (by omega)]
    exact hinv.todo_phi j (by omega) hj2

theorem phaseA_spec (T : BinaryIndexedTree) (abs : T.τ → List Bool) (hT : TreeContract T abs)
    (prune : Bool) (x y z c segment_size low high live pi_sqrty : Nat) (primes pi lpf : List Nat)
    (mu : List Int) (htab : PrimeTables y primes pi) (hpsy : pi_sqrty ≤ pi.getD (isqrt y) 0)
    (hlow : 1 ≤ low) (hlh : low < high) (hmu : y < mu.length) (hlpf : y < lpf.length) :
    ∀ (fuel b : Nat) (st : HardState T), pi_sqrty + 1 ≤ b + fuel → c + 1 ≤ b → b ≤ live →
      PhaseInv T abs c primes segment_size low high live b st →
      (live ≤ pi_sqrty → prune = true ∧ Dead x y z pi_sqrty primes pi low live) →
      ∃ flow : Flow (HardState T),
        phaseA T prune x y low high pi_sqrty primes lpf mu fuel b st = some flow ∧
        match flow with
        | Flow.fallthrough b' st' =>
          b' = max b (pi_sqrty + 1) ∧ b' ≤ live ∧
          PhaseInv T abs c primes segment_size low high live b' st' ∧
          st'.S2_result = st.S2_result -
            ∑ j ∈ Finset.Ico b (pi_sqrty + 1), segsumA x y c primes lpf mu low high j ∧
          CallsFrom (SegCall segment_size low high) st.calls st'.calls
        | Flow.next_segment st' =>
          ∃ b' : Nat, b ≤ b' ∧ b' ≤ pi_sqrty ∧ b' ≤ live ∧ prune = true ∧
            Dead x y z pi_sqrty primes pi low b' ∧
            PhaseInv T abs c primes segment_size low high live b' st' ∧
            st'.S2_result = st.S2_result -
              ∑ j ∈ Finset.Ico b b', segsumA x y c primes lpf mu low high j ∧
            CallsFrom (SegCall segment_size low high) st.calls st'.calls := by
  intro fuel
  induction fuel with
  | zero =>
    intro b st hfuel hcb hbl hinv hdead
    refine ⟨Flow.fallthrough b st, ?_, ?_, hbl, hinv, ?_, CallsFrom.refl _ _⟩
    · simp only [phaseA]
      rw [if_neg (by omega)]
    · rw [max_eq_left (by omega)]
    · rw [Finset.Ico_eq_empty (by omega)]
      simp
  | succ fuel ih =>
    intro b st hfuel hcb hbl hinv hdead
    by_cases hb : b ≤ pi_sqrty
    · obtain ⟨hblen, hsq⟩ := prime_sq_le y primes pi htab b (le_trans hb hpsy)
      have hp := htab.two_le b (by omega) hblen
      have hp0 : 0 < primes.getD b 0 := by omega
      by_cases hexit : (prune && decide (primes.getD b 0 ≥
          min (x / (primes.getD b 0 * low)) y)) = true
      · -- the early exit fires
        rw [Bool.and_eq_true, decide_eq_true_eq] at hexit
        refine ⟨Flow.next_segment st, ?_, b, le_rfl, hb, hbl, hexit.1, ?_, hinv, ?_,
          CallsFrom.refl _ _⟩
        · simp only [phaseA]
          rw [if_pos hb, getElem?_eq_some_getD primes b 0 hblen]
          simp only [Option.bind_eq_bind, Option.some_bind]
          rw [cdiv_pos _ _ (Nat.mul_pos hp0 (by omega)), cdiv_pos _ _ hp0,
            cdiv_pos _ _ (Nat.mul_pos hp0 (by omega))]
          simp only [Option.some_bind]
          rw [if_pos (by rw [Bool.and_eq_true, decide_eq_true_eq]; exact hexit)]
        · unfold Dead
          rw [if_pos hb]
          exact hexit.2
        · simp
      · -- the index is processed; it must be live
        have hlive : b < live := by
          by_contra hnl
          have hbl' : b = live := by omega
          subst hbl'
          obtain ⟨hpr, hd⟩ := hdead hb
          unfold Dead at hd
          rw [if_pos hb] at hd
          apply hexit
          rw [Bool.and_eq_true, decide_eq_true_eq]
          exact ⟨hpr, hd⟩
        have hready : LeafReady T abs c primes low high b st :=
          ⟨hinv.tree_eq, hinv.stage, by rw [hinv.sieve_len]; exact hinv.window,
            by rw [hinv.phi_len]; exact hblen,
            hinv.todo_phi b le_rfl hlive⟩
        obtain ⟨st1, hrun1, hres1, hs1, hn1, hph1, ht1, hcalls1⟩ :=
          leavesA_spec T abs hT x y c low high b
            (max (x / (primes.getD b 0 * high)) (y / primes.getD b 0)) primes lpf mu hp0 hlow
            (by omega) hmu hlpf (le_max_left _ _)
            (min (x / (primes.getD b 0 * low)) y) st (min_le_right _ _) (min_le_left _ _)
            hready
        obtain ⟨st2, hrun2, hres2, hinv2, hcalls2⟩ :=
          phase_step T abs hT c primes segment_size low high live b st st1 hp0 hlow hlh
            (by omega) hlive hblen hinv hs1 hn1 hph1 ht1
        rw [hinv.sieve_len] at hcalls1
        have hcalls12 := CallsFrom.trans hcalls1 hcalls2
        obtain ⟨flow, hrun3, hpost⟩ :=
          ih (b + 1) st2 (by omega) (by omega) (by omega) hinv2 hdead
        have hseg := segsumA_eq x y c primes lpf mu low high b hp0 (by omega) (by omega)
        have hres : st2.S2_result =
            st.S2_result - segsumA x y c primes lpf mu low high b := by
          rw [hres2, hres1, hseg]
        refine ⟨flow, ?_, ?_⟩
        · simp only [phaseA]
          rw [if_pos hb, getElem?_eq_some_getD primes b 0 hblen]
          simp only [Option.bind_eq_bind, Option.some_bind]
          rw [cdiv_pos _ _ (Nat.mul_pos hp0 (by omega)), cdiv_pos _ _ hp0,
            cdiv_pos _ _ (Nat.mul_pos hp0 (by omega))]
          simp only [Option.some_bind]
          rw [if_neg hexit, hrun1]
          simp only [Option.some_bind]
          rw [hrun2]
          simp only [Option.some_bind]
          exact hrun3
        · cases flow with
          | fallthrough b' st' =>
            obtain ⟨h1, h2, h3, h4, h5⟩ := hpost
            refine ⟨?_, h2, h3, ?_, CallsFrom.trans hcalls12 h5⟩
            · rw [h1, max_eq_right (by omega), max_eq_right (by omega)]
            · rw [h4, hres, Finset.sum_eq_sum_Ico_succ_bot (by omega : b < pi_sqrty + 1)]
              ring
          | next_segment st' =>
            obtain ⟨b', h1, h2, h3, h4, h5, h6, h7, h8⟩ := hpost
            refine ⟨b', by omega, h2, h3, h4, h5, h6, ?_, CallsFrom.trans hcalls12 h8⟩
            rw [h7, hres, Finset.sum_eq_sum_Ico_succ_bot (by omega : b < b')]
            ring
    · refine ⟨Flow.fallthrough b st, ?_, ?_, hbl, hinv, ?_, CallsFrom.refl _ _⟩
      · simp only [phaseA]
        rw [if_neg hb]
      · rw [max_eq_left (by omega)]
      · rw [Finset.Ico_eq_empty (by omega)]
        simp

theorem phaseB_spec (T : BinaryIndexedTree) (abs : T.τ → List Bool) (hT : TreeContract T abs)
    (prune : Bool) (x y z c segment_size low high live pi_sqrty pi_sqrtz : Nat)
    (primes pi : List Nat)
    (htab : PrimeTables y primes pi) (hpsz : pi_sqrtz < primes.length)
    (hlow : 1 ≤ low) (hlh : low < high) :
    ∀ (fuel b : Nat) (st : HardState T), pi_sqrtz + 1 ≤ b + fuel → c + 1 ≤ b →
      pi_sqrty < b → b ≤ live →
      PhaseInv T abs c primes segment_size low high live b st →
      (live ≤ pi_sqrtz → prune = true ∧ Dead x y z pi_sqrty primes pi low live) →
      ∃ flow : Flow (HardState T),
        phaseB T prune x y z low high pi_sqrtz primes pi fuel b st = some flow ∧
        match flow with
        | Flow.fallthrough b' st' =>
          b' = max b (pi_sqrtz + 1) ∧ b' ≤ live ∧
          PhaseInv T abs c primes segment_size low high live b' st' ∧
          st'.S2_result = st.S2_result +
            ∑ j ∈ Finset.Ico b (pi_sqrtz + 1), segsumB x y z c primes low high j ∧
          CallsFrom (SegCall segment_size low high) st.calls st'.calls
        | Flow.next_segment st' =>
          ∃ b' : Nat, b ≤ b' ∧ b' ≤ pi_sqrtz ∧ b' ≤ live ∧ prune = true ∧
            Dead x y z pi_sqrty primes pi low b' ∧
            PhaseInv T abs c primes segment_size low high live b' st' ∧
            st'.S2_result = st.S2_result +
              ∑ j ∈ Finset.Ico b b', segsumB x y z c primes low high j ∧
            CallsFrom (SegCall segment_size low high) st.calls st'.calls := by
  intro fuel
  induction fuel with
  | zero =>
    intro b st hfuel hcb hyb hbl hinv hdead
    refine ⟨Flow.fallthrough b st, ?_, ?_, hbl, hinv, ?_, CallsFrom.refl _ _⟩
    · simp only [phaseB]
      rw [if_neg (by omega)]
    · rw [max_eq_left (by omega)]
    · rw [Finset.Ico_eq_empty (by omega)]
      simp
  | succ fuel ih =>
    intro b st hfuel hcb hyb hbl hinv hdead
    by_cases hb : b ≤ pi_sqrtz
    · have hblen : b < primes.length := by omega
      have hp := htab.two_le b (by omega) hblen
      have hp0 : 0 < primes.getD b 0 := by omega
      have hn0 : min (min (x / (primes.getD b 0 * low)) (z / primes.getD b 0)) y ≤ y :=
        min_le_right _ _
      have hl0 := htab.pi_lt _ hn0
      have hpiget : pi[min (min (x / (primes.getD b 0 * low)) (z / primes.getD b 0)) y]? =
          some (pi.getD (min (min (x / (primes.getD b 0 * low)) (z / primes.getD b 0)) y) 0) :=
        getElem?_eq_some_getD pi _ 0 (by rw [htab.pi_length]; omega)
      have hcode : ∀ r : Option (Flow (HardState T)),
          (if (prune && decide (primes.getD b 0 ≥ primes.getD
              (pi.getD (min (min (x / (primes.getD b 0 * low)) (z / primes.getD b 0)) y) 0)
              0)) = true
            then some (Flow.next_segment st)
            else do
              let st1 ← leavesB T x low b (primes.getD b 0)
                (max (x / (primes.getD b 0 * high)) (primes.getD b 0)) primes
                (pi.getD (min (min (x / (primes.getD b 0 * low)) (z / primes.getD b 0)) y) 0)
                st
              let st2 ← fold_and_cross_off T low high b (primes.getD b 0) st1
              phaseB T prune x y z low high pi_sqrtz primes pi fuel (b + 1) st2) = r →
          phaseB T prune x y z low high pi_sqrtz primes pi (fuel + 1) b st = r := by
        intro r hr
        simp only [phaseB]
        rw [if_pos hb, getElem?_eq_some_getD primes b 0 hblen]
        simp only [Option.bind_eq_bind, Option.some_bind]
        rw [cdiv_pos _ _ (Nat.mul_pos hp0 (by omega)), cdiv_pos _ _ hp0]
        simp only [Option.some_bind]
        rw [hpiget]
        simp only [Option.some_bind]
        rw [cdiv_pos _ _ (Nat.mul_pos hp0 (by omega))]
        simp only [Option.some_bind]
        rw [getElem?_eq_some_getD primes _ 0 hl0]
        simp only [Option.some_bind]
        exact hr
      by_cases hexit : (prune && decide (primes.getD b 0 ≥ primes.getD
          (pi.getD (min (min (x / (primes.getD b 0 * low)) (z / primes.getD b 0)) y) 0)
          0)) = true
      · -- the early exit fires
        have hexit' := hexit
        rw [Bool.and_eq_true, decide_eq_true_eq] at hexit'
        refine ⟨Flow.next_segment st, ?_, b, le_rfl, hb, hbl, hexit'.1, ?_, hinv, ?_,
          CallsFrom.refl _ _⟩
        · apply hcode
          rw [if_pos hexit]
        · unfold Dead
          rw [if_neg (by omega)]
          exact hexit'.2
        · simp
      · -- the index is processed; it must be live
        have hlive : b < live := by
          by_contra hnl
          have hbl' : b = live := by omega
          subst hbl'
          obtain ⟨hpr, hd⟩ := hdead hb
          unfold Dead at hd
          rw [if_neg (by omega)] at hd
          apply hexit
          rw [Bool.and_eq_true, decide_eq_true_eq]
          exact ⟨hpr, hd⟩
        have hready : LeafReady T abs c primes low high b st :=
          ⟨hinv.tree_eq, hinv.stage, by rw [hinv.sieve_len]; exact hinv.window,
            by rw [hinv.phi_len]; exact hblen,
            hinv.todo_phi b le_rfl hlive⟩
        have hle0 := (htab.pi_spec _ _ hn0 hl0).2 le_rfl
        obtain ⟨st1, hrun1, hres1, hs1, hn1, hph1, ht1, hcalls1⟩ :=
          leavesB_spec T abs hT x y c low high b
            (max (x / (primes.getD b 0 * high)) (primes.getD b 0)) primes pi htab hp0 hlow
            (by omega) (le_max_left _ _)
            (pi.getD (min (min (x / (primes.getD b 0 * low)) (z / primes.getD b 0)) y) 0)
            st hl0 (le_trans hle0 (le_trans (min_le_left _ _) (min_le_left _ _))) hready
        obtain ⟨st2, hrun2, hres2, hinv2, hcalls2⟩ :=
          phase_step T abs hT c primes segment_size low high live b st st1 hp0 hlow hlh
            (by omega) hlive hblen hinv hs1 hn1 hph1 ht1
        rw [hinv.sieve_len] at hcalls1
        have hcalls12 := CallsFrom.trans hcalls1 hcalls2
        obtain ⟨flow, hrun3, hpost⟩ :=
          ih (b + 1) st2 (by omega) (by omega) (by omega) (by omega) hinv2 hdead
        have hseg := segsumB_eq x y z c primes pi htab low high b hp0 (by omega) (by omega)
        have hres : st2.S2_result =
            st.S2_result + segsumB x y z c primes low high b := by
          rw [hres2, hres1, hseg]
        refine ⟨flow, ?_, ?_⟩
        · apply hcode
          rw [if_neg hexit, hrun1]
          simp only [Option.bind_eq_bind, Option.some_bind]
          rw [hrun2]
          simp only [Option.some_bind]
          exact hrun3
        · cases flow with
          | fallthrough b' st' =>
            obtain ⟨h1, h2, h3, h4, h5⟩ := hpost
            refine ⟨?_, h2, h3, ?_, CallsFrom.trans hcalls12 h5⟩
            · rw [h1, max_eq_right (by omega), max_eq_right (by omega)]
            · rw [h4, hres, Finset.sum_eq_sum_Ico_succ_bot (by omega : b < pi_sqrtz + 1)]
              ring
          | next_segment st' =>
            obtain ⟨b', h1, h2, h3, h4, h5, h6, h7, h8⟩ := hpost
            refine ⟨b', by omega, h2, h3, h4, h5, h6, ?_, CallsFrom.trans hcalls12 h8⟩
            rw [h7, hres, Finset.sum_eq_sum_Ico_succ_bot (by omega : b < b')]
            ring
    · refine ⟨Flow.fallthrough b st, ?_, ?_, hbl, hinv, ?_, CallsFrom.refl _ _⟩
      · simp only [phaseB]
        rw [if_neg hb]
      · rw [max_eq_left (by omega)]
      · rw [Finset.Ico_eq_empty (by omega)]
        simp

/-! ## One segment -/

theorem ite_window_add (f : Int) (lo mid hi v : Nat) (h1 : lo ≤ mid) (h2 : mid ≤ hi) :
    (if lo ≤ v ∧ v < mid then f else 0) + (if mid ≤ v ∧ v < hi then f else 0) =
      if lo ≤ v ∧ v < hi then f else 0 := by
  by_cases hl : lo ≤ v <;> by_cases hm : v < mid <;> by_cases hh : v < hi <;>
    by_cases hm' : mid ≤ v <;> simp only [hl, hm, hh, hm', and_self, and_true, and_false,
      true_and, false_and, if_true, if_false, add_zero, zero_add] <;> omega

theorem ite_window_add2 (A B : Prop) [Decidable A] [Decidable B] (f : Int)
    (lo mid hi v : Nat) (h1 : lo ≤ mid) (h2 : mid ≤ hi) :
    (if A ∧ B ∧ lo ≤ v ∧ v < mid then f else 0) + (if A ∧ B ∧ mid ≤ v ∧ v < hi then f else 0) =
      if A ∧ B ∧ lo ≤ v ∧ v < hi then f else 0 := by
  by_cases hA : A
  · by_cases hB : B
    · simp only [hA, hB, true_and]
      exact ite_window_add f lo mid hi v h1 h2
    · simp only [hB, false_and, and_false, if_false, add_zero]
  · simp only [hA, false_and, if_false, add_zero]

theorem segsumA_add (x y c : Nat) (primes lpf : List Nat) (mu : List Int)
    (lo mid hi b : Nat) (h1 : lo ≤ mid) (h2 : mid ≤ hi) :
    segsumA x y c primes lpf mu lo mid b + segsumA x y c primes lpf mu mid hi b =
      segsumA x y c primes lpf mu lo hi b := by
  unfold segsumA
  rw [← Finset.sum_add_distrib]
  exact Finset.sum_congr rfl (fun m _ => ite_window_add _ lo mid hi _ h1 h2)

theorem segsumB_add (x y z c : Nat) (primes : List Nat)
    (lo mid hi b : Nat) (h1 : lo ≤ mid) (h2 : mid ≤ hi) :
    segsumB x y z c primes lo mid b + segsumB x y z c primes mid hi b =
      segsumB x y z c primes lo hi b := by
  unfold segsumB
  rw [← Finset.sum_add_distrib]
  exact Finset.sum_congr rfl (fun l _ => ite_window_add2 _ _ _ lo mid hi _ h1 h2)

theorem hard_sum_add (x y z c pi_sqrty pi_sqrtz : Nat) (primes lpf : List Nat) (mu : List Int)
    (lo mid hi : Nat) (h1 : lo ≤ mid) (h2 : mid ≤ hi) :
    hard_sum x y z c pi_sqrty pi_sqrtz primes lpf mu lo mid +
        hard_sum x y z c pi_sqrty pi_sqrtz primes lpf mu mid hi =
      hard_sum x y z c pi_sqrty pi_sqrtz primes lpf mu lo hi := by
  unfold hard_sum
  have hA : ∑ b ∈ Finset.Ioc c pi_sqrty, segsumA x y c primes lpf mu lo hi b =
      ∑ b ∈ Finset.Ioc c pi_sqrty, segsumA x y c primes lpf mu lo mid b +
        ∑ b ∈ Finset.Ioc c pi_sqrty, segsumA x y c primes lpf mu mid hi b := by
    rw [← Finset.sum_add_distrib]
    exact Finset.sum_congr rfl (fun b _ => (segsumA_add x y c primes lpf mu lo mid hi b h1 h2).symm)
  have hB : ∑ b ∈ Finset.Ioc (max c pi_sqrty) pi_sqrtz, segsumB x y z c primes lo hi b =
      ∑ b ∈ Finset.Ioc (max c pi_sqrty) pi_sqrtz, segsumB x y z c primes lo mid b +
        ∑ b ∈ Finset.Ioc (max c pi_sqrty) pi_sqrtz, segsumB x y z c primes mid hi b := by
    rw [← Finset.sum_add_distrib]
    exact Finset.sum_congr rfl (fun b _ => (segsumB_add x y z c primes lo mid hi b h1 h2).symm)
  rw [hA, hB]
  ring

theorem hard_sum_empty (x y z c pi_sqrty pi_sqrtz : Nat) (primes lpf : List Nat)
    (mu : List Int) (lo : Nat) :
    hard_sum x y z c pi_sqrty pi_sqrtz primes lpf mu lo lo = 0 := by
  unfold hard_sum segsumA segsumB
  have hA : ∀ b m : Nat, (if lo ≤ x / (primes.getD b 0 * m) ∧ x / (primes.getD b 0 * m) < lo
      then leafA x c primes lpf mu b m else 0) = 0 :=
    fun b m => if_neg (fun h => by omega)
  have hB : ∀ b l : Nat, (if primes.getD b 0 < primes.getD l 0 ∧
      primes.getD l 0 ≤ min (z / primes.getD b 0) y ∧
      lo ≤ x / (primes.getD b 0 * primes.getD l 0) ∧
      x / (primes.getD b 0 * primes.getD l 0) < lo
      then (phi_sieve c primes (x / (primes.getD b 0 * primes.getD l 0)) b : Int) else 0) = 0 :=
    fun b l => if_neg (fun h => by have := h.2.2; omega)
  simp only [hA, hB, Finset.sum_const_zero, neg_zero, add_zero]

theorem sum_Ioc_eq_Ico (f : Nat → Int) (a b : Nat) :
    ∑ j ∈ Finset.Ioc a b, f j = ∑ j ∈ Finset.Ico (a + 1) (b + 1), f j := by
  apply Finset.sum_congr _ (fun _ _ => rfl)
  ext j
  simp only [Finset.mem_Ioc, Finset.mem_Ico]
  omega

theorem segment_spec (T : BinaryIndexedTree) (abs : T.τ → List Bool) (hT : TreeContract T abs)
    (segment_size : Nat) (prune : Bool) (x y z c pi_sqrty pi_sqrtz : Nat)
    (primes pi lpf : List Nat) (mu : List Int) (htab : PrimeTables y primes pi)
    (hpsy : pi_sqrty = pi.getD (isqrt y) 0) (hpsz : pi_sqrtz < primes.length)
    (hc : c < primes.length) (hS : 1 ≤ segment_size) (hmu : y < mu.length)
    (hlpf : y < lpf.length) (low live : Nat) (st : HardState T) (hlow : 1 ≤ low)
    (hlim : low < z + 1) (hinv : SegInv T c primes segment_size low live st)
    (hlive : c + 1 ≤ live)
    (hdead : live ≤ max pi_sqrty pi_sqrtz →
      prune = true ∧ Dead x y z pi_sqrty primes pi low live) :
    ∃ (st' : HardState T) (live' : Nat),
      segment T segment_size prune x y z c pi_sqrty pi_sqrtz primes pi lpf mu low st = some st' ∧
      SegInv T c primes segment_size (min (low + segment_size) (z + 1)) live' st' ∧
      c + 1 ≤ live' ∧
      (live' ≤ max pi_sqrty pi_sqrtz →
        prune = true ∧
          Dead x y z pi_sqrty primes pi (min (low + segment_size) (z + 1)) live') ∧
      st'.S2_result = st.S2_result +
        hard_sum x y z c pi_sqrty pi_sqrtz primes lpf mu low
          (min (low + segment_size) (z + 1)) ∧
      CallsFrom (SegCall segment_size low (min (low + segment_size) (z + 1)))
        st.calls st'.calls := by
  have hlh : low < min (low + segment_size) (z + 1) := lt_min (by omega) hlim
  have hwin : min (low + segment_size) (z + 1) - low ≤ segment_size := by
    have := min_le_left (low + segment_size) (z + 1)
    omega
  have hpsy' : pi_sqrty < primes.length := by
    rw [hpsy]; exact htab.pi_lt _ (isqrt_le y)
  generalize hhigh : min (low + segment_size) (z + 1) = high at hlh hwin ⊢
  -- pre-sieve
  obtain ⟨st1, hrun1, hl1, hn1, hstage1, hcur1, hother1, hphi1, htree1, hres1, hcalls1⟩ :=
    presieve_spec T c primes low high hc
      (fun j h1 h2 => by have := htab.two_le j h1 (by omega); omega) (le_of_lt hlh) c 1
      { st with sieve := List.replicate st.sieve.length true } (by omega) le_rfl (by omega)
      hinv.next_len (by simp only [List.length_replicate]; rw [hinv.sieve_len]; exact hwin)
      (by
        intro u hu1 hu2
        simp only
        rw [List.getElem?_replicate_of_lt (by rw [hinv.sieve_len]; omega),
          decide_eq_true (survives_one c primes u)])
      (fun j h1 h2 => hinv.cursor j h1 (Or.inl h2))
  simp only [List.length_replicate] at hl1
  simp only at hn1 hother1 hphi1 hres1 hcalls1
  have hcalls2 : CallsFrom (SegCall segment_size low high) st.calls
      (st1.calls ++ [TreeCall.init st1.sieve.length]) := by
    rw [hcalls1]
    exact CallsFrom.snoc _ _
      (show st1.sieve.length = segment_size from by rw [hl1, hinv.sieve_len])
  -- the tree is built
  have hinv2 : PhaseInv T abs c primes segment_size low high live (c + 1)
      { st1 with
        tree := T.init st1.tree st1.sieve
        calls := st1.calls ++ [TreeCall.init st1.sieve.length] } := by
    refine ⟨by simp only; rw [hl1, hinv.sieve_len], hwin, by simp only; rw [hn1, hinv.next_len],
      by simp only; rw [hphi1, hinv.phi_len], hT.abs_init _ _, hstage1, ?_, ?_, ?_, ?_⟩
    · intro j h1 h2
      exact hcur1 j h1 (by omega)
    · intro j h1 h2
      omega
    · intro j h1 h2
      simp only
      rw [hother1 j (Or.inr (by omega))]
      exact hinv.cursor j (by omega) (Or.inr h2)
    · intro j h1 h2
      simp only
      rw [hphi1]
      exact hinv.phi_eq j (by omega) h2
  have hcode : ∀ r : Option (HardState T),
      (do
        match ← phaseA T prune x y low high pi_sqrty primes lpf mu pi_sqrty (c + 1)
            { st1 with
              tree := T.init st1.tree st1.sieve
              calls := st1.calls ++ [TreeCall.init st1.sieve.length] } with
        | Flow.next_segment st3 => some st3
        | Flow.fallthrough b st3 =>
          match ← phaseB T prune x y z low high pi_sqrtz primes pi pi_sqrtz b st3 with
          | Flow.next_segment st4 => some st4
          | Flow.fallthrough _ st4 => some st4) = r →
      segment T segment_size prune x y z c pi_sqrty pi_sqrtz primes pi lpf mu low st = r := by
    intro r hr
    unfold segment
    simp only [hhigh, hrun1, Option.bind_eq_bind, Option.some_bind]
    exact hr
  obtain ⟨flowA, hrunA, hpostA⟩ :=
    phaseA_spec T abs hT prune x y z c segment_size low high live pi_sqrty primes pi lpf mu
      htab (le_of_eq hpsy) hlow hlh hmu hlpf pi_sqrty (c + 1) _ (by omega) le_rfl hlive hinv2
      (fun h => hdead (le_trans h (le_max_left _ _)))
  have hsumA := sum_Ioc_eq_Ico (fun j => segsumA x y c primes lpf mu low high j) c pi_sqrty
  have hsumB := sum_Ioc_eq_Ico (fun j => segsumB x y z c primes low high j)
    (max c pi_sqrty) pi_sqrtz
  have hmax : max c pi_sqrty + 1 = max (c + 1) (pi_sqrty + 1) := by
    rcases le_total c pi_sqrty with h | h
    · rw [max_eq_right h, max_eq_right (by omega)]
    · rw [max_eq_left h, max_eq_left (by omega)]
  rw [hmax] at hsumB
  cases flowA with
  | next_segment st3 =>
    obtain ⟨b', h1, h2, h3, h4, h5, h6, h7, h8⟩ := hpostA
    have hexit : primes.getD b' 0 ≥ min (x / (primes.getD b' 0 * low)) y := by
      unfold Dead at h5
      rw [if_pos h2] at h5
      exact h5
    refine ⟨st3, b', ?_, ?_, by omega, ?_, ?_, CallsFrom.trans hcalls2 h8⟩
    · apply hcode
      rw [hrunA]
      simp only [Option.bind_eq_bind, Option.some_bind]
    · exact ⟨h6.sieve_len, h6.next_len, h6.phi_len,
        fun j hj1 hj2 => h6.done_cursor j hj1 (by omega),
        fun j hj1 hj2 => h6.done_phi j hj1 hj2⟩
    · intro _
      exact ⟨h4, dead_mono y primes pi htab x z pi_sqrty low high b' (by omega)
        (le_of_lt hlh) (by omega) (by omega) h5⟩
    · rw [h7]
      simp only
      rw [hres1]
      unfold hard_sum
      rw [hsumA, hsumB,
        ← Finset.sum_Ico_consecutive _ (by omega : c + 1 ≤ b') (by omega : b' ≤ pi_sqrty + 1)]
      have hzA : ∑ j ∈ Finset.Ico b' (pi_sqrty + 1),
          segsumA x y c primes lpf mu low high j = 0 := by
        apply Finset.sum_eq_zero
        intro j hj
        rw [Finset.mem_Ico] at hj
        exact segsumA_eq_zero_of_exitA y primes pi htab x c lpf mu low high b' j (by omega)
          (by omega) hj.1 (by rw [← hpsy]; omega) hexit
      have hzB : ∑ j ∈ Finset.Ico (max (c + 1) (pi_sqrty + 1)) (pi_sqrtz + 1),
          segsumB x y z c primes low high j = 0 := by
        apply Finset.sum_eq_zero
        intro j hj
        rw [Finset.mem_Ico] at hj
        have : pi_sqrty + 1 ≤ j := le_trans (le_max_right _ _) hj.1
        exact segsumB_eq_zero_of_exitA y primes pi htab x z c low high b' j (by omega)
          (by omega) (by omega) (by rw [← hpsy]; exact h2) (by omega) hexit
      rw [hzA, hzB]
      ring
  | fallthrough b1 st3 =>
    obtain ⟨h1, h2, h3, h4, h8⟩ := hpostA
    have hb1 : b1 = max (c + 1) (pi_sqrty + 1) := h1
    obtain ⟨flowB, hrunB, hpostB⟩ :=
      phaseB_spec T abs hT prune x y z c segment_size low high live pi_sqrty pi_sqrtz primes pi
        htab hpsz hlow hlh pi_sqrtz b1 st3
        (by have := le_max_left (c + 1) (pi_sqrty + 1); omega)
        (by rw [hb1]; exact le_max_left _ _)
        (by have := le_max_right (c + 1) (pi_sqrty + 1); omega) h2 h3
        (fun h => hdead (le_trans h (le_max_right _ _)))
    have hb1c : c + 1 ≤ b1 := by rw [hb1]; exact le_max_left _ _
    have hb1y : pi_sqrty + 1 ≤ b1 := by rw [hb1]; exact le_max_right _ _
    cases flowB with
    | next_segment st4 =>
      obtain ⟨b', g1, g2, g3, g4, g5, g6, g7, g8⟩ := hpostB
      have hexit : primes.getD b' 0 ≥ primes.getD (pi.getD
          (min (min (x / (primes.getD b' 0 * low)) (z / primes.getD b' 0)) y) 0) 0 := by
        unfold Dead at g5
        rw [if_neg (by omega)] at g5
        exact g5
      refine ⟨st4, b', ?_, ?_, by omega, ?_, ?_,
        CallsFrom.trans hcalls2 (CallsFrom.trans h8 g8)⟩
      · apply hcode
        rw [hrunA]
        simp only [Option.bind_eq_bind, Option.some_bind]
        rw [hrunB]
        simp only [Option.some_bind]
      · exact ⟨g6.sieve_len, g6.next_len, g6.phi_len,
          fun j hj1 hj2 => g6.done_cursor j hj1 (by omega),
          fun j hj1 hj2 => g6.done_phi j hj1 hj2⟩
      · intro _
        exact ⟨g4, dead_mono y primes pi htab x z pi_sqrty low high b' (by omega)
          (le_of_lt hlh) (by omega) (by omega) g5⟩
      · rw [g7, h4]
        simp only
        rw [hres1]
        unfold hard_sum
        rw [hsumA, hsumB, ← hb1,
          ← Finset.sum_Ico_consecutive _ g1 (by omega : b' ≤ pi_sqrtz + 1)]
        have hzB : ∑ j ∈ Finset.Ico b' (pi_sqrtz + 1),
            segsumB x y z c primes low high j = 0 := by
          apply Finset.sum_eq_zero
          intro j hj
          rw [Finset.mem_Ico] at hj
          exact segsumB_eq_zero_of_exitB y primes pi htab x z c low high b' j (by omega)
            (by omega) hj.1 (by omega) hexit
        rw [hzB]
        ring
    | fallthrough b2 st4 =>
      obtain ⟨g1, g2, g3, g4, g8⟩ := hpostB
      have hb2 : pi_sqrtz + 1 ≤ b2 := by rw [g1]; exact le_max_right _ _
      have hb2' : b1 ≤ b2 := by rw [g1]; exact le_max_left _ _
      refine ⟨st4, b2, ?_, ?_, by omega, ?_, ?_,
        CallsFrom.trans hcalls2 (CallsFrom.trans h8 g8)⟩
      · apply hcode
        rw [hrunA]
        simp only [Option.bind_eq_bind, Option.some_bind]
        rw [hrunB]
        simp only [Option.some_bind]
      · exact ⟨g3.sieve_len, g3.next_len, g3.phi_len,
          fun j hj1 hj2 => g3.done_cursor j hj1 (by omega),
          fun j hj1 hj2 => g3.done_phi j hj1 hj2⟩
      · intro hle
        rcases le_max_iff.1 hle with h | h <;> omega
      · rw [g4, h4]
        simp only
        rw [hres1]
        unfold hard_sum
        rw [hsumA, hsumB, ← hb1]
        ring

/-! ## The segment loop and the whole function -/

theorem segments_spec (T : BinaryIndexedTree) (abs : T.τ → List Bool) (hT : TreeContract T abs)
    (segment_size : Nat) (prune : Bool) (x y z c pi_sqrty pi_sqrtz : Nat)
    (primes pi lpf : List Nat) (mu : List Int) (htab : PrimeTables y primes pi)
    (hpsy : pi_sqrty = pi.getD (isqrt y) 0) (hpsz : pi_sqrtz < primes.length)
    (hc : c < primes.length) (hS : 1 ≤ segment_size) (hmu : y < mu.length)
    (hlpf : y < lpf.length) :
    ∀ (fuel low live : Nat) (st : HardState T), z + 1 ≤ low + fuel →
      (∃ k : Nat, low = 1 + k * segment_size) →
      (low < z + 1 → SegInv T c primes segment_size low live st ∧ c + 1 ≤ live ∧
        (live ≤ max pi_sqrty pi_sqrtz →
          prune = true ∧ Dead x y z pi_sqrty primes pi low live)) →
      st.S2_result =
        hard_sum x y z c pi_sqrty pi_sqrtz primes lpf mu 1 (min low (z + 1)) →
      ∃ st' : HardState T,
        segments T segment_size prune x y z c pi_sqrty pi_sqrtz primes pi lpf mu fuel low st =
          some st' ∧
        st'.S2_result = hard_sum x y z c pi_sqrty pi_sqrtz primes lpf mu 1 (z + 1) ∧
        CallsFrom (HardCall segment_size z) st.calls st'.calls := by
  intro fuel
  induction fuel with
  | zero =>
    intro low live st hfuel hk _ hres
    refine ⟨st, ?_, ?_, CallsFrom.refl _ _⟩
    · simp only [segments]
      rw [if_neg (by omega)]
    · rw [hres, min_eq_right (by omega)]
  | succ fuel ih =>
    intro low live st hfuel hk hinv hres
    have hlow : 1 ≤ low := by
      obtain ⟨k, hk'⟩ := hk
      omega
    by_cases hlim : low < z + 1
    · obtain ⟨hseg, hlive, hdead⟩ := hinv hlim
      obtain ⟨st1, live', hrun1, hseg1, hlive1, hdead1, hres1, hcalls1⟩ :=
        segment_spec T abs hT segment_size prune x y z c pi_sqrty pi_sqrtz primes pi lpf mu
          htab hpsy hpsz hc hS hmu hlpf low live st hlow hlim hseg hlive hdead
      have hhigh : low ≤ min (low + segment_size) (z + 1) := le_min (by omega) (by omega)
      have hcalls1' : CallsFrom (HardCall segment_size z) st.calls st1.calls := by
        obtain ⟨k, hk'⟩ := hk
        apply CallsFrom.mono hcalls1
        intro call hcall
        exact ⟨k, by rw [← hk']; exact hcall⟩
      obtain ⟨st', hrun', hres', hcalls'⟩ :=
        ih (low + segment_size) live' st1 (by omega)
          (by
            obtain ⟨k, hk'⟩ := hk
            exact ⟨k + 1, by rw [hk']; ring⟩)
          (by
            intro hnext
            rw [min_eq_left (by omega)] at hseg1 hdead1
            exact ⟨hseg1, hlive1, hdead1⟩)
          (by
            rw [hres1, hres, min_eq_left (by omega)]
            exact hard_sum_add x y z c pi_sqrty pi_sqrtz primes lpf mu 1 low _ hlow hhigh)
      refine ⟨st', ?_, hres', CallsFrom.trans hcalls1' hcalls'⟩
      simp only [segments]
      rw [if_pos hlim, hrun1]
      simp only [Option.bind_eq_bind, Option.some_bind]
      exact hrun'
    · refine ⟨st, ?_, ?_, CallsFrom.refl _ _⟩
      · simp only [segments]
        rw [if_neg hlim]
      · rw [hres, min_eq_right (by omega)]

theorem removed_self (c : Nat) (primes : List Nat) (j : Nat) :
    removed c primes j (primes.getD j 0) := by
  unfold removed
  rfl

theorem stride_ge (c : Nat) (primes : List Nat) (j : Nat) :
    primes.getD j 0 ≤ stride c primes j := by
  unfold stride
  split <;> omega

theorem phi_sieve_zero (c : Nat) (primes : List Nat) (b : Nat) :
    phi_sieve c primes 0 b = 0 := by
  unfold phi_sieve
  simp

/-- The function computes the signed sum of all hard leaves, for every segment size `≥ 1`, with
or without the early exits. -/
theorem S2_hard_run_spec (T : BinaryIndexedTree) (abs : T.τ → List Bool)
    (hT : TreeContract T abs) (segment_size : Nat) (prune : Bool) (x y z c : Nat)
    (pi lpf : List Nat) (mu : List Int) (htab : PrimeTables y (generate_primes y) pi)
    (hc : c < (generate_primes y).length) (hS : 1 ≤ segment_size) (hmu : y < mu.length)
    (hlpf : y < lpf.length) :
    ∃ st : HardState T,
      S2_hard_run T segment_size prune x y z c pi lpf mu = some st ∧
      st.S2_result =
        hard_sum x y z c (pi.getD (isqrt y) 0) (pi.getD (min (isqrt z) y) 0)
          (generate_primes y) lpf mu 1 (z + 1) ∧
      ∀ call ∈ st.calls, HardCall segment_size z call := by
  have hpy : pi[isqrt y]? = some (pi.getD (isqrt y) 0) :=
    getElem?_eq_some_getD pi _ 0 (by rw [htab.pi_length]; have := isqrt_le y; omega)
  have hpz : pi[min (isqrt z) y]? = some (pi.getD (min (isqrt z) y) 0) :=
    getElem?_eq_some_getD pi _ 0
      (by rw [htab.pi_length]; have := min_le_right (isqrt z) y; omega)
  have hpsy := htab.pi_lt (isqrt y) (isqrt_le y)
  have hpsz := htab.pi_lt (min (isqrt z) y) (min_le_right _ _)
  obtain ⟨st', hrun, hres, hcalls⟩ :=
    segments_spec T abs hT segment_size prune x y z c (pi.getD (isqrt y) 0)
      (pi.getD (min (isqrt z) y) 0) (generate_primes y) pi lpf mu htab rfl hpsz hc hS hmu hlpf
      (z + 1) 1
      (max (c + 1) (max (pi.getD (isqrt y) 0) (pi.getD (min (isqrt z) y) 0) + 1))
      { sieve := List.replicate segment_size false
        next := generate_primes y
        phi := List.replicate (generate_primes y).length 0
        tree := T.empty
        S2_result := 0
        calls := [] }
      (by omega) ⟨0, by omega⟩
      (by
        intro _
        refine ⟨⟨by simp, rfl, by simp, ?_, ?_⟩, le_max_left _ _, ?_⟩
        · intro j hj1 hj2
          simp only
          have hjlen : j < (generate_primes y).length := by
            rcases hj2 with h | h
            · omega
            · rcases lt_max_iff.1 h with h' | h'
              · omega
              · have : j ≤ max (pi.getD (isqrt y) 0) (pi.getD (min (isqrt z) y) 0) := by omega
                rcases le_max_iff.1 this with h'' | h'' <;> omega
          have h2 := htab.two_le j hj1 hjlen
          have := stride_ge c (generate_primes y) j
          exact ⟨removed_self c _ j, by omega, by omega⟩
        · intro j hj1 hj2
          simp only [Nat.sub_self, phi_sieve_zero, Nat.cast_zero]
          rw [List.getD_eq_getElem?_getD, List.getElem?_replicate]
          split <;> rfl
        · intro h
          have := le_max_right (c + 1)
            (max (pi.getD (isqrt y) 0) (pi.getD (min (isqrt z) y) 0) + 1)
          omega)
      (by
        simp only
        rw [min_eq_left (show 1 ≤ z + 1 by omega), hard_sum_empty])
  refine ⟨st', ?_, hres, CallsFrom.forall hcalls (by simp)⟩
  unfold S2_hard_run
  rw [hpy, hpz]
  simp only [Option.bind_eq_bind, Option.some_bind]
  exact hrun

/-! ## From the sieve to `phi` -/

theorem removed_dvd (c : Nat) (primes : List Nat) (j u : Nat)
    (h : removed c primes j u) : primes.getD j 0 ∣ u := by
  unfold removed at h
  have hd : primes.getD j 0 ∣ stride c primes j := by
    unfold stride
    split
    · exact dvd_rfl
    · exact Dvd.intro _ rfl
  have h1 : u ≡ primes.getD j 0 [MOD stride c primes j] := h
  have h2 : u ≡ primes.getD j 0 [MOD primes.getD j 0] := Nat.ModEq.of_dvd hd h1
  have h3 : u % primes.getD j 0 = 0 := by
    have : u % primes.getD j 0 = primes.getD j 0 % primes.getD j 0 := h2
    rw [this, Nat.mod_self]
  exact Nat.dvd_of_mod_eq_zero h3

theorem removed_of_dvd_presieve (c : Nat) (primes : List Nat) (j u : Nat) (hj : j ≤ c)
    (h : primes.getD j 0 ∣ u) : removed c primes j u := by
  unfold removed stride
  rw [if_pos hj, Nat.mod_self]
  exact Nat.mod_eq_zero_of_dvd h

theorem removed_of_dvd_odd (c : Nat) (primes : List Nat) (j u : Nat) (hj : c < j)
    (h : primes.getD j 0 ∣ u) (hodd : ¬ 2 ∣ u) : removed c primes j u := by
  unfold removed stride
  rw [if_neg (by omega)]
  obtain ⟨k, rfl⟩ := h
  have hk : k % 2 = 1 := by
    rcases Nat.mod_two_eq_zero_or_one k with h0 | h1
    · exfalso
      apply hodd
      exact Dvd.dvd.mul_left (Nat.dvd_of_mod_eq_zero h0) _
    · exact h1
  obtain ⟨t, rfl⟩ : ∃ t, k = 2 * t + 1 := ⟨k / 2, by omega⟩
  have : primes.getD j 0 * (2 * t + 1) = primes.getD j 0 + primes.getD j 0 * 2 * t := by ring
  rw [this, Nat.add_mul_mod_self_left]

/-- With the prime 2 in the pre-sieve, surviving the prime indices below `b` is being
divisible by none of the first `b - 1` primes. -/
theorem survives_iff (c : Nat) (primes : List Nat) (b u : Nat) (hc : 1 ≤ c) (hcb : c < b)
    (h2 : primes.getD 1 0 = 2) :
    survives c primes b u ↔ ∀ j : Nat, 1 ≤ j → j ≤ b - 1 → ¬ primes.getD j 0 ∣ u := by
  constructor
  · intro hs j hj1 hj2 hdvd
    by_cases hjc : j ≤ c
    · exact hs j hj1 (by omega) (removed_of_dvd_presieve c primes j u hjc hdvd)
    · by_cases hodd : 2 ∣ u
      · apply hs 1 le_rfl (by omega)
        apply removed_of_dvd_presieve c primes 1 u hc
        rw [h2]; exact hodd
      · exact hs j hj1 (by omega) (removed_of_dvd_odd c primes j u (by omega) hdvd hodd)
  · intro h j hj1 hj2 hr
    exact h j hj1 (by omega) (removed_dvd c primes j u hr)

theorem phi_sieve_eq_phi_ref (c : Nat) (primes : List Nat) (n b : Nat) (hc : 1 ≤ c)
    (hcb : c < b) (h2 : primes.getD 1 0 = 2) :
    phi_sieve c primes n b = phi_ref primes n (b - 1) := by
  unfold phi_sieve phi_ref
  congr 1
  apply Finset.filter_congr
  intro u _
  exact survives_iff c primes b u hc hcb h2

theorem hard_sum_eq_ref (x y z c : Nat) (pi lpf : List Nat) (mu : List Int)
    (htab : PrimeTables y (generate_primes y) pi) (hc : 1 ≤ c) :
    hard_sum x y z c (pi.getD (isqrt y) 0) (pi.getD (min (isqrt z) y) 0)
        (generate_primes y) lpf mu 1 (z + 1) =
      S2_hard_ref x y z c pi lpf mu := by
  have hpsy := htab.pi_lt (isqrt y) (isqrt_le y)
  have hpsz := htab.pi_lt (min (isqrt z) y) (min_le_right _ _)
  unfold hard_sum S2_hard_ref leaves_A leaves_B
  congr 1
  · congr 1
    apply Finset.sum_congr rfl
    intro b hb
    rw [Finset.mem_Ioc] at hb
    have h2 := htab.first (by omega)
    unfold segsumA
    rw [Finset.sum_filter]
    apply Finset.sum_congr rfl
    intro m _
    unfold leafA
    rw [phi_sieve_eq_phi_ref c _ _ b hc hb.1 h2]
    by_cases hv : 1 ≤ x / ((generate_primes y).getD b 0 * m) ∧
        x / ((generate_primes y).getD b 0 * m) < z + 1
    · rw [if_pos hv]
      by_cases hl : mu.getD m 0 ≠ 0 ∧ (generate_primes y).getD b 0 < lpf.getD m 0
      · rw [if_pos hl, if_pos ⟨hl.1, hl.2, hv.1, by omega⟩]
      · rw [if_neg hl, if_neg (fun h => hl ⟨h.1, h.2.1⟩)]
    · rw [if_neg hv, if_neg (fun h => hv ⟨h.2.2.1, by have := h.2.2.2; omega⟩)]
  · apply Finset.sum_congr rfl
    intro b hb
    rw [Finset.mem_Ioc] at hb
    have hcb : c < b := lt_of_le_of_lt (le_max_left _ _) hb.1
    have h2 := htab.first (by omega)
    unfold segsumB
    rw [Finset.sum_filter]
    apply Finset.sum_congr rfl
    intro l _
    rw [phi_sieve_eq_phi_ref c _ _ b hc hcb h2]
    by_cases hv : (generate_primes y).getD b 0 < (generate_primes y).getD l 0 ∧
        (generate_primes y).getD l 0 ≤ min (z / (generate_primes y).getD b 0) y ∧
        1 ≤ x / ((generate_primes y).getD b 0 * (generate_primes y).getD l 0) ∧
        x / ((generate_primes y).getD b 0 * (generate_primes y).getD l 0) < z + 1
    · rw [if_pos hv, if_pos ⟨hv.1, hv.2.1, hv.2.2.1, by have := hv.2.2.2; omega⟩]
    · rw [if_neg hv,
        if_neg (fun h => hv ⟨h.1, h.2.1, h.2.2.1, by have := h.2.2.2; omega⟩)]

/-- The reference tree meets the contract of the tree. -/
theorem windowTree_contract : TreeContract windowTree (fun t => t) where
  abs_init := fun _ _ => rfl
  abs_update := fun _ _ _ => rfl
  count_eq := fun _ _ _ _ _ => rfl

/-! ## The segment size -/

theorem next_power_of_2_loop_pow (n : Nat) :
    ∀ fuel p : Nat, ∃ j : Nat, next_power_of_2_loop n fuel p = p * 2 ^ j := by
  intro fuel
  induction fuel with
  | zero => intro p; exact ⟨0, by simp [next_power_of_2_loop]⟩
  | succ fuel ih =>
    intro p
    by_cases h : n ≤ p
    · exact ⟨0, by simp [next_power_of_2_loop, h]⟩
    · obtain ⟨j, hj⟩ := ih (2 * p)
      refine ⟨j + 1, ?_⟩
      simp only [next_power_of_2_loop]
      rw [if_neg h, hj]
      ring

theorem next_power_of_2_loop_ge (n : Nat) :
    ∀ fuel p : Nat, n ≤ p * 2 ^ fuel → n ≤ next_power_of_2_loop n fuel p := by
  intro fuel
  induction fuel with
  | zero => intro p h; simpa [next_power_of_2_loop] using h
  | succ fuel ih =>
    intro p h
    simp only [next_power_of_2_loop]
    by_cases hp : n ≤ p
    · rw [if_pos hp]; exact hp
    · rw [if_neg hp]
      apply ih
      calc n ≤ p * 2 ^ (fuel + 1) := h
        _ = 2 * p * 2 ^ fuel := by ring

theorem next_power_of_2_pow (n : Nat) : ∃ k : Nat, next_power_of_2 n = 2 ^ k := by
  obtain ⟨j, hj⟩ := next_power_of_2_loop_pow n n 1
  exact ⟨j, by unfold next_power_of_2; rw [hj]; ring⟩

theorem next_power_of_2_ge (n : Nat) : n ≤ next_power_of_2 n := by
  unfold next_power_of_2
  apply next_power_of_2_loop_ge
  rw [one_mul]
  exact le_of_lt (Nat.lt_two_pow n)

theorem next_power_of_2_pos (n : Nat) : 1 ≤ next_power_of_2 n := by
  obtain ⟨k, hk⟩ := next_power_of_2_pow n
  rw [hk]
  exact Nat.one_le_two_pow

theorem ceil_sqrt_le_iff (n s : Nat) : ceil_sqrt n ≤ s ↔ n ≤ s * s := by
  unfold ceil_sqrt
  have h1 := isqrt_sq_le n
  have h2 : ¬ (isqrt n + 1) * (isqrt n + 1) ≤ n := by
    intro h
    have := (le_isqrt_iff (isqrt n + 1) n).2 h
    omega
  split
  · rename_i heq
    constructor
    · intro h
      calc n = isqrt n * isqrt n := heq.symm
        _ ≤ s * s := Nat.mul_le_mul h h
    · intro h
      by_contra hlt
      have : s + 1 ≤ isqrt n := by omega
      have := Nat.mul_le_mul this this
      nlinarith
  · rename_i hne
    constructor
    · intro h
      have := Nat.mul_le_mul h h
      omega
    · intro h
      by_contra hlt
      have hs : s ≤ isqrt n := by omega
      have := Nat.mul_le_mul hs hs
      omega

/-! ## `cross_off` from an arbitrary cursor -/

/-- What `cross_off` does from any cursor `m ≥ low` on any presence array that holds the
segment: it clears exactly the positions `m, m + 2p, m + 4p, ...` below `high`, leaves the
other entries as they are, and returns the first position of that progression that is
`≥ high`. -/
theorem cross_off_loop_general (T : BinaryIndexedTree) (p low high : Nat) (hp : 0 < p) :
    ∀ (fuel m : Nat) (st : HardState T), high ≤ m + fuel → low ≤ m →
      high - low ≤ st.sieve.length →
      ∃ (m' : Nat) (st' : HardState T),
        cross_off_loop T p low high fuel m st = some (m', st') ∧
        st'.sieve.length = st.sieve.length ∧ st'.next = st.next ∧ st'.phi = st.phi ∧
        st'.S2_result = st.S2_result ∧
        m' % (p * 2) = m % (p * 2) ∧ m ≤ m' ∧ high ≤ m' ∧
        (m < high → m' < high + p * 2) ∧ (high ≤ m → m' = m) ∧
        (∀ u : Nat, low ≤ u → u < high →
          st'.sieve[u - low]? =
            if m ≤ u ∧ u % (p * 2) = m % (p * 2) then some false else st.sieve[u - low]?) ∧
        (∀ i : Nat, high - low ≤ i → st'.sieve[i]? = st.sieve[i]?) := by
  intro fuel
  induction fuel with
  | zero =>
    intro m st hfuel hlow hlen
    refine ⟨m, st, ?_, rfl, rfl, rfl, rfl, rfl, le_rfl, by omega, fun h => by omega,
      fun _ => rfl, ?_, fun _ _ => rfl⟩
    · simp only [cross_off_loop]
      rw [if_neg (by omega)]
    · intro u hu1 hu2
      rw [if_neg (fun h => by omega)]
  | succ fuel ih =>
    intro m st hfuel hlow hlen
    by_cases hmh : m < high
    · have hidx : m - low < st.sieve.length := by omega
      -- the state after the loop body, whatever the entry was
      have hbody : ∃ st1 : HardState T,
          cross_off_loop T p low high (fuel + 1) m st =
            cross_off_loop T p low high fuel (m + p * 2) st1 ∧
          st1.sieve.length = st.sieve.length ∧ st1.next = st.next ∧ st1.phi = st.phi ∧
          st1.S2_result = st.S2_result ∧ st1.sieve[m - low]? = some false ∧
          ∀ i : Nat, i ≠ m - low → st1.sieve[i]? = st.sieve[i]? := by
        rcases hv : st.sieve[m - low] with _ | _
        · refine ⟨st, ?_, rfl, rfl, rfl, rfl, ?_, fun _ _ => rfl⟩
          · simp only [cross_off_loop]
            rw [if_pos hmh, if_neg (by omega), List.getElem?_eq_getElem hidx, hv]
          · rw [List.getElem?_eq_getElem hidx, hv]
        · refine ⟨{ st with
              sieve := st.sieve.set (m - low) false
              tree := T.update st.tree (m - low)
              calls := st.calls ++ [TreeCall.update (m - low)] }, ?_, by simp, rfl, rfl, rfl,
            ?_, ?_⟩
          · simp only [cross_off_loop]
            rw [if_pos hmh, if_neg (by omega), List.getElem?_eq_getElem hidx, hv]
          · simp only
            rw [List.getElem?_set_self hidx]
          · intro i hi
            simp only
            rw [List.getElem?_set_ne (fun h => hi h.symm)]
      obtain ⟨st1, hrun1, hl1, hn1, hph1, hr1, hcur1, hoth1⟩ := hbody
      obtain ⟨m', st', hrun, hl, hn, hph, hr, hmod, hle, hhigh, hlt, heq', hin, hout⟩ :=
        ih (m + p * 2) st1 (by omega) (by omega) (by rw [hl1]; exact hlen)
      refine ⟨m', st', by rw [hrun1]; exact hrun, by rw [hl, hl1], by rw [hn, hn1],
        by rw [hph, hph1], by rw [hr, hr1], by rw [hmod, Nat.add_mod_right], by omega, hhigh,
        ?_, fun h => by omega, ?_, ?_⟩
      · intro _
        by_cases h2 : m + p * 2 < high
        · exact hlt h2
        · have : m' = m + p * 2 := heq' (by omega)
          omega
      · intro u hu1 hu2
        rw [hin u hu1 hu2, Nat.add_mod_right]
        by_cases hum : u = m
        · subst hum
          rw [if_neg (fun h => by omega), if_pos ⟨le_rfl, rfl⟩, hcur1]
        · rw [hoth1 (u - low) (by omega)]
          have : (m + p * 2 ≤ u ∧ u % (p * 2) = m % (p * 2)) ↔
              (m ≤ u ∧ u % (p * 2) = m % (p * 2)) := by
            constructor
            · rintro ⟨h1, h2⟩
              exact ⟨by omega, h2⟩
            · rintro ⟨h1, h2⟩
              refine ⟨?_, h2⟩
              by_contra hlt'
              have := mod_class_unique (p * 2) m u h2.symm h1 (by omega)
              exact hum this.symm
          simp only [this]
      · intro i hi
        rw [hout i hi, hoth1 i (by omega)]
    · refine ⟨m, st, ?_, rfl, rfl, rfl, rfl, rfl, le_rfl, by omega, fun h => by omega,
        fun _ => rfl, ?_, fun _ _ => rfl⟩
      · simp only [cross_off_loop]
        rw [if_neg hmh]
      · intro u hu1 hu2
        rw [if_neg (fun h => by omega)]

/-! ## The empty-phase path -/

theorem phaseA_skip (T : BinaryIndexedTree) (prune : Bool) (x y low high pi_sqrty : Nat)
    (primes lpf : List Nat) (mu : List Int) (fuel b : Nat) (st : HardState T)
    (h : pi_sqrty < b) :
    phaseA T prune x y low high pi_sqrty primes lpf mu fuel b st =
      some (Flow.fallthrough b st) := by
  cases fuel with
  | zero => simp only [phaseA]; rw [if_neg (by omega)]
  | succ fuel => simp only [phaseA]; rw [if_neg (by omega)]

theorem phaseB_skip (T : BinaryIndexedTree) (prune : Bool) (x y z low high pi_sqrtz : Nat)
    (primes pi : List Nat) (fuel b : Nat) (st : HardState T) (h : pi_sqrtz < b) :
    phaseB T prune x y z low high pi_sqrtz primes pi fuel b st =
      some (Flow.fallthrough b st) := by
  cases fuel with
  | zero => simp only [phaseB]; rw [if_neg (by omega)]
  | succ fuel => simp only [phaseB]; rw [if_neg (by omega)]

theorem segment_empty (T : BinaryIndexedTree) (segment_size : Nat) (prune : Bool)
    (x y z c pi_sqrty pi_sqrtz : Nat) (primes pi lpf : List Nat) (mu : List Int)
    (h2 : ∀ j : Nat, 1 ≤ j → j < primes.length → 2 ≤ primes.getD j 0)
    (hc : c < primes.length) (hS : 1 ≤ segment_size)
    (hy : pi_sqrty ≤ c) (hz : pi_sqrtz ≤ c) (low : Nat) (st : HardState T)
    (hlim : low < z + 1) (hinv : SegInv T c primes segment_size low (c + 1) st) :
    ∃ st' : HardState T,
      segment T segment_size prune x y z c pi_sqrty pi_sqrtz primes pi lpf mu low st = some st' ∧
      SegInv T c primes segment_size (min (low + segment_size) (z + 1)) (c + 1) st' ∧
      st'.S2_result = st.S2_result ∧
      ∃ n : Nat, st'.calls = st.calls ++ [TreeCall.init n] := by
  have hlh : low < min (low + segment_size) (z + 1) := lt_min (by omega) hlim
  have hwin : min (low + segment_size) (z + 1) - low ≤ segment_size := by
    have := min_le_left (low + segment_size) (z + 1)
    omega
  generalize hhigh : min (low + segment_size) (z + 1) = high at hlh hwin ⊢
  obtain ⟨st1, hrun1, hl1, hn1, hstage1, hcur1, hother1, hphi1, htree1, hres1, hcalls1⟩ :=
    presieve_spec T c primes low high hc
      (fun j g1 g2 => by have := h2 j g1 (by omega); omega) (le_of_lt hlh) c 1
      { st with sieve := List.replicate st.sieve.length true } (by omega) le_rfl (by omega)
      hinv.next_len (by simp only [List.length_replicate]; rw [hinv.sieve_len]; exact hwin)
      (by
        intro u hu1 hu2
        simp only
        rw [List.getElem?_replicate_of_lt (by rw [hinv.sieve_len]; omega),
          decide_eq_true (survives_one c primes u)])
      (fun j h1 h2 => hinv.cursor j h1 (Or.inl h2))
  simp only [List.length_replicate] at hl1
  simp only at hn1 hother1 hphi1 hres1 hcalls1
  refine ⟨{ st1 with
      tree := T.init st1.tree st1.sieve
      calls := st1.calls ++ [TreeCall.init st1.sieve.length] }, ?_, ?_, hres1,
    ⟨st1.sieve.length, by simp only; rw [hcalls1]⟩⟩
  · unfold segment
    simp only [hhigh, hrun1, Option.bind_eq_bind, Option.some_bind]
    rw [phaseA_skip T prune x y low high pi_sqrty primes lpf mu pi_sqrty (c + 1) _ (by omega)]
    simp only [Option.some_bind]
    rw [phaseB_skip T prune x y z low high pi_sqrtz primes pi pi_sqrtz (c + 1) _ (by omega)]
    simp only [Option.some_bind]
  · refine ⟨by simp only; rw [hl1, hinv.sieve_len], by simp only; rw [hn1, hinv.next_len],
      by simp only; rw [hphi1, hinv.phi_len], ?_, ?_⟩
    · intro j hj1 hj2
      exact hcur1 j hj1 (by omega)
    · intro j hj1 hj2
      omega

theorem segments_empty (T : BinaryIndexedTree) (segment_size : Nat) (prune : Bool)
    (x y z c pi_sqrty pi_sqrtz : Nat) (primes pi lpf : List Nat) (mu : List Int)
    (h2 : ∀ j : Nat, 1 ≤ j → j < primes.length → 2 ≤ primes.getD j 0)
    (hc : c < primes.length) (hS : 1 ≤ segment_size)
    (hy : pi_sqrty ≤ c) (hz : pi_sqrtz ≤ c) :
    ∀ (fuel low : Nat) (st : HardState T), z + 1 ≤ low + fuel → 1 ≤ low →
      (low < z + 1 → SegInv T c primes segment_size low (c + 1) st) →
      ∃ st' : HardState T,
        segments T segment_size prune x y z c pi_sqrty pi_sqrtz primes pi lpf mu fuel low st =
          some st' ∧
        st'.S2_result = st.S2_result ∧
        CallsFrom (fun call => ∃ n : Nat, call = TreeCall.init n) st.calls st'.calls := by
  intro fuel
  induction fuel with
  | zero =>
    intro low st hfuel hlow _
    refine ⟨st, ?_, rfl, CallsFrom.refl _ _⟩
    simp only [segments]
    rw [if_neg (by omega)]
  | succ fuel ih =>
    intro low st hfuel hlow hinv
    by_cases hlim : low < z + 1
    · obtain ⟨st1, hrun1, hseg1, hres1, n, hcalls1⟩ :=
        segment_empty T segment_size prune x y z c pi_sqrty pi_sqrtz primes pi lpf mu h2 hc hS
          hy hz low st hlim (hinv hlim)
      obtain ⟨st', hrun', hres', hcalls'⟩ :=
        ih (low + segment_size) st1 (by omega) (by omega)
          (by
            intro hnext
            rw [min_eq_left (by omega)] at hseg1
            exact hseg1)
      refine ⟨st', ?_, by rw [hres', hres1], ?_⟩
      · simp only [segments]
        rw [if_pos hlim, hrun1]
        simp only [Option.bind_eq_bind, Option.some_bind]
        exact hrun'
      · refine CallsFrom.trans ?_ hcalls'
        rw [hcalls1]
        exact CallsFrom.snoc _ _ ⟨n, rfl⟩
    · refine ⟨st, ?_, rfl, CallsFrom.refl _ _⟩
      simp only [segments]
      rw [if_neg hlim]

/-- When no prime index lies beyond the cutoff, the run leaves `S2_result` at `0` and calls
nothing but `init` on the tree; this holds for every tree, every `mu` and `lpf`, and every
table `pi` that covers `0..y`. -/
theorem S2_hard_run_empty (T : BinaryIndexedTree) (segment_size : Nat) (prune : Bool)
    (x y z c : Nat) (pi lpf : List Nat) (mu : List Int)
    (hpi : y < pi.length) (hc : c < (generate_primes y).length)
    (hS : 1 ≤ segment_size) (hy : pi.getD (isqrt y) 0 ≤ c)
    (hz : pi.getD (min (isqrt z) y) 0 ≤ c) :
    ∃ st : HardState T,
      S2_hard_run T segment_size prune x y z c pi lpf mu = some st ∧ st.S2_result = 0 ∧
      ∀ call ∈ st.calls, ∃ n : Nat, call = TreeCall.init n := by
  have hpy : pi[isqrt y]? = some (pi.getD (isqrt y) 0) :=
    getElem?_eq_some_getD pi _ 0 (by have := isqrt_le y; omega)
  have hpz : pi[min (isqrt z) y]? = some (pi.getD (min (isqrt z) y) 0) :=
    getElem?_eq_some_getD pi _ 0 (by have := min_le_right (isqrt z) y; omega)
  obtain ⟨st', hrun, hres, hcalls⟩ :=
    segments_empty T segment_size prune x y z c (pi.getD (isqrt y) 0)
      (pi.getD (min (isqrt z) y) 0) (generate_primes y) pi lpf mu
      (generate_tables y).two_le hc hS hy hz (z + 1) 1
      { sieve := List.replicate segment_size false
        next := generate_primes y
        phi := List.replicate (generate_primes y).length 0
        tree := T.empty
        S2_result := 0
        calls := [] }
      (by omega) le_rfl
      (by
        intro _
        refine ⟨by simp, rfl, by simp, ?_, ?_⟩
        · intro j hj1 hj2
          simp only
          have h2 := (generate_tables y).two_le j hj1 (by omega)
          have := stride_ge c (generate_primes y) j
          exact ⟨removed_self c _ j, by omega, by omega⟩
        · intro j hj1 hj2
          omega)
  refine ⟨st', ?_, hres, CallsFrom.forall hcalls (by simp)⟩
  unfold S2_hard_run
  rw [hpy, hpz]
  simp only [Option.bind_eq_bind, Option.some_bind]
  exact hrun

/-! ## The generated tables are the standard ones -/

theorem generate_primes_mem_iff (y p : Nat) :
    p ∈ (generate_primes y).tail ↔ Nat.Prime p ∧ p ≤ y := by
  unfold generate_primes
  rw [List.tail_cons, List.mem_filter, List.mem_range, decide_prime_iff]
  constructor
  · rintro ⟨h1, h2⟩
    exact ⟨h2, by omega⟩
  · rintro ⟨h1, h2⟩
    exact ⟨by omega, h1⟩

theorem filter_prime_length (n : Nat) :
    ((List.range n).filter
      (fun k => @decide (Nat.Prime k) (Nat.decidablePrime1 k))).length =
      Nat.count Nat.Prime n := by
  induction n with
  | zero => simp
  | succ n ih =>
    rw [List.range_succ, List.filter_append, List.length_append, ih, Nat.count_succ]
    by_cases hp : Nat.Prime n
    · simp [hp]
    · simp [hp]

/-- The entry `pi[n]` of the generated table is the prime-counting function of Mathlib. -/
theorem generate_pi_eq_primeCounting (y n : Nat) (hn : n ≤ y) :
    (generate_pi y).getD n 0 = Nat.primeCounting n := by
  rw [generate_pi_getD y n hn, filter_prime_length]
  rfl

/-- The entry `primes[j]` of the generated table is the `j`-th prime. -/
theorem generate_primes_eq_nth (y j : Nat) (hj1 : 1 ≤ j) (hj : j < (generate_primes y).length) :
    (generate_primes y).getD j 0 = Nat.nth Nat.Prime (j - 1) := by
  have htab := generate_tables y
  obtain ⟨hprime, hle⟩ := generate_primes_mem y j hj1 hj
  have h2 := hprime.two_le
  -- the number of primes below `primes[j]` is `j - 1`
  have hcount : Nat.count Nat.Prime ((generate_primes y).getD j 0) = j - 1 := by
    have hpc : Nat.count Nat.Prime ((generate_primes y).getD j 0) =
        (generate_pi y).getD ((generate_primes y).getD j 0 - 1) 0 := by
      rw [generate_pi_eq_primeCounting y _ (by omega)]
      show _ = Nat.count Nat.Prime ((generate_primes y).getD j 0 - 1 + 1)
      congr 1
      omega
    rw [hpc]
    apply le_antisymm
    · by_contra hgt
      have := (htab.pi_spec ((generate_primes y).getD j 0 - 1) j (by omega) hj).2 (by omega)
      omega
    · have hlt := htab.mono (j - 1) j (by omega) hj
      exact (htab.pi_spec ((generate_primes y).getD j 0 - 1) (j - 1) (by omega) (by omega)).1
        (by omega)
  rw [← hcount]
  exact (Nat.nth_count hprime).symm

/-! ## The claims -/

theorem contract_tables (y c : Nat) (pi : List Nat) (hpi : pi = generate_pi y)
    (hc : c ≤ pi.getD y 0) :
    PrimeTables y (generate_primes y) pi ∧ c < (generate_primes y).length := by
  subst hpi
  have htab := generate_tables y
  exact ⟨htab, lt_of_le_of_lt hc (htab.pi_lt y le_rfl)⟩

/-- C1, counterexample. At `x = 20, y = 3, z = 6, c = 1`, with the tables of `y = 3`, the
claimed reference sum is `3`: its prime-pair sum ranges over `pi(isqrt(3)) = 0 < b ≤ 1` and so
holds the leaf `(b, l) = (1, 2)` with value `phi(20 / (2 * 3), 0) = 3`. The code starts at
`b = c + 1 = 2`, visits no leaf and returns `0`. -/
theorem S2_hard_claimed_counterexample :
    S2_hard windowTree 20 3 6 1 (generate_pi 3) [0, 2147483647, 2, 3] [0, 1, -1, -1] = some 0 ∧
    S2_hard_claimed 20 3 6 1 (generate_pi 3) [0, 2147483647, 2, 3] [0, 1, -1, -1] = 3 := by
  decide

/-- C1, amended. For every tree that meets the contract (`count(low, pos)` is the number of
still-present positions in `[low, pos]`), with `pi` the prime-count table of `y`, `mu` and `lpf`
tables covering `0..y` and `1 ≤ c ≤ pi(y)`, `S2_hard` returns the reference sum in which the
prime-pair sum runs over `max(c, pi(isqrt(y))) < b ≤ pi(min(isqrt(z), y))`: minus the sum of
`mu(m) * phi(x / (primes[b] * m), b - 1)` over the phase-A leaves plus the sum of
`phi(x / (primes[b] * primes[l]), b - 1)` over the phase-B leaves. -/
theorem S2_hard_eq_ref (T : BinaryIndexedTree) (abs : T.τ → List Bool)
    (hT : TreeContract T abs) (x y z c : Nat) (pi lpf : List Nat) (mu : List Int)
    (hpi : pi = generate_pi y) (hc1 : 1 ≤ c) (hc : c ≤ pi.getD y 0) (hmu : y < mu.length)
    (hlpf : y < lpf.length) :
    S2_hard T x y z c pi lpf mu = some (S2_hard_ref x y z c pi lpf mu) := by
  obtain ⟨htab, hclen⟩ := contract_tables y c pi hpi hc
  obtain ⟨st, hrun, hres, _⟩ :=
    S2_hard_run_spec T abs hT (next_power_of_2 (isqrt (z + 1))) true x y z c pi lpf mu htab
      hclen (next_power_of_2_pos _) hmu hlpf
  unfold S2_hard
  rw [hrun, Option.map_some', hres, hard_sum_eq_ref x y z c pi lpf mu htab hc1]

/-- C1, witness: the amended claim at `x = 20, y = 3, z = 6, c = 1`. -/
theorem S2_hard_eq_ref_witness :
    S2_hard windowTree 20 3 6 1 (generate_pi 3) [0, 2147483647, 2, 3] [0, 1, -1, -1] =
      some (S2_hard_ref 20 3 6 1 (generate_pi 3) [0, 2147483647, 2, 3] [0, 1, -1, -1]) :=
  S2_hard_eq_ref windowTree (fun t => t) windowTree_contract 20 3 6 1 (generate_pi 3)
    [0, 2147483647, 2, 3] [0, 1, -1, -1] rfl (by decide) (by decide) (by decide) (by decide)

/-- C2. Segment-size invariance: under the contract of `S2_hard`, the segment loop run with
any segment size `≥ 1` (any power of two, a single segment of size `≥ z + 1`, ...) returns a
value, and it is the value of `S2_hard`, which uses `next_power_of_2(isqrt(z + 1))`. -/
theorem S2_hard_segment_size_invariant (T : BinaryIndexedTree) (abs : T.τ → List Bool)
    (hT : TreeContract T abs) (x y z c : Nat) (pi lpf : List Nat) (mu : List Int)
    (hpi : pi = generate_pi y) (hc : c ≤ pi.getD y 0) (hmu : y < mu.length)
    (hlpf : y < lpf.length) (segment_size : Nat) (hS : 1 ≤ segment_size) :
    ∃ r : Int, S2_hard T x y z c pi lpf mu = some r ∧
      (S2_hard_run T segment_size true x y z c pi lpf mu).map (fun st => st.S2_result) =
        some r := by
  obtain ⟨htab, hclen⟩ := contract_tables y c pi hpi hc
  obtain ⟨st, hrun, hres, _⟩ :=
    S2_hard_run_spec T abs hT (next_power_of_2 (isqrt (z + 1))) true x y z c pi lpf mu htab
      hclen (next_power_of_2_pos _) hmu hlpf
  obtain ⟨st', hrun', hres', _⟩ :=
    S2_hard_run_spec T abs hT segment_size true x y z c pi lpf mu htab hclen hS hmu hlpf
  refine ⟨st.S2_result, ?_, ?_⟩
  · unfold S2_hard
    rw [hrun, Option.map_some']
  · rw [hrun', Option.map_some', hres', hres]

/-- C2, witness: `x = 50, y = 9, z = 5, c = 1` run as one single segment of size `8`. -/
theorem S2_hard_segment_size_invariant_witness :
    ∃ r : Int,
      S2_hard windowTree 50 9 5 1 (generate_pi 9) [0, 2147483647, 2, 3, 2, 5, 2, 7, 2, 3]
        [0, 1, -1, -1, 0, -1, 1, -1, 0, 0] = some r ∧
      (S2_hard_run windowTree 8 true 50 9 5 1 (generate_pi 9)
        [0, 2147483647, 2, 3, 2, 5, 2, 7, 2, 3] [0, 1, -1, -1, 0, -1, 1, -1, 0, 0]).map
          (fun st => st.S2_result) = some r :=
  S2_hard_segment_size_invariant windowTree (fun t => t) windowTree_contract 50 9 5 1
    (generate_pi 9) [0, 2147483647, 2, 3, 2, 5, 2, 7, 2, 3] [0, 1, -1, -1, 0, -1, 1, -1, 0, 0]
    rfl (by decide) (by decide) (by decide) 8 (by decide)

/-- C3. Pruning soundness: under the contract of `S2_hard`, the variant without the two early
exits returns a value, and it is the value of `S2_hard`. -/
theorem S2_hard_pruning_sound (T : BinaryIndexedTree) (abs : T.τ → List Bool)
    (hT : TreeContract T abs) (x y z c : Nat) (pi lpf : List Nat) (mu : List Int)
    (hpi : pi = generate_pi y) (hc : c ≤ pi.getD y 0) (hmu : y < mu.length)
    (hlpf : y < lpf.length) :
    ∃ r : Int, S2_hard T x y z c pi lpf mu = some r ∧
      S2_hard_unpruned T x y z c pi lpf mu = some r := by
  obtain ⟨htab, hclen⟩ := contract_tables y c pi hpi hc
  obtain ⟨st, hrun, hres, _⟩ :=
    S2_hard_run_spec T abs hT (next_power_of_2 (isqrt (z + 1))) true x y z c pi lpf mu htab
      hclen (next_power_of_2_pos _) hmu hlpf
  obtain ⟨st', hrun', hres', _⟩ :=
    S2_hard_run_spec T abs hT (next_power_of_2 (isqrt (z + 1))) false x y z c pi lpf mu htab
      hclen (next_power_of_2_pos _) hmu hlpf
  refine ⟨st.S2_result, ?_, ?_⟩
  · unfold S2_hard
    rw [hrun, Option.map_some']
  · unfold S2_hard_unpruned
    rw [hrun', Option.map_some', hres', hres]

/-- C3, witness: `x = 50, y = 9, z = 5, c = 1`. -/
theorem S2_hard_pruning_sound_witness :
    ∃ r : Int,
      S2_hard windowTree 50 9 5 1 (generate_pi 9) [0, 2147483647, 2, 3, 2, 5, 2, 7, 2, 3]
        [0, 1, -1, -1, 0, -1, 1, -1, 0, 0] = some r ∧
      S2_hard_unpruned windowTree 50 9 5 1 (generate_pi 9)
        [0, 2147483647, 2, 3, 2, 5, 2, 7, 2, 3] [0, 1, -1, -1, 0, -1, 1, -1, 0, 0] = some r :=
  S2_hard_pruning_sound windowTree (fun t => t) windowTree_contract 50 9 5 1
    (generate_pi 9) [0, 2147483647, 2, 3, 2, 5, 2, 7, 2, 3] [0, 1, -1, -1, 0, -1, 1, -1, 0, 0]
    rfl (by decide) (by decide) (by decide)

/-- C5. Empty-phase path: for every input whose accesses stay inside the tables (`pi` covers
`0..y` and `c` is an index of the prime table, that is `c ≤ pi(y)`), if `c ≥ pi[isqrt(y)]` and
`c ≥ pi[min(isqrt(z), y)]` then `S2_hard` returns `0`, for every tree and all `mu`, `lpf`; the
run finishes with `S2_result = 0` and has called nothing but `init` on the tree, so no leaf was
evaluated. -/
theorem S2_hard_empty_phase (T : BinaryIndexedTree) (x y z c : Nat) (pi lpf : List Nat)
    (mu : List Int) (hpi : y < pi.length) (hc : c < (generate_primes y).length)
    (hy : pi.getD (isqrt y) 0 ≤ c) (hz : pi.getD (min (isqrt z) y) 0 ≤ c) :
    S2_hard T x y z c pi lpf mu = some 0 ∧
    ∃ st : HardState T,
      S2_hard_run T (next_power_of_2 (isqrt (z + 1))) true x y z c pi lpf mu = some st ∧
      st.S2_result = 0 ∧ ∀ call ∈ st.calls, ∃ n : Nat, call = TreeCall.init n := by
  obtain ⟨st, hrun, hres, hcalls⟩ :=
    S2_hard_run_empty T (next_power_of_2 (isqrt (z + 1))) true x y z c pi lpf mu hpi hc
      (next_power_of_2_pos _) hy hz
  refine ⟨?_, st, hrun, hres, hcalls⟩
  unfold S2_hard
  rw [hrun, Option.map_some', hres]

/-- C5, witness: the boundary scenario `x = 10, y = 4, z = 2, c = 1`. -/
theorem S2_hard_empty_phase_witness :
    S2_hard windowTree 10 4 2 1 (generate_pi 4) [0, 2147483647, 2, 3, 2] [0, 1, -1, -1, 0] =
      some 0 :=
  (S2_hard_empty_phase windowTree 10 4 2 1 (generate_pi 4) [0, 2147483647, 2, 3, 2]
    [0, 1, -1, -1, 0] (by decide) (by decide) (by decide) (by decide)).1

/-- C6. Cursor resumability of `cross_off`: for every `p ≥ 1` (every odd prime), every
cursor `m0 ≥ low` and all `low ≤ mid ≤ high`, running `cross_off` over `[low, mid)` and then,
from the cursor it returns, over `[mid, high)` returns the same final cursor as one
`cross_off` from `m0` over `[low, high)`; and presence arrays that agree position by position
before the runs agree position by position after them, so the same global positions are
marked absent. -/
theorem cross_off_resumable (T : BinaryIndexedTree) (p low mid high m0 : Nat)
    (sA sB sC : HardState T) (hp : 1 ≤ p) (h1 : low ≤ mid) (h2 : mid ≤ high) (hm : low ≤ m0)
    (hA : mid - low ≤ sA.sieve.length) (hB : high - mid ≤ sB.sieve.length)
    (hC : high - low ≤ sC.sieve.length)
    (hagreeA : ∀ u : Nat, low ≤ u → u < mid → sA.sieve[u - low]? = sC.sieve[u - low]?)
    (hagreeB : ∀ u : Nat, mid ≤ u → u < high → sB.sieve[u - mid]? = sC.sieve[u - low]?) :
    ∃ (m1 m2 : Nat) (sA' sB' sC' : HardState T),
      cross_off T p low mid m0 sA = some (m1, sA') ∧
      cross_off T p mid high m1 sB = some (m2, sB') ∧
      cross_off T p low high m0 sC = some (m2, sC') ∧
      (∀ u : Nat, low ≤ u → u < mid → sA'.sieve[u - low]? = sC'.sieve[u - low]?) ∧
      (∀ u : Nat, mid ≤ u → u < high → sB'.sieve[u - mid]? = sC'.sieve[u - low]?) := by
  obtain ⟨m1, sA', hrunA, _, _, _, _, hmodA, hleA, hgeA, hltA, heqA, hinA, _⟩ :=
    cross_off_loop_general T p low mid (by omega) mid m0 sA (by omega) hm hA
  obtain ⟨m2, sB', hrunB, _, _, _, _, hmodB, hleB, hgeB, hltB, heqB, hinB, _⟩ :=
    cross_off_loop_general T p mid high (by omega) high m1 sB (by omega) hgeA hB
  obtain ⟨mc, sC', hrunC, _, _, _, _, hmodC, hleC, hgeC, hltC, heqC, hinC, _⟩ :=
    cross_off_loop_general T p low high (by omega) high m0 sC (by omega) hm hC
  -- the final cursors coincide
  have hcur : mc = m2 := by
    by_cases hm0 : high ≤ m0
    · have e1 : m1 = m0 := heqA (by omega)
      have e2 : m2 = m1 := heqB (by omega)
      have e3 : mc = m0 := heqC hm0
      omega
    · have hc3 := hltC (by omega)
      have hm1 : m1 < high + p * 2 := by
        by_cases hmid : mid ≤ m0
        · have := heqA hmid
          omega
        · have := hltA (by omega)
          omega
      have hm2 : m2 < high + p * 2 := by
        by_cases hh : m1 < high
        · exact hltB hh
        · have := heqB (by omega)
          omega
      have hmod : mc % (p * 2) = m2 % (p * 2) := by rw [hmodC, hmodB, hmodA]
      rcases le_total mc m2 with hle | hle
      · exact mod_class_unique (p * 2) mc m2 hmod hle (by omega)
      · exact (mod_class_unique (p * 2) m2 mc hmod.symm hle (by omega)).symm
  subst hcur
  refine ⟨m1, mc, sA', sB', sC', hrunA, hrunB, hrunC, ?_, ?_⟩
  · intro u hu1 hu2
    rw [hinA u hu1 hu2, hinC u hu1 (by omega), hagreeA u hu1 hu2]
  · intro u hu1 hu2
    rw [hinB u hu1 hu2, hinC u (by omega) hu2, hagreeB u hu1 hu2, hmodA]
    have : (m1 ≤ u ∧ u % (p * 2) = m0 % (p * 2)) ↔ (m0 ≤ u ∧ u % (p * 2) = m0 % (p * 2)) := by
      constructor
      · rintro ⟨g1, g2⟩
        exact ⟨by omega, g2⟩
      · rintro ⟨g1, g2⟩
        refine ⟨?_, g2⟩
        by_cases hmid : mid ≤ m0
        · have := heqA hmid
          omega
        · have hlt := hltA (by omega)
          by_contra hgt
          have := mod_class_unique (p * 2) u m1 (by rw [g2, hmodA]) (by omega) (by omega)
          omega
    simp only [this]

/-- C6, witness: the prime `3` from the cursor `3` over `[1, 9)` and `[9, 17)`, on all-present
presence arrays of the reference tree. -/
theorem cross_off_resumable_witness :
    ∃ (m1 m2 : Nat) (sA' sB' sC' : HardState windowTree),
      cross_off windowTree 3 1 9 3 ⟨List.replicate 8 true, [], [], [], 0, []⟩ =
        some (m1, sA') ∧
      cross_off windowTree 3 9 17 m1 ⟨List.replicate 8 true, [], [], [], 0, []⟩ =
        some (m2, sB') ∧
      cross_off windowTree 3 1 17 3 ⟨List.replicate 16 true, [], [], [], 0, []⟩ =
        some (m2, sC') ∧
      (∀ u : Nat, 1 ≤ u → u < 9 → sA'.sieve[u - 1]? = sC'.sieve[u - 1]?) ∧
      (∀ u : Nat, 9 ≤ u → u < 17 → sB'.sieve[u - 9]? = sC'.sieve[u - 1]?) :=
  cross_off_resumable windowTree 3 1 9 17 3 ⟨List.replicate 8 true, [], [], [], 0, []⟩
    ⟨List.replicate 8 true, [], [], [], 0, []⟩ ⟨List.replicate 16 true, [], [], [], 0, []⟩
    (by decide) (by decide) (by decide) (by decide) (by decide) (by decide) (by decide)
    (by
      intro u h1 h2
      simp only [List.getElem?_replicate]
      rw [if_pos (by omega), if_pos (by omega)])
    (by
      intro u h1 h2
      simp only [List.getElem?_replicate]
      rw [if_pos (by omega), if_pos (by omega)])

/-- C8, counterexample. For `z = 4` the segment size is `next_power_of_2(isqrt(5)) = 2`, which
is less than `⌈√5⌉ = 3`. -/
theorem segment_size_counterexample :
    next_power_of_2 (isqrt (4 + 1)) = 2 ∧ ceil_sqrt (4 + 1) = 3 ∧
    next_power_of_2 (isqrt (4 + 1)) < ceil_sqrt (4 + 1) := by
  decide

/-- C8, amended. For every `z` the segment size `next_power_of_2(isqrt(z + 1))` is a power of
two and is at least the floor square root `⌊√(z + 1)⌋ = isqrt(z + 1)`. -/
theorem segment_size_spec (z : Nat) :
    (∃ k : Nat, next_power_of_2 (isqrt (z + 1)) = 2 ^ k) ∧
    isqrt (z + 1) = Nat.sqrt (z + 1) ∧
    Nat.sqrt (z + 1) ≤ next_power_of_2 (isqrt (z + 1)) := by
  refine ⟨next_power_of_2_pow _, isqrt_eq_sqrt _, ?_⟩
  rw [← isqrt_eq_sqrt]
  exact next_power_of_2_ge _

/-- C9. The function `S2` returns `S2_trivial(x, y, z, c) + S2_easy(x, y, z, c)` plus the
value of `S2_hard(x, y, z, c, pi, lpf, mu)` called with `pi = generate_pi(y)` and with `lpf`
and `mu` as they were passed in (and returns nothing if `S2_hard` does not). -/
theorem S2_eq (T : BinaryIndexedTree) (S2_trivial S2_easy : Nat → Nat → Nat → Nat → Nat → Int)
    (x y z c : Nat) (lpf : List Nat) (mu : List Int) :
    S2 T S2_trivial S2_easy x y z c lpf mu =
      (S2_hard T x y z c (generate_pi y) lpf mu).map
        (fun s2_hard => S2_trivial x y z c 1 + S2_easy x y z c 1 + s2_hard) := by
  show (S2_hard T x y z c (generate_pi y) lpf mu).bind
      (fun s2_hard => some (S2_trivial x y z c 1 + S2_easy x y z c 1 + s2_hard)) = _
  cases S2_hard T x y z c (generate_pi y) lpf mu <;> rfl

/-- C10. For every `x < 2`, negative values included, `pi_deleglise_rivat1(x)` returns `0`
whatever the collaborators are, also when every one of them fails: none is evaluated. -/
theorem pi_deleglise_rivat1_lt_two (K : Collaborators) (T : BinaryIndexedTree) (x : Int)
    (h : x < 2) : pi_deleglise_rivat1 K T x = some 0 := by
  unfold pi_deleglise_rivat1
  rw [if_pos h]

/-- C10, witness: `x = -5` with collaborators that all fail. -/
theorem pi_deleglise_rivat1_lt_two_witness :
    pi_deleglise_rivat1 failing_collaborators windowTree (-5) = some 0 :=
  pi_deleglise_rivat1_lt_two failing_collaborators windowTree (-5) (by decide)

/-! ## The phase loops and their bounds -/

/-- Phase A does not depend on its fuel once the fuel covers the indices up to the bound. -/
theorem phaseA_fuel (T : BinaryIndexedTree) (prune : Bool) (x y low high pi_sqrty : Nat)
    (primes lpf : List Nat) (mu : List Int) :
    ∀ (f f' b : Nat) (st : HardState T), pi_sqrty + 1 ≤ b + f → pi_sqrty + 1 ≤ b + f' →
      phaseA T prune x y low high pi_sqrty primes lpf mu f b st =
        phaseA T prune x y low high pi_sqrty primes lpf mu f' b st := by
  intro f
  induction f with
  | zero =>
    intro f' b st h1 h2
    cases f' with
    | zero => rfl
    | succ f' =>
      simp only [phaseA]
      rw [if_neg (by omega), if_neg (by omega)]
  | succ f ih =>
    intro f' b st h1 h2
    cases f' with
    | zero =>
      simp only [phaseA]
      rw [if_neg (by omega), if_neg (by omega)]
    | succ f' =>
      have ih' : ∀ st : HardState T,
          phaseA T prune x y low high pi_sqrty primes lpf mu f (b + 1) st =
            phaseA T prune x y low high pi_sqrty primes lpf mu f' (b + 1) st :=
        fun st => ih f' (b + 1) st (by omega) (by omega)
      simp only [phaseA, ih']

/-- Phase B does not depend on its fuel once the fuel covers the indices up to the bound. -/
theorem phaseB_fuel (T : BinaryIndexedTree) (prune : Bool) (x y z low high pi_sqrtz : Nat)
    (primes pi : List Nat) :
    ∀ (f f' b : Nat) (st : HardState T), pi_sqrtz + 1 ≤ b + f → pi_sqrtz + 1 ≤ b + f' →
      phaseB T prune x y z low high pi_sqrtz primes pi f b st =
        phaseB T prune x y z low high pi_sqrtz primes pi f' b st := by
  intro f
  induction f with
  | zero =>
    intro f' b st h1 h2
    cases f' with
    | zero => rfl
    | succ f' =>
      simp only [phaseB]
      rw [if_neg (by omega), if_neg (by omega)]
  | succ f ih =>
    intro f' b st h1 h2
    cases f' with
    | zero =>
      simp only [phaseB]
      rw [if_neg (by omega), if_neg (by omega)]
    | succ f' =>
      have ih' : ∀ st : HardState T,
          phaseB T prune x y z low high pi_sqrtz primes pi f (b + 1) st =
            phaseB T prune x y z low high pi_sqrtz primes pi f' (b + 1) st :=
        fun st => ih f' (b + 1) st (by omega) (by omega)
      simp only [phaseB, ih']

/-- Above its bound a phase loop is left at once. -/
theorem phaseA_above (T : BinaryIndexedTree) (prune : Bool) (x y low high pi_sqrty : Nat)
    (primes lpf : List Nat) (mu : List Int) (f b : Nat) (st : HardState T)
    (h : pi_sqrty < b) :
    phaseA T prune x y low high pi_sqrty primes lpf mu f b st =
      some (Flow.fallthrough b st) := by
  cases f <;> simp only [phaseA] <;> rw [if_neg (by omega)]

theorem phaseB_above (T : BinaryIndexedTree) (prune : Bool) (x y z low high pi_sqrtz : Nat)
    (primes pi : List Nat) (f b : Nat) (st : HardState T) (h : pi_sqrtz < b) :
    phaseB T prune x y z low high pi_sqrtz primes pi f b st =
      some (Flow.fallthrough b st) := by
  cases f <;> simp only [phaseB] <;> rw [if_neg (by omega)]

/-- Phase A with the bound `P` is phase A with a smaller bound `P'` followed, when that loop
falls through, by phase A with the bound `P` from the index reached. -/
theorem phaseA_bound (T : BinaryIndexedTree) (prune : Bool) (x y low high P P' : Nat)
    (primes lpf : List Nat) (mu : List Int) (hP : P' ≤ P) :
    ∀ (f b : Nat) (st : HardState T), P + 1 ≤ b + f →
      phaseA T prune x y low high P primes lpf mu f b st =
        (phaseA T prune x y low high P' primes lpf mu f b st).bind (fun flow =>
          match flow with
          | Flow.next_segment s => some (Flow.next_segment s)
          | Flow.fallthrough b1 s =>
            phaseA T prune x y low high P primes lpf mu (P + 1) b1 s) := by
  intro f
  induction f with
  | zero =>
    intro b st h
    rw [phaseA_above T prune x y low high P' primes lpf mu 0 b st (by omega)]
    simp only [Option.some_bind]
    exact phaseA_fuel T prune x y low high P primes lpf mu 0 (P + 1) b st (by omega) (by omega)
  | succ f ih =>
    intro b st h
    by_cases hb : b ≤ P'
    · have ih' := fun st => ih (b + 1) st (by omega)
      have hK : ∀ s : HardState T, (fun flow : Flow (HardState T) =>
          match flow with
          | Flow.next_segment s => some (Flow.next_segment s)
          | Flow.fallthrough b1 s =>
            phaseA T prune x y low high P primes lpf mu (P + 1) b1 s) (Flow.next_segment s) =
              some (Flow.next_segment s) := fun _ => rfl
      generalize (fun flow : Flow (HardState T) =>
          match flow with
          | Flow.next_segment s => some (Flow.next_segment s)
          | Flow.fallthrough b1 s =>
            phaseA T prune x y low high P primes lpf mu (P + 1) b1 s) = K at ih' hK ⊢
      simp only [phaseA]
      rw [if_pos hb, if_pos (le_trans hb hP)]
      simp only [Option.bind_eq_bind, Option.bind_assoc]
      congr 1; funext prime
      congr 1; funext a1
      congr 1; funext a2
      congr 1; funext a3
      split
      · rw [Option.some_bind, hK]
      · simp only [Option.bind_assoc]
        congr 1; funext st1
        congr 1; funext st2
        exact ih' st2
    · rw [phaseA_above T prune x y low high P' primes lpf mu (f + 1) b st (by omega)]
      simp only [Option.some_bind]
      exact phaseA_fuel T prune x y low high P primes lpf mu (f + 1) (P + 1) b st (by omega)
        (by omega)

/-- Phase B with the bound `P` is phase B with a smaller bound `P'` followed, when that loop
falls through, by phase B with the bound `P` from the index reached. -/
theorem phaseB_bound (T : BinaryIndexedTree) (prune : Bool) (x y z low high P P' : Nat)
    (primes pi : List Nat) (hP : P' ≤ P) :
    ∀ (f b : Nat) (st : HardState T), P + 1 ≤ b + f →
      phaseB T prune x y z low high P primes pi f b st =
        (phaseB T prune x y z low high P' primes pi f b st).bind (fun flow =>
          match flow with
          | Flow.next_segment s => some (Flow.next_segment s)
          | Flow.fallthrough b1 s =>
            phaseB T prune x y z low high P primes pi (P + 1) b1 s) := by
  intro f
  induction f with
  | zero =>
    intro b st h
    rw [phaseB_above T prune x y z low high P' primes pi 0 b st (by omega)]
    simp only [Option.some_bind]
    exact phaseB_fuel T prune x y z low high P primes pi 0 (P + 1) b st (by omega) (by omega)
  | succ f ih =>
    intro b st h
    by_cases hb : b ≤ P'
    · have ih' := fun st => ih (b + 1) st (by omega)
      have hK : ∀ s : HardState T, (fun flow : Flow (HardState T) =>
          match flow with
          | Flow.next_segment s => some (Flow.next_segment s)
          | Flow.fallthrough b1 s =>
            phaseB T prune x y z low high P primes pi (P + 1) b1 s) (Flow.next_segment s) =
              some (Flow.next_segment s) := fun _ => rfl
      generalize (fun flow : Flow (HardState T) =>
          match flow with
          | Flow.next_segment s => some (Flow.next_segment s)
          | Flow.fallthrough b1 s =>
            phaseB T prune x y z low high P primes pi (P + 1) b1 s) = K at ih' hK ⊢
      simp only [phaseB]
      rw [if_pos hb, if_pos (le_trans hb hP)]
      simp only [Option.bind_eq_bind, Option.bind_assoc]
      congr 1; funext prime
      congr 1; funext a1
      congr 1; funext a2
      congr 1; funext l
      congr 1; funext a3
      congr 1; funext prime_l
      split
      · rw [Option.some_bind, hK]
      · simp only [Option.bind_assoc]
        congr 1; funext st1
        congr 1; funext st2
        exact ih' st2
    · rw [phaseB_above T prune x y z low high P' primes pi (f + 1) b st (by omega)]
      simp only [Option.some_bind]
      exact phaseB_fuel T prune x y z low high P primes pi (f + 1) (P + 1) b st (by omega)
        (by omega)

/-- The phase loops from an index at which the exit test holds: they are left at once by
`goto next_segment`, in the state they were entered with. -/
theorem phases_from_exit (T : BinaryIndexedTree) (x y z low high pi_sqrty pi_sqrtz : Nat)
    (primes pi lpf : List Nat) (mu : List Int) (htab : PrimeTables y primes pi)
    (b : Nat) (st : HardState T) (hb1 : 1 ≤ b) (hb : b ≤ max pi_sqrty pi_sqrtz)
    (hblen : b < primes.length) (hlow : 1 ≤ low) (hhigh : 1 ≤ high)
    (hd : Dead x y z pi_sqrty primes pi low b) :
    phases_from T true x y z low high pi_sqrty pi_sqrtz primes pi lpf mu b st = some st := by
  have hp := htab.two_le b hb1 hblen
  have hp0 : 0 < primes.getD b 0 := by omega
  unfold Dead at hd
  unfold phases_from
  by_cases hA : b ≤ pi_sqrty
  · rw [if_pos hA] at hd
    obtain ⟨f, hf⟩ : ∃ f, pi_sqrty = f + 1 := ⟨pi_sqrty - 1, by omega⟩
    have : phaseA T true x y low high pi_sqrty primes lpf mu pi_sqrty b st =
        some (Flow.next_segment st) := by
      rw [show phaseA T true x y low high pi_sqrty primes lpf mu pi_sqrty b st =
        phaseA T true x y low high pi_sqrty primes lpf mu (f + 1) b st by rw [← hf]]
      simp only [phaseA]
      rw [if_pos hA, getElem?_eq_some_getD primes b 0 hblen]
      simp only [Option.bind_eq_bind, Option.some_bind]
      rw [cdiv_pos _ _ (Nat.mul_pos hp0 (by omega)), cdiv_pos _ _ hp0,
        cdiv_pos _ _ (Nat.mul_pos hp0 (by omega))]
      simp only [Option.some_bind]
      rw [if_pos (by rw [Bool.and_eq_true, decide_eq_true_eq]; exact ⟨rfl, hd⟩)]
    rw [this]
    rfl
  · rw [if_neg hA] at hd
    have hz : b ≤ pi_sqrtz := by
      rcases le_max_iff.1 hb with h | h
      · exact absurd h hA
      · exact h
    obtain ⟨f, hf⟩ : ∃ f, pi_sqrtz = f + 1 := ⟨pi_sqrtz - 1, by omega⟩
    rw [phaseA_above T true x y low high pi_sqrty primes lpf mu pi_sqrty b st (by omega)]
    have hn : min (min (x / (primes.getD b 0 * low)) (z / primes.getD b 0)) y < pi.length := by
      rw [htab.pi_length]
      have := min_le_right (min (x / (primes.getD b 0 * low)) (z / primes.getD b 0)) y
      omega
    have : phaseB T true x y z low high pi_sqrtz primes pi pi_sqrtz b st =
        some (Flow.next_segment st) := by
      rw [show phaseB T true x y z low high pi_sqrtz primes pi pi_sqrtz b st =
        phaseB T true x y z low high pi_sqrtz primes pi (f + 1) b st by rw [← hf]]
      simp only [phaseB]
      rw [if_pos hz, getElem?_eq_some_getD primes b 0 hblen]
      simp only [Option.bind_eq_bind, Option.some_bind]
      rw [cdiv_pos _ _ (Nat.mul_pos hp0 (by omega)), cdiv_pos _ _ hp0]
      simp only [Option.some_bind]
      rw [getElem?_eq_some_getD pi _ 0 hn]
      simp only [Option.some_bind]
      rw [cdiv_pos _ _ (Nat.mul_pos hp0 (by omega))]
      simp only [Option.some_bind]
      rw [getElem?_eq_some_getD primes _ 0 (htab.pi_lt _ (min_le_right _ _))]
      simp only [Option.some_bind]
      rw [if_pos (by rw [Bool.and_eq_true, decide_eq_true_eq]; exact ⟨rfl, hd⟩)]
    simp only [Option.bind_eq_bind, Option.some_bind]
    rw [this]
    rfl

/-- The phase loops from an index of phase A at which the exit test fails: the leaf loop of
phase A is run with the bounds of lines 121-122, then the fold and `cross_off`, and the loops go
on from the next index. -/
theorem phases_from_stepA (T : BinaryIndexedTree) (x y z low high pi_sqrty pi_sqrtz : Nat)
    (primes pi lpf : List Nat) (mu : List Int) (htab : PrimeTables y primes pi)
    (b : Nat) (st : HardState T) (hb1 : 1 ≤ b) (hb : b ≤ pi_sqrty)
    (hblen : b < primes.length) (hlow : 1 ≤ low) (hhigh : 1 ≤ high)
    (hd : ¬ Dead x y z pi_sqrty primes pi low b) :
    phases_from T true x y z low high pi_sqrty pi_sqrtz primes pi lpf mu b st =
      (leavesA T x low b (primes.getD b 0)
        (max (x / (primes.getD b 0 * high)) (y / primes.getD b 0)) lpf mu
        (min (x / (primes.getD b 0 * low)) y) st).bind (fun st1 =>
          (fold_and_cross_off T low high b (primes.getD b 0) st1).bind (fun st2 =>
            phases_from T true x y z low high pi_sqrty pi_sqrtz primes pi lpf mu (b + 1)
              st2)) := by
  have hp := htab.two_le b hb1 hblen
  have hp0 : 0 < primes.getD b 0 := by omega
  unfold Dead at hd
  rw [if_pos hb] at hd
  obtain ⟨f, hf⟩ : ∃ f, pi_sqrty = f + 1 := ⟨pi_sqrty - 1, by omega⟩
  have hnext : ∀ st2 : HardState T,
      phaseA T true x y low high pi_sqrty primes lpf mu f (b + 1) st2 =
        phaseA T true x y low high pi_sqrty primes lpf mu pi_sqrty (b + 1) st2 :=
    fun st2 => phaseA_fuel T true x y low high pi_sqrty primes lpf mu f pi_sqrty (b + 1) st2
      (by omega) (by omega)
  unfold phases_from
  rw [show phaseA T true x y low high pi_sqrty primes lpf mu pi_sqrty b st =
    phaseA T true x y low high pi_sqrty primes lpf mu (f + 1) b st by rw [← hf]]
  simp only [phaseA]
  rw [if_pos hb, getElem?_eq_some_getD primes b 0 hblen]
  simp only [Option.bind_eq_bind, Option.some_bind]
  rw [cdiv_pos _ _ (Nat.mul_pos hp0 (by omega)), cdiv_pos _ _ hp0,
    cdiv_pos _ _ (Nat.mul_pos hp0 (by omega))]
  simp only [Option.some_bind]
  rw [if_neg (by rw [Bool.and_eq_true, decide_eq_true_eq]; exact fun h => hd h.2)]
  simp only [Option.bind_assoc, hnext]

/-- The phase loops from an index of phase B at which the exit test fails: the leaf loop of
phase B is run from the index `l` of line 148 with the bound of line 149, then the fold and
`cross_off`, and the loops go on from the next index. -/
theorem phases_from_stepB (T : BinaryIndexedTree) (x y z low high pi_sqrty pi_sqrtz : Nat)
    (primes pi lpf : List Nat) (mu : List Int) (htab : PrimeTables y primes pi)
    (b : Nat) (st : HardState T) (hb1 : 1 ≤ b) (hby : pi_sqrty < b) (hb : b ≤ pi_sqrtz)
    (hblen : b < primes.length) (hlow : 1 ≤ low) (hhigh : 1 ≤ high)
    (hd : ¬ Dead x y z pi_sqrty primes pi low b) :
    phases_from T true x y z low high pi_sqrty pi_sqrtz primes pi lpf mu b st =
      (leavesB T x low b (primes.getD b 0)
        (max (x / (primes.getD b 0 * high)) (primes.getD b 0)) primes
        (pi.getD (min (min (x / (primes.getD b 0 * low)) (z / primes.getD b 0)) y) 0)
        st).bind (fun st1 =>
          (fold_and_cross_off T low high b (primes.getD b 0) st1).bind (fun st2 =>
            phases_from T true x y z low high pi_sqrty pi_sqrtz primes pi lpf mu (b + 1)
              st2)) := by
  have hp := htab.two_le b hb1 hblen
  have hp0 : 0 < primes.getD b 0 := by omega
  unfold Dead at hd
  rw [if_neg (by omega)] at hd
  obtain ⟨f, hf⟩ : ∃ f, pi_sqrtz = f + 1 := ⟨pi_sqrtz - 1, by omega⟩
  have hnext : ∀ st2 : HardState T,
      phaseB T true x y z low high pi_sqrtz primes pi f (b + 1) st2 =
        phaseB T true x y z low high pi_sqrtz primes pi pi_sqrtz (b + 1) st2 :=
    fun st2 => phaseB_fuel T true x y z low high pi_sqrtz primes pi f pi_sqrtz (b + 1) st2
      (by omega) (by omega)
  have hn : min (min (x / (primes.getD b 0 * low)) (z / primes.getD b 0)) y < pi.length := by
    rw [htab.pi_length]
    have := min_le_right (min (x / (primes.getD b 0 * low)) (z / primes.getD b 0)) y
    omega
  have habove : ∀ st2 : HardState T,
      phaseA T true x y low high pi_sqrty primes lpf mu pi_sqrty (b + 1) st2 =
        some (Flow.fallthrough (b + 1) st2) :=
    fun st2 => phaseA_above T true x y low high pi_sqrty primes lpf mu pi_sqrty (b + 1) st2
      (by omega)
  unfold phases_from
  rw [phaseA_above T true x y low high pi_sqrty primes lpf mu pi_sqrty b st hby]
  simp only [Option.bind_eq_bind, Option.some_bind, habove]
  rw [show phaseB T true x y z low high pi_sqrtz primes pi pi_sqrtz b st =
    phaseB T true x y z low high pi_sqrtz primes pi (f + 1) b st by rw [← hf]]
  simp only [phaseB]
  rw [if_pos hb, getElem?_eq_some_getD primes b 0 hblen]
  simp only [Option.bind_eq_bind, Option.some_bind]
  rw [cdiv_pos _ _ (Nat.mul_pos hp0 (by omega)), cdiv_pos _ _ hp0]
  simp only [Option.some_bind]
  rw [getElem?_eq_some_getD pi _ 0 hn]
  simp only [Option.some_bind]
  rw [cdiv_pos _ _ (Nat.mul_pos hp0 (by omega))]
  simp only [Option.some_bind]
  rw [getElem?_eq_some_getD primes _ 0 (htab.pi_lt _ (min_le_right _ _))]
  simp only [Option.some_bind]
  rw [if_neg (by rw [Bool.and_eq_true, decide_eq_true_eq]; exact fun h => hd h.2)]
  simp only [Option.bind_assoc, hnext]

/-! ## The invariants along a run of `S2_hard` -/

/-- The exit test of an index does not depend on the bound of phase A as long as the index
stays on the same side of it. -/
theorem dead_congr (x y z p p' : Nat) (primes pi : List Nat) (low b : Nat)
    (h : b ≤ p ↔ b ≤ p') :
    Dead x y z p primes pi low b ↔ Dead x y z p' primes pi low b := by
  unfold Dead
  by_cases hb : b ≤ p
  · rw [if_pos hb, if_pos (h.1 hb)]
  · rw [if_neg hb, if_neg (fun h' => hb (h.2 h'))]

/-- The body of the segment loop with the bounds of both phase loops cut to `b - 1`, for an
index `b` that the phase loops reach in this segment: the run stops at the head of the
iteration of `b`, where the loop invariant holds, and the body with the bounds of the code is
the phase loops run on from `b` in the state reached. -/
theorem segment_upto_spec (T : BinaryIndexedTree) (abs : T.τ → List Bool)
    (hT : TreeContract T abs)
    (segment_size : Nat) (prune : Bool) (x y z c pi_sqrty pi_sqrtz : Nat)
    (primes pi lpf : List Nat) (mu : List Int) (htab : PrimeTables y primes pi)
    (hpsy : pi_sqrty = pi.getD (isqrt y) 0) (hpsz : pi_sqrtz < primes.length)
    (hc : c < primes.length) (hS : 1 ≤ segment_size) (hmu : y < mu.length)
    (hlpf : y < lpf.length) (low live b : Nat) (st : HardState T) (hlow : 1 ≤ low)
    (hlim : low < z + 1) (hinv : SegInv T c primes segment_size low live st)
    (hlive : c + 1 ≤ live)
    (hdead : live ≤ max pi_sqrty pi_sqrtz →
      prune = true ∧ Dead x y z pi_sqrty primes pi low live)
    (hcb : c < b) (hb : b ≤ max pi_sqrty pi_sqrtz + 1)
    (hnoexit : prune = true →
      ∀ j : Nat, c < j → j < b → ¬ Dead x y z pi_sqrty primes pi low j) :
    ∃ st' : HardState T,
      segment T segment_size prune x y z c (min pi_sqrty (b - 1)) (min pi_sqrtz (b - 1))
        primes pi lpf mu low st = some st' ∧
      b ≤ live ∧
      PhaseInv T abs c primes segment_size low (min (low + segment_size) (z + 1)) live b st' ∧
      CallsFrom (SegCall segment_size low (min (low + segment_size) (z + 1)))
        st.calls st'.calls ∧
      segment T segment_size prune x y z c pi_sqrty pi_sqrtz primes pi lpf mu low st =
        phases_from T prune x y z low (min (low + segment_size) (z + 1)) pi_sqrty pi_sqrtz
          primes pi lpf mu b st' := by
  have hlh : low < min (low + segment_size) (z + 1) := lt_min (by omega) hlim
  have hwin : min (low + segment_size) (z + 1) - low ≤ segment_size := by
    have := min_le_left (low + segment_size) (z + 1)
    omega
  have hbl : b ≤ live := by
    by_contra hcon
    have hle : live ≤ max pi_sqrty pi_sqrtz := by omega
    obtain ⟨hpr, hd⟩ := hdead hle
    exact hnoexit hpr live (by omega) (by omega) hd
  have hAle : min pi_sqrty (b - 1) ≤ b - 1 := min_le_right _ _
  have hBle : min pi_sqrtz (b - 1) ≤ b - 1 := min_le_right _ _
  generalize hhigh : min (low + segment_size) (z + 1) = high at hlh hwin ⊢
  -- pre-sieve
  obtain ⟨st1, hrun1, hl1, hn1, hstage1, hcur1, hother1, hphi1, htree1, hres1, hcalls1⟩ :=
    presieve_spec T c primes low high hc
      (fun j h1 h2 => by have := htab.two_le j h1 (by omega); omega) (le_of_lt hlh) c 1
      { st with sieve := List.replicate st.sieve.length true } (by omega) le_rfl (by omega)
      hinv.next_len (by simp only [List.length_replicate]; rw [hinv.sieve_len]; exact hwin)
      (by
        intro u hu1 hu2
        simp only
        rw [List.getElem?_replicate_of_lt (by rw [hinv.sieve_len]; omega),
          decide_eq_true (survives_one c primes u)])
      (fun j h1 h2 => hinv.cursor j h1 (Or.inl h2))
  simp only [List.length_replicate] at hl1
  simp only at hn1 hother1 hphi1 hres1 hcalls1
  have hcalls2 : CallsFrom (SegCall segment_size low high) st.calls
      (st1.calls ++ [TreeCall.init st1.sieve.length]) := by
    rw [hcalls1]
    exact CallsFrom.snoc _ _
      (show st1.sieve.length = segment_size from by rw [hl1, hinv.sieve_len])
  -- the tree is built
  have hinv2 : PhaseInv T abs c primes segment_size low high live (c + 1)
      { st1 with
        tree := T.init st1.tree st1.sieve
        calls := st1.calls ++ [TreeCall.init st1.sieve.length] } := by
    refine ⟨by simp only; rw [hl1, hinv.sieve_len], hwin, by simp only; rw [hn1, hinv.next_len],
      by simp only; rw [hphi1, hinv.phi_len], hT.abs_init _ _, hstage1, ?_, ?_, ?_, ?_⟩
    · intro j h1 h2
      exact hcur1 j h1 (by omega)
    · intro j h1 h2
      omega
    · intro j h1 h2
      simp only
      rw [hother1 j (Or.inr (by omega))]
      exact hinv.cursor j (by omega) (Or.inr h2)
    · intro j h1 h2
      simp only
      rw [hphi1]
      exact hinv.phi_eq j (by omega) h2
  have hcode : ∀ r : Option (HardState T),
      (do
        match ← phaseA T prune x y low high (min pi_sqrty (b - 1)) primes lpf mu
            (min pi_sqrty (b - 1)) (c + 1)
            { st1 with
              tree := T.init st1.tree st1.sieve
              calls := st1.calls ++ [TreeCall.init st1.sieve.length] } with
        | Flow.next_segment st3 => some st3
        | Flow.fallthrough b1 st3 =>
          match ← phaseB T prune x y z low high (min pi_sqrtz (b - 1)) primes pi
              (min pi_sqrtz (b - 1)) b1 st3 with
          | Flow.next_segment st4 => some st4
          | Flow.fallthrough _ st4 => some st4) = r →
      segment T segment_size prune x y z c (min pi_sqrty (b - 1)) (min pi_sqrtz (b - 1))
        primes pi lpf mu low st = r := by
    intro r hr
    unfold segment
    simp only [hhigh, hrun1, Option.bind_eq_bind, Option.some_bind]
    exact hr
  obtain ⟨flowA, hrunA, hpostA⟩ :=
    phaseA_spec T abs hT prune x y z c segment_size low high live (min pi_sqrty (b - 1))
      primes pi lpf mu htab (by rw [← hpsy]; exact min_le_left _ _) hlow hlh hmu hlpf
      (min pi_sqrty (b - 1)) (c + 1) _ (by omega) le_rfl hlive hinv2
      (fun h => by omega)
  cases flowA with
  | next_segment st3 =>
    obtain ⟨b', h1, h2, h3, h4, h5, h6, h7, h8⟩ := hpostA
    exfalso
    have hb'1 : b' ≤ pi_sqrty := le_trans h2 (min_le_left _ _)
    exact hnoexit h4 b' (by omega) (by omega)
      ((dead_congr x y z _ _ primes pi low b' ⟨fun _ => hb'1, fun _ => h2⟩).1 h5)
  | fallthrough b1 st3 =>
    obtain ⟨h1, h2, h3, h4, h8⟩ := hpostA
    have hb1 : b1 = max (c + 1) (min pi_sqrty (b - 1) + 1) := h1
    have hb1c : c + 1 ≤ b1 := by rw [hb1]; exact le_max_left _ _
    have hb1y : min pi_sqrty (b - 1) + 1 ≤ b1 := by rw [hb1]; exact le_max_right _ _
    have hb1b : b1 ≤ b := by rw [hb1]; exact max_le (by omega) (by omega)
    obtain ⟨flowB, hrunB, hpostB⟩ :=
      phaseB_spec T abs hT prune x y z c segment_size low high live (min pi_sqrty (b - 1))
        (min pi_sqrtz (b - 1)) primes pi htab
        (lt_of_le_of_lt (min_le_left _ _) hpsz) hlow hlh (min pi_sqrtz (b - 1)) b1 st3
        (by omega) hb1c (by omega) h2 h3 (fun h => by omega)
    cases flowB with
    | next_segment st4 =>
      obtain ⟨b', g1, g2, g3, g4, g5, g6, g7, g8⟩ := hpostB
      exfalso
      have hne : ¬ b' ≤ min pi_sqrty (b - 1) := by omega
      have hne' : ¬ b' ≤ pi_sqrty := by
        intro hle
        apply hne
        exact le_min hle (by omega)
      exact hnoexit g4 b' (by omega) (by omega)
        ((dead_congr x y z _ _ primes pi low b'
          ⟨fun h => absurd h hne, fun h => absurd h hne'⟩).1 g5)
    | fallthrough b2 st4 =>
      obtain ⟨g1, g2, g3, g4, g8⟩ := hpostB
      have hb2 : b2 = b := by
        rw [g1]
        apply le_antisymm
        · exact max_le hb1b (by omega)
        · rcases le_max_iff.1 (by omega : b - 1 ≤ max pi_sqrty pi_sqrtz) with h | h
          · have : min pi_sqrty (b - 1) = b - 1 := min_eq_right h
            have := le_max_left b1 (min pi_sqrtz (b - 1) + 1)
            omega
          · have : min pi_sqrtz (b - 1) = b - 1 := min_eq_right h
            have := le_max_right b1 (min pi_sqrtz (b - 1) + 1)
            omega
      subst hb2
      refine ⟨st4, ?_, hbl, g3, CallsFrom.trans hcalls2 (CallsFrom.trans h8 g8), ?_⟩
      · apply hcode
        rw [hrunA]
        simp only [Option.bind_eq_bind, Option.some_bind]
        rw [hrunB]
        simp only [Option.some_bind]
      · -- the whole body is the phase loops run on from the state reached
        have hfull : segment T segment_size prune x y z c pi_sqrty pi_sqrtz primes pi lpf mu
            low st =
            phases_from T prune x y z low high pi_sqrty pi_sqrtz primes pi lpf mu (c + 1)
              { st1 with
                tree := T.init st1.tree st1.sieve
                calls := st1.calls ++ [TreeCall.init st1.sieve.length] } := by
          unfold segment phases_from
          simp only [hhigh, hrun1, Option.bind_eq_bind, Option.some_bind]
        have hA : phaseA T prune x y low high pi_sqrty primes lpf mu pi_sqrty (c + 1)
            { st1 with
              tree := T.init st1.tree st1.sieve
              calls := st1.calls ++ [TreeCall.init st1.sieve.length] } =
            phaseA T prune x y low high pi_sqrty primes lpf mu pi_sqrty b1 st3 := by
          rw [phaseA_bound T prune x y low high pi_sqrty (min pi_sqrty (b2 - 1)) primes lpf mu
            (min_le_left _ _) pi_sqrty (c + 1) _ (by omega),
            phaseA_fuel T prune x y low high (min pi_sqrty (b2 - 1)) primes lpf mu pi_sqrty
              (min pi_sqrty (b2 - 1)) (c + 1) _ (by have := min_le_left pi_sqrty (b2 - 1); omega)
              (by omega),
            hrunA]
          simp only [Option.some_bind]
          exact phaseA_fuel T prune x y low high pi_sqrty primes lpf mu (pi_sqrty + 1) pi_sqrty
            b1 st3 (by omega) (by omega)
        rw [hfull]
        unfold phases_from
        rw [hA]
        by_cases hbA : b2 ≤ pi_sqrty
        · have hmin : min pi_sqrty (b2 - 1) = b2 - 1 := min_eq_right (by omega)
          have hb1b : b1 = b2 := by
            rw [hb1, hmin]
            exact max_eq_right (by omega) |>.trans (by omega)
          have := phaseB_above T prune x y z low high (min pi_sqrtz (b2 - 1)) primes pi
            (min pi_sqrtz (b2 - 1)) b1 st3 (by omega)
          rw [this] at hrunB
          cases hrunB
          rfl
        · have hmin : min pi_sqrty (b2 - 1) = pi_sqrty := min_eq_left (by omega)
          rw [phaseA_above T prune x y low high pi_sqrty primes lpf mu pi_sqrty b1 st3
              (by omega),
            phaseA_above T prune x y low high pi_sqrty primes lpf mu pi_sqrty b2 st4
              (by omega)]
          simp only [Option.bind_eq_bind, Option.some_bind]
          have hB : phaseB T prune x y z low high pi_sqrtz primes pi pi_sqrtz b1 st3 =
              phaseB T prune x y z low high pi_sqrtz primes pi pi_sqrtz b2 st4 := by
            rw [phaseB_bound T prune x y z low high pi_sqrtz (min pi_sqrtz (b2 - 1)) primes pi
              (min_le_left _ _) pi_sqrtz b1 st3 (by omega),
              phaseB_fuel T prune x y z low high (min pi_sqrtz (b2 - 1)) primes pi pi_sqrtz
                (min pi_sqrtz (b2 - 1)) b1 st3
                (by have := min_le_left pi_sqrtz (b2 - 1); omega) (by omega),
              hrunB]
            simp only [Option.some_bind]
            exact phaseB_fuel T prune x y z low high pi_sqrtz primes pi (pi_sqrtz + 1)
              pi_sqrtz b2 st4 (by omega) (by omega)
          rw [hB]

/-- The invariant of the segment loop holds at the head of every iteration `k` whose segment
exists. -/
theorem segment_head_spec (T : BinaryIndexedTree) (abs : T.τ → List Bool)
    (hT : TreeContract T abs) (segment_size : Nat) (prune : Bool) (x y z c : Nat)
    (pi lpf : List Nat) (mu : List Int) (htab : PrimeTables y (generate_primes y) pi)
    (hc : c < (generate_primes y).length) (hS : 1 ≤ segment_size) (hmu : y < mu.length)
    (hlpf : y < lpf.length) :
    ∀ k : Nat, 1 + k * segment_size < z + 1 →
      ∃ (st : HardState T) (live : Nat),
        segment_head T segment_size prune x y z c (pi.getD (isqrt y) 0)
          (pi.getD (min (isqrt z) y) 0) (generate_primes y) pi lpf mu
          (S2_hard_init T segment_size y) k = some st ∧
        SegInv T c (generate_primes y) segment_size (1 + k * segment_size) live st ∧
        c + 1 ≤ live ∧
        (live ≤ max (pi.getD (isqrt y) 0) (pi.getD (min (isqrt z) y) 0) →
          prune = true ∧
            Dead x y z (pi.getD (isqrt y) 0) (generate_primes y) pi (1 + k * segment_size)
              live) ∧
        ∀ call ∈ st.calls, HardCall segment_size z call := by
  have hpsz := htab.pi_lt (min (isqrt z) y) (min_le_right _ _)
  intro k
  induction k with
  | zero =>
    intro _
    refine ⟨S2_hard_init T segment_size y,
      max (c + 1) (max (pi.getD (isqrt y) 0) (pi.getD (min (isqrt z) y) 0) + 1), rfl,
      ⟨by simp [S2_hard_init], rfl, by simp [S2_hard_init], ?_, ?_⟩, le_max_left _ _, ?_,
      by simp [S2_hard_init]⟩
    · intro j hj1 hj2
      simp only [S2_hard_init]
      have hjlen : j < (generate_primes y).length := by
        rcases hj2 with h | h
        · omega
        · rcases lt_max_iff.1 h with h' | h'
          · omega
          · have hjm : j ≤ max (pi.getD (isqrt y) 0) (pi.getD (min (isqrt z) y) 0) := by omega
            have := htab.pi_lt (isqrt y) (isqrt_le y)
            rcases le_max_iff.1 hjm with h'' | h'' <;> omega
      have h2 := htab.two_le j hj1 hjlen
      have := stride_ge c (generate_primes y) j
      exact ⟨removed_self c _ j, by omega, by omega⟩
    · intro j hj1 hj2
      simp only [S2_hard_init, Nat.zero_mul, Nat.add_zero, Nat.sub_self, phi_sieve_zero,
        Nat.cast_zero]
      rw [List.getD_eq_getElem?_getD, List.getElem?_replicate]
      split <;> rfl
    · intro h
      have := le_max_right (c + 1)
        (max (pi.getD (isqrt y) 0) (pi.getD (min (isqrt z) y) 0) + 1)
      omega
  | succ k ih =>
    intro hk
    have hk' : 1 + k * segment_size < z + 1 := by
      have : (k + 1) * segment_size = k * segment_size + segment_size := by ring
      omega
    obtain ⟨st, live, hrun, hinv, hlive, hdead, hcalls⟩ := ih hk'
    obtain ⟨st', live', hrun', hinv', hlive', hdead', _, hcalls'⟩ :=
      segment_spec T abs hT segment_size prune x y z c (pi.getD (isqrt y) 0)
        (pi.getD (min (isqrt z) y) 0) (generate_primes y) pi lpf mu htab rfl hpsz hc hS hmu
        hlpf (1 + k * segment_size) live st (by omega) hk' hinv hlive hdead
    have hnext : min (1 + k * segment_size + segment_size) (z + 1) =
        1 + (k + 1) * segment_size := by
      have : (k + 1) * segment_size = k * segment_size + segment_size := by ring
      rw [min_eq_left (by omega)]
      omega
    rw [hnext] at hinv' hdead'
    refine ⟨st', live', ?_, hinv', hlive', hdead', ?_⟩
    · simp only [segment_head]
      rw [hrun]
      simp only [Option.bind_eq_bind, Option.some_bind]
      rw [if_pos hk']
      exact hrun'
    · exact CallsFrom.forall (CallsFrom.mono hcalls' (fun call h => ⟨k, h⟩)) hcalls

/-- The loop invariant of the phase loops holds in the state in which iteration `k` of the
segment loop reaches the index `b`, for every index that the phase loops reach there. -/
theorem S2_hard_at_spec (T : BinaryIndexedTree) (abs : T.τ → List Bool)
    (hT : TreeContract T abs) (segment_size : Nat) (x y z c : Nat)
    (pi lpf : List Nat) (mu : List Int) (htab : PrimeTables y (generate_primes y) pi)
    (hc : c < (generate_primes y).length) (hS : 1 ≤ segment_size) (hmu : y < mu.length)
    (hlpf : y < lpf.length) (k b : Nat) (hk : 1 + k * segment_size < z + 1) (hcb : c < b)
    (hb : b ≤ max (pi.getD (isqrt y) 0) (pi.getD (min (isqrt z) y) 0) + 1)
    (hnoexit : ∀ j : Nat, c < j → j < b →
      ¬ Dead x y z (pi.getD (isqrt y) 0) (generate_primes y) pi (1 + k * segment_size) j) :
    ∃ (st : HardState T) (live : Nat),
      S2_hard_at T segment_size true x y z c pi lpf mu k b = some st ∧ b ≤ live ∧
      (live ≤ max (pi.getD (isqrt y) 0) (pi.getD (min (isqrt z) y) 0) →
        Dead x y z (pi.getD (isqrt y) 0) (generate_primes y) pi (1 + k * segment_size)
          live) ∧
      PhaseInv T abs c (generate_primes y) segment_size (1 + k * segment_size)
        (min (1 + k * segment_size + segment_size) (z + 1)) live b st := by
  have hpy : pi[isqrt y]? = some (pi.getD (isqrt y) 0) :=
    getElem?_eq_some_getD pi _ 0 (by rw [htab.pi_length]; have := isqrt_le y; omega)
  have hpz : pi[min (isqrt z) y]? = some (pi.getD (min (isqrt z) y) 0) :=
    getElem?_eq_some_getD pi _ 0
      (by rw [htab.pi_length]; have := min_le_right (isqrt z) y; omega)
  have hpsz := htab.pi_lt (min (isqrt z) y) (min_le_right _ _)
  obtain ⟨st, live, hrun, hinv, hlive, hdead, _⟩ :=
    segment_head_spec T abs hT segment_size true x y z c pi lpf mu htab hc hS hmu hlpf k hk
  obtain ⟨st', hrun', hbl, hinv', _, _⟩ :=
    segment_upto_spec T abs hT segment_size true x y z c (pi.getD (isqrt y) 0)
      (pi.getD (min (isqrt z) y) 0) (generate_primes y) pi lpf mu htab rfl hpsz hc hS hmu
      hlpf (1 + k * segment_size) live b st (by omega) hk hinv hlive hdead hcb hb
      (fun _ => hnoexit)
  refine ⟨st', live, ?_, hbl, fun h => (hdead h).2, hinv'⟩
  unfold S2_hard_at
  rw [hpy, hpz]
  simp only [Option.bind_eq_bind, Option.some_bind]
  rw [hrun]
  simp only [Option.some_bind]
  rw [if_pos hk]
  exact hrun'

/-- The state of `S2_hard_at` lies on the path of the run: for every index `b` that the phase
loops reach in iteration `k` of the segment loop, the state at the head of iteration `k + 1` is
the one that the phase loops, run on from `b`, return on the state in which they reach `b`. -/
theorem S2_hard_head_from_at (T : BinaryIndexedTree) (abs : T.τ → List Bool)
    (hT : TreeContract T abs) (segment_size : Nat) (x y z c : Nat)
    (pi lpf : List Nat) (mu : List Int) (htab : PrimeTables y (generate_primes y) pi)
    (hc : c < (generate_primes y).length) (hS : 1 ≤ segment_size) (hmu : y < mu.length)
    (hlpf : y < lpf.length) (k b : Nat) (hk : 1 + k * segment_size < z + 1) (hcb : c < b)
    (hb : b ≤ max (pi.getD (isqrt y) 0) (pi.getD (min (isqrt z) y) 0) + 1)
    (hnoexit : ∀ j : Nat, c < j → j < b →
      ¬ Dead x y z (pi.getD (isqrt y) 0) (generate_primes y) pi (1 + k * segment_size) j) :
    S2_hard_head T segment_size true x y z c pi lpf mu (k + 1) =
      (S2_hard_at T segment_size true x y z c pi lpf mu k b).bind (fun st =>
        phases_from T true x y z (1 + k * segment_size)
          (min (1 + k * segment_size + segment_size) (z + 1)) (pi.getD (isqrt y) 0)
          (pi.getD (min (isqrt z) y) 0) (generate_primes y) pi lpf mu b st) := by
  have hpy : pi[isqrt y]? = some (pi.getD (isqrt y) 0) :=
    getElem?_eq_some_getD pi _ 0 (by rw [htab.pi_length]; have := isqrt_le y; omega)
  have hpz : pi[min (isqrt z) y]? = some (pi.getD (min (isqrt z) y) 0) :=
    getElem?_eq_some_getD pi _ 0
      (by rw [htab.pi_length]; have := min_le_right (isqrt z) y; omega)
  have hpsz := htab.pi_lt (min (isqrt z) y) (min_le_right _ _)
  obtain ⟨st, live, hrun, hinv, hlive, hdead, _⟩ :=
    segment_head_spec T abs hT segment_size true x y z c pi lpf mu htab hc hS hmu hlpf k hk
  obtain ⟨st', hrun', _, _, _, hlink⟩ :=
    segment_upto_spec T abs hT segment_size true x y z c (pi.getD (isqrt y) 0)
      (pi.getD (min (isqrt z) y) 0) (generate_primes y) pi lpf mu htab rfl hpsz hc hS hmu
      hlpf (1 + k * segment_size) live b st (by omega) hk hinv hlive hdead hcb hb
      (fun _ => hnoexit)
  unfold S2_hard_head S2_hard_at
  rw [hpy, hpz]
  simp only [Option.bind_eq_bind, Option.some_bind, segment_head]
  rw [hrun]
  simp only [Option.some_bind]
  rw [if_pos hk, if_pos hk, hrun', hlink]
  simp only [Option.some_bind]

/-- The states of `segment_head` are the states that the segment loop passes through: the
loop run from the start is the loop run from the head of iteration `k`, for every `k` up to
which the segments exist. -/
theorem segments_from_head (T : BinaryIndexedTree) (segment_size : Nat) (prune : Bool)
    (x y z c pi_sqrty pi_sqrtz : Nat) (primes pi lpf : List Nat) (mu : List Int)
    (st0 : HardState T) :
    ∀ (k fuel : Nat), (∀ j : Nat, j < k → 1 + j * segment_size < z + 1) →
      segments T segment_size prune x y z c pi_sqrty pi_sqrtz primes pi lpf mu (fuel + k) 1 st0 =
        (segment_head T segment_size prune x y z c pi_sqrty pi_sqrtz primes pi lpf mu st0 k).bind
          (fun st => segments T segment_size prune x y z c pi_sqrty pi_sqrtz primes pi lpf mu
            fuel (1 + k * segment_size) st) := by
  intro k
  induction k with
  | zero =>
    intro fuel _
    simp [segment_head]
  | succ k ih =>
    intro fuel hk
    have h := ih (fuel + 1) (fun j hj => hk j (by omega))
    rw [show fuel + (k + 1) = fuel + 1 + k by omega, h]
    simp only [segment_head, Option.bind_eq_bind, Option.bind_assoc]
    congr 1
    funext st
    simp only [segments]
    rw [if_pos (hk k (by omega)), if_pos (hk k (by omega))]
    simp only [Option.bind_eq_bind]
    rw [show 1 + k * segment_size + segment_size = 1 + (k + 1) * segment_size by ring]

/-- The function `S2_hard` run from the start is `S2_hard` run on from the state at the head
of iteration `k` of its segment loop. -/
theorem S2_hard_run_from_head (T : BinaryIndexedTree) (segment_size : Nat) (prune : Bool)
    (x y z c : Nat) (pi lpf : List Nat) (mu : List Int) (k : Nat) (hS : 1 ≤ segment_size)
    (hk : k = 0 ∨ 1 + (k - 1) * segment_size < z + 1) :
    S2_hard_run T segment_size prune x y z c pi lpf mu =
      (S2_hard_head T segment_size prune x y z c pi lpf mu k).bind (fun st => do
        let pi_sqrty ← pi[isqrt y]?
        let pi_sqrtz ← pi[min (isqrt z) y]?
        segments T segment_size prune x y z c pi_sqrty pi_sqrtz (generate_primes y) pi lpf mu
          (z + 1 - k) (1 + k * segment_size) st) := by
  have hall : ∀ j : Nat, j < k → 1 + j * segment_size < z + 1 := by
    intro j hj
    rcases hk with h | h
    · omega
    · have : j * segment_size ≤ (k - 1) * segment_size :=
        Nat.mul_le_mul_right _ (by omega)
      omega
  have hkz : k ≤ z + 1 := by
    rcases hk with h | h
    · omega
    · have : (k - 1) * 1 ≤ (k - 1) * segment_size := Nat.mul_le_mul_left _ hS
      omega
  unfold S2_hard_run S2_hard_head
  cases h1 : pi[isqrt y]? with
  | none => simp
  | some pi_sqrty =>
    cases h2 : pi[min (isqrt z) y]? with
    | none => simp
    | some pi_sqrtz =>
      simp only [Option.bind_eq_bind, Option.some_bind]
      have := segments_from_head T segment_size prune x y z c pi_sqrty pi_sqrtz
        (generate_primes y) pi lpf mu (S2_hard_init T segment_size y) k (z + 1 - k) hall
      rw [show z + 1 - k + k = z + 1 by omega] at this
      exact this

/-! ## The guard on `update` -/

theorem update_offsets_append (l1 l2 : List TreeCall) :
    update_offsets (l1 ++ l2) = update_offsets l1 ++ update_offsets l2 := by
  induction l1 with
  | nil => rfl
  | cons call rest ih =>
    cases call <;> simp [update_offsets, ih]

theorem Guarded.at_build (base : List Bool) : Guarded base base [] :=
  ⟨by simp, by simp [update_offsets], by simp [update_offsets], by simp [update_offsets],
    fun _ h => h⟩

theorem Guarded.after_count {base sieve : List Bool} {tail : List TreeCall}
    (h : Guarded base sieve tail) (a v : Nat) :
    Guarded base sieve (tail ++ [TreeCall.count a v]) := by
  have e : update_offsets (tail ++ [TreeCall.count a v]) = update_offsets tail := by
    rw [update_offsets_append]
    simp [update_offsets]
  refine ⟨?_, by rw [e]; exact h.nodup, by rw [e]; exact h.was_present,
    by rw [e]; exact h.now_absent, h.below⟩
  intro size hmem
  rcases List.mem_append.1 hmem with h1 | h1
  · exact h.no_init size h1
  · simp at h1

theorem Guarded.after_update {base sieve : List Bool} {tail : List TreeCall}
    (h : Guarded base sieve tail) (off : Nat) (hoff : sieve[off]? = some true) :
    Guarded base (sieve.set off false) (tail ++ [TreeCall.update off]) := by
  have e : update_offsets (tail ++ [TreeCall.update off]) = update_offsets tail ++ [off] := by
    rw [update_offsets_append]
    simp [update_offsets]
  have hlt : off < sieve.length := by
    by_contra hcon
    rw [List.getElem?_eq_none (by omega)] at hoff
    cases hoff
  refine ⟨?_, ?_, ?_, ?_, ?_⟩
  · intro size hmem
    rcases List.mem_append.1 hmem with h1 | h1
    · exact h.no_init size h1
    · simp at h1
  · rw [e, List.nodup_append]
    refine ⟨h.nodup, by simp, ?_⟩
    intro a ha hb
    rw [List.mem_singleton] at hb
    subst hb
    have := h.now_absent a ha
    rw [hoff] at this
    cases this
  · intro o ho
    rw [e, List.mem_append, List.mem_singleton] at ho
    rcases ho with h1 | h1
    · exact h.was_present o h1
    · subst h1
      exact h.below o hoff
  · intro o ho
    rw [e, List.mem_append, List.mem_singleton] at ho
    by_cases heq : o = off
    · subst heq
      rw [List.getElem?_set_self hlt]
    · rw [List.getElem?_set_ne (fun h' => heq h'.symm)]
      rcases ho with h1 | h1
      · exact h.now_absent o h1
      · exact absurd h1 heq
  · intro i hi
    by_cases heq : i = off
    · subst heq
      rw [List.getElem?_set_self hlt] at hi
      cases hi
    · rw [List.getElem?_set_ne (fun h' => heq h'.symm)] at hi
      exact h.below i hi

theorem GuardedSince.after_query {T : BinaryIndexedTree} {base : List Bool} {pre : List TreeCall}
    {st : HardState T} (h : GuardedSince base pre st) (a v : Nat) (st' : HardState T)
    (hs : st'.sieve = st.sieve) (hc : st'.calls = st.calls ++ [TreeCall.count a v]) :
    GuardedSince base pre st' := by
  obtain ⟨tail, h1, h2⟩ := h
  exact ⟨tail ++ [TreeCall.count a v], by rw [hc, h1, List.append_assoc],
    by rw [hs]; exact h2.after_count a v⟩

/-- The loop of `cross_off` keeps the guard: it calls `update` on present offsets only and
marks them absent. -/
theorem cross_off_loop_guarded (T : BinaryIndexedTree) (p low high : Nat)
    (base : List Bool) (pre : List TreeCall) :
    ∀ (fuel m : Nat) (st : HardState T) (m' : Nat) (st' : HardState T),
      GuardedSince base pre st →
      cross_off_loop T p low high fuel m st = some (m', st') →
      GuardedSince base pre st' ∧ st'.next = st.next ∧ st'.phi = st.phi := by
  intro fuel
  induction fuel with
  | zero =>
    intro m st m' st' hg h
    simp only [cross_off_loop] at h
    split at h
    · cases h
    · cases h
      exact ⟨hg, rfl, rfl⟩
  | succ fuel ih =>
    intro m st m' st' hg h
    simp only [cross_off_loop] at h
    split at h
    · split at h
      · cases h
      · split at h
        · cases h
        · rename_i hread
          obtain ⟨tail, h1, h2⟩ := hg
          have := ih _ _ m' st'
            ⟨tail ++ [TreeCall.update (m - low)], by simp only; rw [h1, List.append_assoc],
              h2.after_update (m - low) hread⟩ h
          exact this
        · exact ih _ _ m' st' hg h
    · cases h
      exact ⟨hg, rfl, rfl⟩


/-- The leaf loop of phase A keeps the guard: it only queries the tree. -/
theorem leavesA_guarded (T : BinaryIndexedTree) (x low b prime min_m : Nat) (lpf : List Nat)
    (mu : List Int) (base : List Bool) (pre : List TreeCall) :
    ∀ (m : Nat) (st st' : HardState T), GuardedSince base pre st →
      leavesA T x low b prime min_m lpf mu m st = some st' →
      GuardedSince base pre st' := by
  intro m
  induction m with
  | zero =>
    intro st st' hg h
    simp only [leavesA] at h
    cases h
    exact hg
  | succ m ih =>
    intro st st' hg h
    simp only [leavesA] at h
    split at h
    · simp only [Option.bind_eq_bind, Option.bind_eq_some] at h
      obtain ⟨mu_m, _, h⟩ := h
      split at h
      · simp only [Option.bind_eq_some] at h
        obtain ⟨lpf_m, _, h⟩ := h
        split at h
        · simp only [Option.bind_eq_some] at h
          obtain ⟨xn, _, phi_b, _, h⟩ := h
          exact ih _ st' (by exact hg.after_query low xn _ rfl rfl) h
        · exact ih _ st' hg h
      · exact ih _ st' hg h
    · cases h
      exact hg

/-- The leaf loop of phase B keeps the guard: it only queries the tree. -/
theorem leavesB_guarded (T : BinaryIndexedTree) (x low b prime min_hard : Nat)
    (primes : List Nat) (base : List Bool) (pre : List TreeCall) :
    ∀ (l : Nat) (st st' : HardState T), GuardedSince base pre st →
      leavesB T x low b prime min_hard primes l st = some st' →
      GuardedSince base pre st' := by
  intro l
  induction l with
  | zero =>
    intro st st' hg h
    unfold leavesB at h
    simp only [Option.bind_eq_bind, Option.bind_eq_some] at h
    obtain ⟨prime_l, _, h⟩ := h
    split at h
    · simp only [Option.bind_eq_some] at h
      obtain ⟨xn, _, phi_b, _, h⟩ := h
      cases h
    · cases h
      exact hg
  | succ l ih =>
    intro st st' hg h
    unfold leavesB at h
    simp only [Option.bind_eq_bind, Option.bind_eq_some] at h
    obtain ⟨prime_l, _, h⟩ := h
    split at h
    · simp only [Option.bind_eq_some] at h
      obtain ⟨xn, _, phi_b, _, h⟩ := h
      exact ih _ st' (by exact hg.after_query low xn _ rfl rfl) h
    · cases h
      exact hg

/-- The tail of a phase iteration keeps the guard. -/
theorem fold_and_cross_off_guarded (T : BinaryIndexedTree) (low high b prime : Nat)
    (base : List Bool) (pre : List TreeCall) (st st' : HardState T)
    (hg : GuardedSince base pre st)
    (h : fold_and_cross_off T low high b prime st = some st') :
    GuardedSince base pre st' := by
  unfold fold_and_cross_off at h
  simp only [Option.bind_eq_bind, Option.bind_eq_some] at h
  obtain ⟨phi_b, _, multiple, _, ⟨m, st2⟩, hrun, h⟩ := h
  cases h
  have := (cross_off_loop_guarded T prime low high base pre high multiple _ m st2
    (by exact hg.after_query low (high - 1) _ rfl rfl) hrun).1
  obtain ⟨tail, h1, h2⟩ := this
  exact ⟨tail, h1, h2⟩

/-- Phase A keeps the guard. -/
theorem phaseA_guarded (T : BinaryIndexedTree) (prune : Bool) (x y low high pi_sqrty : Nat)
    (primes lpf : List Nat) (mu : List Int) (base : List Bool) (pre : List TreeCall) :
    ∀ (fuel b : Nat) (st : HardState T) (flow : Flow (HardState T)),
      GuardedSince base pre st →
      phaseA T prune x y low high pi_sqrty primes lpf mu fuel b st = some flow →
      GuardedSince base pre flow.state := by
  intro fuel
  induction fuel with
  | zero =>
    intro b st flow hg h
    simp only [phaseA] at h
    split at h
    · cases h
    · cases h
      exact hg
  | succ fuel ih =>
    intro b st flow hg h
    simp only [phaseA] at h
    split at h
    · simp only [Option.bind_eq_bind, Option.bind_eq_some] at h
      obtain ⟨prime, _, a1, _, a2, _, a3, _, h⟩ := h
      split at h
      · cases h
        exact hg
      · simp only [Option.bind_eq_some] at h
        obtain ⟨st1, h1, st2, h2, h3⟩ := h
        exact ih _ _ flow
          (fold_and_cross_off_guarded T low high b prime base pre st1 st2
            (leavesA_guarded T x low b prime _ lpf mu base pre _ st st1 hg h1) h2) h3
    · cases h
      exact hg

/-- Phase B keeps the guard. -/
theorem phaseB_guarded (T : BinaryIndexedTree) (prune : Bool) (x y z low high pi_sqrtz : Nat)
    (primes pi : List Nat) (base : List Bool) (pre : List TreeCall) :
    ∀ (fuel b : Nat) (st : HardState T) (flow : Flow (HardState T)),
      GuardedSince base pre st →
      phaseB T prune x y z low high pi_sqrtz primes pi fuel b st = some flow →
      GuardedSince base pre flow.state := by
  intro fuel
  induction fuel with
  | zero =>
    intro b st flow hg h
    simp only [phaseB] at h
    split at h
    · cases h
    · cases h
      exact hg
  | succ fuel ih =>
    intro b st flow hg h
    simp only [phaseB] at h
    split at h
    · simp only [Option.bind_eq_bind, Option.bind_eq_some] at h
      obtain ⟨prime, _, a1, _, a2, _, l, _, a3, _, prime_l, _, h⟩ := h
      split at h
      · cases h
        exact hg
      · simp only [Option.bind_eq_some] at h
        obtain ⟨st1, h1, st2, h2, h3⟩ := h
        exact ih _ _ flow
          (fold_and_cross_off_guarded T low high b prime base pre st1 st2
            (leavesB_guarded T x low b prime _ primes base pre _ st st1 hg h1) h2) h3
    · cases h
      exact hg

/-- The body of the segment loop: after the tree is built from the pre-sieved presence array,
every `update` of the segment is guarded. -/
theorem segment_guarded (T : BinaryIndexedTree) (segment_size : Nat) (prune : Bool)
    (x y z c pi_sqrty pi_sqrtz : Nat) (primes pi lpf : List Nat) (mu : List Int)
    (low : Nat) (st st' : HardState T)
    (h : segment T segment_size prune x y z c pi_sqrty pi_sqrtz primes pi lpf mu low st =
      some st') :
    ∃ (st1 : HardState T) (tail : List TreeCall),
      presieve T primes c low (min (low + segment_size) (z + 1)) c 1
        { st with sieve := List.replicate st.sieve.length true } = some st1 ∧
      st'.calls = st1.calls ++ TreeCall.init st1.sieve.length :: tail ∧
      Guarded st1.sieve st'.sieve tail := by
  unfold segment at h
  simp only [Option.bind_eq_bind, Option.bind_eq_some] at h
  obtain ⟨st1, hpre, flowA, hA, h⟩ := h
  refine ⟨st1, ?_⟩
  have hg0 : GuardedSince st1.sieve (st1.calls ++ [TreeCall.init st1.sieve.length])
      ({ st1 with
        tree := T.init st1.tree st1.sieve
        calls := st1.calls ++ [TreeCall.init st1.sieve.length] } : HardState T) :=
    ⟨[], by simp, Guarded.at_build _⟩
  have hgA := phaseA_guarded T prune x y low _ pi_sqrty primes lpf mu _ _ _ _ _ flowA hg0 hA
  have key : GuardedSince st1.sieve (st1.calls ++ [TreeCall.init st1.sieve.length]) st' := by
    cases flowA with
    | next_segment st3 =>
      cases h
      exact hgA
    | fallthrough b1 st3 =>
      simp only [Option.bind_eq_some] at h
      obtain ⟨flowB, hB, h⟩ := h
      have hgB := phaseB_guarded T prune x y z low _ pi_sqrtz primes pi _ _ _ _ _ flowB hgA hB
      cases flowB with
      | next_segment st4 =>
        cases h
        exact hgB
      | fallthrough b2 st4 =>
        cases h
        exact hgB
  obtain ⟨tail, h1, h2⟩ := key
  exact ⟨tail, hpre, by rw [h1]; simp, h2⟩

/-! ## The leaf loops on their own -/

theorem le_of_le_div (x n low : Nat) (hlow : 1 ≤ low) (h : low ≤ x / n) : n ≤ x := by
  by_contra hcon
  rw [Nat.div_eq_of_lt (by omega)] at h
  omega

/-- The leaf loop of phase A from `m` down to `min_m + 1`, on any state in which `phi[b]` can
be read: it returns, and every query it makes is `count(low, x / n)` for a product
`n = prime * m'` of the loop with `low ≤ x / n < high` and `1 ≤ n ≤ x`. -/
theorem leavesA_queries (T : BinaryIndexedTree) (x y low high b prime min_m : Nat)
    (lpf : List Nat) (mu : List Int) (hp : 0 < prime) (hlow : 1 ≤ low) (hhigh : 0 < high)
    (hmu : y < mu.length) (hlpf : y < lpf.length) (hmin : x / (prime * high) ≤ min_m) :
    ∀ (m : Nat) (st : HardState T), m ≤ y → m ≤ x / (prime * low) → b < st.phi.length →
      ∃ st' : HardState T,
        leavesA T x low b prime min_m lpf mu m st = some st' ∧ st'.phi = st.phi ∧
        CallsFrom (fun call => ∃ m' : Nat, min_m < m' ∧ m' ≤ m ∧
            call = TreeCall.count low (x / (prime * m')) ∧
            low ≤ x / (prime * m') ∧ x / (prime * m') < high ∧
            1 ≤ prime * m' ∧ prime * m' ≤ x)
          st.calls st'.calls := by
  intro m
  induction m with
  | zero =>
    intro st _ _ _
    exact ⟨st, by simp [leavesA], rfl, CallsFrom.refl _ _⟩
  | succ m ih =>
    intro st hmy hmx hphi
    by_cases hgt : m + 1 > min_m
    · have hmuget : mu[m + 1]? = some (mu.getD (m + 1) 0) :=
        getElem?_eq_some_getD mu (m + 1) 0 (by omega)
      have hlpfget : lpf[m + 1]? = some (lpf.getD (m + 1) 0) :=
        getElem?_eq_some_getD lpf (m + 1) 0 (by omega)
      by_cases hleaf : mu.getD (m + 1) 0 ≠ 0 ∧ prime < lpf.getD (m + 1) 0
      · have hv1 : low ≤ x / (prime * (m + 1)) :=
          (le_div_swap x _ (m + 1) low hp (by omega) (by omega)).2 hmx
        have hv2 : x / (prime * (m + 1)) < high :=
          (div_lt_swap x _ (m + 1) high hp (by omega) hhigh).2 (by omega)
        obtain ⟨st', hrun, hph, hcalls⟩ :=
          ih { st with
               S2_result := st.S2_result - mu.getD (m + 1) 0 *
                 (st.phi.getD b 0 + T.count st.tree low (x / (prime * (m + 1))))
               calls := st.calls ++ [TreeCall.count low (x / (prime * (m + 1)))] }
            (by omega) (by omega) hphi
        refine ⟨st', ?_, hph, CallsFrom.trans (CallsFrom.snoc _ _ ⟨m + 1, hgt, le_rfl, rfl,
            hv1, hv2, Nat.mul_pos hp (by omega), le_of_le_div x _ low hlow hv1⟩)
          (CallsFrom.mono hcalls ?_)⟩
        · simp only [leavesA]
          rw [if_pos hgt, hmuget]
          simp only [Option.bind_eq_bind, Option.some_bind]
          rw [if_pos hleaf.1, hlpfget]
          simp only [Option.some_bind]
          rw [if_pos hleaf.2, cdiv_pos _ _ (Nat.mul_pos hp (by omega)),
            getElem?_eq_some_getD st.phi b 0 hphi]
          simp only [Option.some_bind]
          exact hrun
        · rintro call ⟨m', h1, h2, h3⟩
          exact ⟨m', h1, by omega, h3⟩
      · obtain ⟨st', hrun, hph, hcalls⟩ := ih st (by omega) (by omega) hphi
        refine ⟨st', ?_, hph, CallsFrom.mono hcalls ?_⟩
        · simp only [leavesA]
          rw [if_pos hgt, hmuget]
          simp only [Option.bind_eq_bind, Option.some_bind]
          by_cases hmu0 : mu.getD (m + 1) 0 ≠ 0
          · rw [if_pos hmu0, hlpfget]
            simp only [Option.some_bind]
            rw [if_neg (fun hh => hleaf ⟨hmu0, hh⟩)]
            exact hrun
          · rw [if_neg hmu0]
            exact hrun
        · rintro call ⟨m', h1, h2, h3⟩
          exact ⟨m', h1, by omega, h3⟩
    · refine ⟨st, ?_, rfl, CallsFrom.refl _ _⟩
      simp only [leavesA]
      rw [if_neg hgt]

/-- The leaf loop of phase A reads `mu` and `lpf` at the indices `min_m < m' ≤ m` only: tables
that agree there give the same run. -/
theorem leavesA_reads (T : BinaryIndexedTree) (x low b prime min_m : Nat)
    (lpf lpf' : List Nat) (mu mu' : List Int) :
    ∀ (m : Nat) (st : HardState T),
      (∀ m' : Nat, min_m < m' → m' ≤ m → mu'[m']? = mu[m']? ∧ lpf'[m']? = lpf[m']?) →
      leavesA T x low b prime min_m lpf' mu' m st =
        leavesA T x low b prime min_m lpf mu m st := by
  intro m
  induction m with
  | zero =>
    intro st _
    simp [leavesA]
  | succ m ih =>
    intro st h
    have ih' : ∀ st : HardState T, leavesA T x low b prime min_m lpf' mu' m st =
        leavesA T x low b prime min_m lpf mu m st :=
      fun st => ih st (fun m' h1 h2 => h m' h1 (by omega))
    simp only [leavesA]
    by_cases hgt : m + 1 > min_m
    · rw [if_pos hgt, if_pos hgt, (h (m + 1) hgt le_rfl).1, (h (m + 1) hgt le_rfl).2]
      simp only [ih']
    · rw [if_neg hgt, if_neg hgt]

/-- The leaf loop of phase B from `l` downwards, on any state in which `phi[b]` can be read:
it stops at an index `l1` inside the prime table, not below `b`, having evaluated exactly the
indices `l, l - 1, ..., l1 + 1`, each with `low ≤ x / n < high` and `1 ≤ n ≤ x` for its
product `n = prime * primes[l']`. -/
theorem leavesB_queries (T : BinaryIndexedTree) (x y low high b min_hard : Nat)
    (primes pi : List Nat) (htab : PrimeTables y primes pi)
    (hp : 0 < primes.getD b 0) (hlow : 1 ≤ low) (hhigh : 0 < high)
    (hmin : x / (primes.getD b 0 * high) ≤ min_hard) (hge : primes.getD b 0 ≤ min_hard) :
    ∀ (l : Nat) (st : HardState T), l < primes.length →
      primes.getD l 0 ≤ x / (primes.getD b 0 * low) → b < st.phi.length →
      ∃ (l1 : Nat) (st' : HardState T),
        leavesB T x low b (primes.getD b 0) min_hard primes l st = some st' ∧
        st'.phi = st.phi ∧ l1 ≤ l ∧ (b ≤ l → b ≤ l1) ∧
        primes.getD l1 0 ≤ min_hard ∧
        st'.calls = st.calls ++ (List.range (l - l1)).map (fun i =>
          TreeCall.count low (x / (primes.getD b 0 * primes.getD (l - i) 0))) ∧
        ∀ l' : Nat, l1 < l' → l' ≤ l →
          min_hard < primes.getD l' 0 ∧
          low ≤ x / (primes.getD b 0 * primes.getD l' 0) ∧
          x / (primes.getD b 0 * primes.getD l' 0) < high ∧
          1 ≤ primes.getD b 0 * primes.getD l' 0 ∧
          primes.getD b 0 * primes.getD l' 0 ≤ x := by
  intro l
  induction l with
  | zero =>
    intro st hl _ _
    refine ⟨0, st, ?_, rfl, le_rfl, fun h => h, by rw [htab.zero]; omega, by simp,
      fun l' h1 h2 => by omega⟩
    rw [leavesB, getElem?_eq_some_getD primes 0 0 hl, htab.zero]
    simp
  | succ l ih =>
    intro st hl hle hphi
    have hget : primes[l + 1]? = some (primes.getD (l + 1) 0) :=
      getElem?_eq_some_getD primes (l + 1) 0 hl
    by_cases hgt : primes.getD (l + 1) 0 > min_hard
    · have hpl : 0 < primes.getD (l + 1) 0 := by omega
      have hv1 : low ≤ x / (primes.getD b 0 * primes.getD (l + 1) 0) :=
        (le_div_swap x _ _ low hp hpl (by omega)).2 hle
      have hv2 : x / (primes.getD b 0 * primes.getD (l + 1) 0) < high :=
        (div_lt_swap x _ _ high hp hpl hhigh).2 (by omega)
      have hmono := primes_mono_le y primes pi htab l (l + 1) (by omega) hl
      obtain ⟨l1, st', hrun, hph, hl1, hbl, hstop, hcalls, hall⟩ :=
        ih { st with
             S2_result := st.S2_result +
               (st.phi.getD b 0 +
                 T.count st.tree low (x / (primes.getD b 0 * primes.getD (l + 1) 0)))
             calls := st.calls ++
               [TreeCall.count low (x / (primes.getD b 0 * primes.getD (l + 1) 0))] }
          (by omega) (by omega) hphi
      refine ⟨l1, st', ?_, hph, by omega, ?_, hstop, ?_, ?_⟩
      · rw [leavesB, hget]
        simp only [Option.bind_eq_bind, Option.some_bind]
        rw [if_pos hgt, cdiv_pos _ _ (Nat.mul_pos hp hpl),
          getElem?_eq_some_getD st.phi b 0 hphi]
        simp only [Option.some_bind]
        exact hrun
      · intro hb
        have hne : b ≠ l + 1 := by
          intro heq
          rw [← heq] at hgt
          omega
        exact hbl (by omega)
      · rw [hcalls]
        simp only
        rw [show l + 1 - l1 = (l - l1) + 1 by omega, List.range_succ_eq_map, List.map_cons,
          List.map_map, List.append_assoc]
        simp only [List.singleton_append, Nat.sub_zero, List.cons.injEq, true_and,
          List.append_cancel_left_eq]
        apply List.map_congr_left
        intro i _
        simp only [Function.comp]
        rw [show l + 1 - (i + 1) = l - i by omega]
      · intro l' h1 h2
        by_cases heq : l' = l + 1
        · subst heq
          exact ⟨hgt, hv1, hv2, Nat.mul_pos hp hpl, le_of_le_div x _ low hlow hv1⟩
        · exact hall l' h1 (by omega)
    · refine ⟨l + 1, st, ?_, rfl, le_rfl, fun h => h, by omega, by simp,
        fun l' h1 h2 => by omega⟩
      rw [leavesB, hget]
      simp only [Option.bind_eq_bind, Option.some_bind]
      rw [if_neg hgt]

/-! ## The Fenwick build loop -/

theorem testBit_double (a j : Nat) :
    (2 * a).testBit j = (decide (1 ≤ j) && a.testBit (j - 1)) := by
  cases j with
  | zero => simp
  | succ j => simp [Nat.testBit_succ]

theorem testBit_double_succ (a j : Nat) :
    (2 * a + 1).testBit j = (decide (j = 0) || a.testBit (j - 1)) := by
  cases j with
  | zero =>
    simp
    omega
  | succ j =>
    simp only [Nat.testBit_succ]
    rw [show (2 * a + 1) / 2 = a by omega]
    simp

theorem pow_mul_odd_pred (r a : Nat) :
    2 ^ r * (2 * a + 1) - 1 = 2 ^ r * (2 * a) + (2 ^ r - 1) := by
  have h := Nat.two_pow_pos r
  have : 2 ^ r * (2 * a + 1) = 2 ^ r * (2 * a) + 2 ^ r := by ring
  omega

/-- Clearing the lowest set bit: `j & (j - 1)` for `j = 2^r * (2a + 1)`. -/
theorem land_pred (r a : Nat) :
    (2 ^ r * (2 * a + 1)) &&& (2 ^ r * (2 * a + 1) - 1) = 2 ^ r * (2 * a) := by
  apply Nat.eq_of_testBit_eq
  intro j
  rw [Nat.testBit_and, pow_mul_odd_pred,
    Nat.testBit_mul_pow_two_add _ (Nat.sub_lt (Nat.two_pow_pos r) Nat.one_pos),
    Nat.testBit_mul_pow_two, Nat.testBit_mul_pow_two, testBit_double, testBit_double_succ]
  by_cases hj : j < r
  · have : ¬ j ≥ r := by omega
    simp [hj, this]
  · have : j ≥ r := by omega
    simp only [hj, this, if_false, decide_True, Bool.true_and]
    by_cases h0 : j - r = 0
    · simp [h0]
    · have : 1 ≤ j - r := by omega
      simp [h0, this]

/-- The lowest set bit: `n & ~(n - 1)` in 64 bits for `n = 2^t * (2a + 1) < 2^64`. -/
theorem land_compl_pred (t a : Nat) (h : 2 ^ t * (2 * a + 1) < 2 ^ 64) :
    (2 ^ t * (2 * a + 1)) &&& (2 ^ 64 - (2 ^ t * (2 * a + 1))) = 2 ^ t := by
  have hpos : 0 < 2 ^ t * (2 * a + 1) := Nat.mul_pos (Nat.two_pow_pos t) (by omega)
  have ht : t < 64 := by
    by_contra hcon
    have : 2 ^ 64 ≤ 2 ^ t := Nat.pow_le_pow_right (by omega) (by omega)
    have : 2 ^ t ≤ 2 ^ t * (2 * a + 1) := Nat.le_mul_of_pos_right _ (by omega)
    omega
  apply Nat.eq_of_testBit_eq
  intro j
  have e : 2 ^ 64 - 2 ^ t * (2 * a + 1) = 2 ^ 64 - ((2 ^ t * (2 * a + 1) - 1) + 1) := by
    omega
  rw [Nat.testBit_and, e, Nat.testBit_two_pow_sub_succ (by omega), pow_mul_odd_pred,
    Nat.testBit_mul_pow_two_add _ (Nat.sub_lt (Nat.two_pow_pos t) Nat.one_pos),
    Nat.testBit_mul_pow_two, Nat.testBit_two_pow, Nat.testBit_two_pow_sub_one,
    testBit_double, testBit_double_succ]
  by_cases hj : j < t
  · have h1 : ¬ j ≥ t := by omega
    have h2 : ¬ t = j := by omega
    simp [hj, h1, h2]
  · have h1 : j ≥ t := by omega
    simp only [hj, h1, if_false, decide_True, Bool.true_and]
    by_cases h0 : j - t = 0
    · have h2 : t = j := by omega
      have h3 : j < 64 := by omega
      simp [h0, h2, h3]
    · have h2 : ¬ t = j := by omega
      have h3 : 1 ≤ j - t := by omega
      simp only [h0, h2, h3, decide_False, decide_True, Bool.false_or, Bool.true_and]
      cases a.testBit (j - t - 1) <;> simp

theorem low_bit_eq (t a i : Nat) (hi : i + 1 = 2 ^ t * (2 * a + 1)) (h : i + 1 < 2 ^ 64) :
    low_bit i = 2 ^ t := by
  unfold low_bit
  rw [show 2 ^ 64 - 1 - i = 2 ^ 64 - (i + 1) by omega, hi]
  exact land_compl_pred t a (by omega)

theorem getD_set_eq' {α : Type} (l : List α) (i j : Nat) (a d : α) (h : i < l.length) :
    (l.set i a).getD j d = if i = j then a else l.getD j d := by
  simp only [List.getD_eq_getElem?_getD, List.getElem?_set]
  by_cases hij : i = j
  · subst hij
    simp [h]
  · simp [hij]

/-- The inner loop from its `r`-th iteration on, for a node `i` with
`i + 1 = 2^(r + d) * (2a + 1)`: it runs `d` more times, reads finished nodes only, and leaves
in `tree_[i]` the sum over the `2^(r + d)` indices up to `i`. -/
theorem build_inner_spec (sieve : List Int) (i a : Nat) :
    ∀ (d r fuel : Nat) (s : BuildState), d ≤ fuel → i + 1 = 2 ^ (r + d) * (2 * a + 1) →
      i + 1 < 2 ^ 64 → i < s.tree_.length →
      (∀ i' : Nat, i' < i → s.tree_.getD i' 0 = node_sum sieve i') →
      s.tree_.getD i 0 = ∑ j ∈ Finset.Ico (i + 1 - 2 ^ r) (i + 1), sieve.getD (2 * j) 0 →
      ∃ s' : BuildState,
        build_inner i fuel (2 ^ d) (i + 1 - 2 ^ r) s = some s' ∧
        s'.tree_.length = s.tree_.length ∧
        (∀ i' : Nat, i' ≠ i → s'.tree_.getD i' 0 = s.tree_.getD i' 0) ∧
        s'.tree_.getD i 0 =
          ∑ j ∈ Finset.Ico (i + 1 - 2 ^ (r + d)) (i + 1), sieve.getD (2 * j) 0 ∧
        ∃ added : List (Nat × Nat), s'.reads = s.reads ++ added ∧
          ∀ e ∈ added, e.1 = i ∧ e.2 < i := by
  intro d
  induction d with
  | zero =>
    intro r fuel s _ _ _ _ _ hsum
    refine ⟨s, ?_, rfl, fun _ _ => rfl, by simpa using hsum, [], by simp, by simp⟩
    cases fuel <;> simp [build_inner]
  | succ d ih =>
    intro r fuel s hfuel hi h64 hlen hdone hsum
    obtain ⟨fuel, rfl⟩ : ∃ f, fuel = f + 1 := ⟨fuel - 1, by omega⟩
    have hr := Nat.two_pow_pos r
    have hd := Nat.two_pow_pos d
    have hpow : (2 : Nat) ^ (r + (d + 1)) = 2 ^ r * (2 * 2 ^ d) := by
      rw [pow_add, pow_succ]; ring
    -- the node read, `i - 2^r`, is `2^r * (2a' + 1) - 1`
    have hbig : 1 ≤ 2 ^ d * (2 * a + 1) := Nat.mul_pos hd (by omega)
    obtain ⟨a', ha'⟩ : ∃ a' : Nat, 2 * 2 ^ d * (2 * a + 1) = 2 * a' + 2 :=
      ⟨2 ^ d * (2 * a + 1) - 1, by
        have : 2 * 2 ^ d * (2 * a + 1) = 2 * (2 ^ d * (2 * a + 1)) := by ring
        omega⟩
    have hj : i + 1 - 2 ^ r = 2 ^ r * (2 * a' + 1) := by
      have e1 : i + 1 = 2 ^ r * (2 * a' + 2) := by
        rw [hi, hpow, ← ha']; ring
      have e2 : 2 ^ r * (2 * a' + 2) = 2 ^ r * (2 * a' + 1) + 2 ^ r := by ring
      omega
    have hjpos : 0 < i + 1 - 2 ^ r := by
      rw [hj]; exact Nat.mul_pos hr (by omega)
    have hread : i + 1 - 2 ^ r - 1 = i - 2 ^ r := by omega
    have hlt : i - 2 ^ r < i := by omega
    have hlow : low_bit (i - 2 ^ r) = 2 ^ r :=
      low_bit_eq r a' (i - 2 ^ r) (by omega) (by omega)
    have hnode := hdone (i - 2 ^ r) hlt
    unfold node_sum at hnode
    rw [hlow] at hnode
    have hshift : (2 : Nat) ^ (d + 1) >>> 1 = 2 ^ d := by
      rw [Nat.shiftRight_eq_div_pow, pow_succ]; omega
    have hnext : (i + 1 - 2 ^ r) &&& (i + 1 - 2 ^ r - 1) = i + 1 - 2 ^ (r + 1) := by
      rw [hj, land_pred, pow_succ]
      have : 2 ^ r * (2 * a' + 1) = 2 ^ r * (2 * a') + 2 ^ r := by ring
      omega
    have hle2 : 2 ^ (r + 1) ≤ i + 1 := by
      rw [hi, hpow, pow_succ]
      have : 2 ^ r * (2 * 2 ^ d) * (2 * a + 1) = 2 ^ r * 2 * (2 ^ d * (2 * a + 1)) := by ring
      rw [this]
      exact Nat.le_mul_of_pos_right _ hbig
    obtain ⟨s', hrun, hlen', hother, hval, added, hadd, hprop⟩ :=
      ih (r + 1) fuel
        { tree_ := s.tree_.set i (s.tree_.getD i 0 + s.tree_.getD (i - 2 ^ r) 0)
          reads := s.reads ++ [(i, i - 2 ^ r)] }
        (by omega) (by rw [hi]; congr 2; omega) h64
        (by simpa using hlen)
        (by
          intro i' hi'
          show (s.tree_.set i _).getD i' 0 = _
          rw [getD_set_eq' _ _ _ _ _ hlen, if_neg (by omega)]
          exact hdone i' hi')
        (by
          show (s.tree_.set i _).getD i 0 = _
          rw [getD_set_eq' _ _ _ _ _ hlen, if_pos rfl, hsum, hnode, add_comm,
            show i - 2 ^ r + 1 - 2 ^ r = i + 1 - 2 ^ (r + 1) by rw [pow_succ]; omega,
            show i - 2 ^ r + 1 = i + 1 - 2 ^ r by omega]
          exact Finset.sum_Ico_consecutive _ (by rw [pow_succ]; omega) (by omega))
    refine ⟨s', ?_, by simpa using hlen', ?_, ?_, (i, i - 2 ^ r) :: added, ?_, ?_⟩
    · simp only [build_inner]
      rw [hshift, if_pos (by omega), if_neg (by omega), hnext, hread,
        List.getElem?_eq_getElem hlen, List.getElem?_eq_getElem (by omega : i - 2 ^ r < _)]
      simp only [Option.bind_eq_bind, Option.some_bind]
      rw [List.getD_eq_getElem _ _ hlen,
        List.getD_eq_getElem _ _ (by omega : i - 2 ^ r < s.tree_.length)] at hrun
      exact hrun
    · intro i' hi'
      rw [hother i' hi']
      show (s.tree_.set i _).getD i' 0 = _
      rw [getD_set_eq' _ _ _ _ _ hlen, if_neg (fun h => hi' h.symm)]
    · rw [hval, show r + 1 + d = r + (d + 1) by omega]
    · rw [hadd]
      simp
    · intro e he
      rcases List.mem_cons.1 he with h | h
      · subst h
        exact ⟨rfl, hlt⟩
      · exact hprop e h

/-- Every `i + 1` is `2^t * (2a + 1)`. -/
theorem exists_pow_mul_odd (i : Nat) : ∃ t a : Nat, i + 1 = 2 ^ t * (2 * a + 1) := by
  obtain ⟨t, m, hm, h⟩ := Nat.exists_eq_two_pow_mul_odd (Nat.succ_ne_zero i)
  obtain ⟨a, rfl⟩ := hm
  exact ⟨t, a, h⟩

/-- The build loop from index `i` on: it finishes every node. -/
theorem build_loop_spec (sieve : List Int) (size_ : Nat) (hsize : 2 * size_ ≤ sieve.length)
    (h64 : sieve.length < 2 ^ 64) :
    ∀ (fuel i : Nat) (s : BuildState), size_ ≤ i + fuel → i ≤ size_ →
      s.tree_.length = size_ →
      (∀ i' : Nat, i' < i → s.tree_.getD i' 0 = node_sum sieve i') →
      (∀ e ∈ s.reads, e.2 < e.1) →
      ∃ s' : BuildState,
        build_loop sieve size_ fuel i s = some s' ∧ s'.tree_.length = size_ ∧
        (∀ i' : Nat, i' < size_ → s'.tree_.getD i' 0 = node_sum sieve i') ∧
        (∀ e ∈ s'.reads, e.2 < e.1) := by
  intro fuel
  induction fuel with
  | zero =>
    intro i s hfuel hi hlen hdone hreads
    refine ⟨s, ?_, hlen, fun i' hi' => hdone i' (by omega), hreads⟩
    simp only [build_loop]
    rw [if_neg (by omega)]
  | succ fuel ih =>
    intro i s hfuel hi hlen hdone hreads
    by_cases hlt : i < size_
    · obtain ⟨t, a, hta⟩ := exists_pow_mul_odd i
      have hk : low_bit i = 2 ^ t := low_bit_eq t a i hta (by omega)
      have ht : t < 64 := by
        by_contra hcon
        have h1 : 2 ^ 64 ≤ 2 ^ t := Nat.pow_le_pow_right (by omega) (by omega)
        have h2 : 2 ^ t ≤ 2 ^ t * (2 * a + 1) := Nat.le_mul_of_pos_right _ (by omega)
        omega
      have hi2 : i * 2 < sieve.length := by omega
      obtain ⟨s1, hrun1, hlen1, hother1, hval1, added, hadd, hprop⟩ :=
        build_inner_spec sieve i a t 0 64 { s with tree_ := s.tree_.set i (sieve.getD (2 * i) 0) }
          (by omega) (by rw [Nat.zero_add]; exact hta) (by omega)
          (by simpa [hlen] using hlt)
          (by
            intro i' hi'
            show (s.tree_.set i _).getD i' 0 = _
            rw [getD_set_eq' _ _ _ _ _ (by omega), if_neg (by omega)]
            exact hdone i' hi')
          (by
            show (s.tree_.set i _).getD i 0 = _
            rw [getD_set_eq' _ _ _ _ _ (by omega), if_pos rfl]
            simp)
      have hlen1' : s1.tree_.length = size_ := by
        rw [hlen1]; simpa using hlen
      obtain ⟨s', hrun, hlen', hall, hreads'⟩ := ih (i + 1) s1 (by omega) (by omega) hlen1'
        (by
          intro i' hi'
          by_cases he : i' = i
          · subst he
            rw [hval1]
            unfold node_sum
            rw [hk, Nat.zero_add]
          · rw [hother1 i' he]
            show (s.tree_.set i _).getD i' 0 = _
            rw [getD_set_eq' _ _ _ _ _ (by omega), if_neg (fun h => he h.symm)]
            exact hdone i' (by omega))
        (by
          intro e he
          rw [hadd] at he
          rcases List.mem_append.1 he with h | h
          · exact hreads e h
          · obtain ⟨h1, h2⟩ := hprop e h
            omega)
      refine ⟨s', ?_, hlen', hall, hreads'⟩
      simp only [build_loop]
      rw [if_pos hlt, List.getElem?_eq_getElem hi2]
      simp only [Option.bind_eq_bind, Option.some_bind]
      rw [if_pos (by omega), hk]
      rw [show 2 * i = i * 2 by ring, List.getD_eq_getElem _ _ hi2, Nat.pow_zero,
        show i + 1 - 1 = i by omega] at hrun1
      rw [hrun1]
      exact hrun
    · refine ⟨s, ?_, hlen, fun i' hi' => hdone i' (by omega), hreads⟩
      simp only [build_loop]
      rw [if_neg hlt]

/-! ## Lemmas for the claims on the states of a run -/

/-- What the loop invariant says about the presence array, in terms of divisibility: a position
is present iff none of the first `b - 1` primes divides it. -/
theorem stage_iff_dvd (c : Nat) (primes : List Nat) (low high b : Nat) (sieve : List Bool)
    (hc : 1 ≤ c) (hcb : c < b) (h2 : primes.getD 1 0 = 2)
    (h : SieveAt c primes low high b sieve) (v : Nat) (hv1 : low ≤ v) (hv2 : v < high) :
    ∃ present : Bool, sieve[v - low]? = some present ∧
      (present = true ↔ ∀ j : Nat, 1 ≤ j → j ≤ b - 1 → ¬ primes.getD j 0 ∣ v) := by
  refine ⟨decide (survives c primes b v), h v hv1 hv2, ?_⟩
  rw [decide_eq_true_eq]
  exact survives_iff c primes b v hc hcb h2

/-- A cursor that is right for a segment start `high` is, for an index of the pre-sieve, the
least multiple of the prime that is `≥ high`. -/
theorem cursor_least_multiple (c : Nat) (primes : List Nat) (high j v : Nat) (hj : j ≤ c)
    (h : CursorOK c primes high j v) :
    primes.getD j 0 ∣ v ∧ high ≤ v ∧
      ∀ m : Nat, primes.getD j 0 ∣ m → high ≤ m → v ≤ m := by
  obtain ⟨h1, h2, h3⟩ := h
  have hs : stride c primes j = primes.getD j 0 := by
    unfold stride
    rw [if_pos hj]
  rw [hs] at h3
  have hdvd := removed_dvd c primes j v h1
  refine ⟨hdvd, h2, ?_⟩
  intro m hm1 hm2
  by_contra hcon
  have hlt : m < v := by omega
  have hd : primes.getD j 0 ∣ v - m := Nat.dvd_sub' hdvd hm1
  have := Nat.le_of_dvd (by omega) hd
  omega

/-- The start index of the phase-B leaf loop is inside the prime table and its prime is a
candidate of the segment. -/
theorem leavesB_start (y : Nat) (primes pi : List Nat) (htab : PrimeTables y primes pi)
    (x z low p : Nat) :
    pi.getD (min (min (x / (p * low)) (z / p)) y) 0 < primes.length ∧
    pi.getD (min (min (x / (p * low)) (z / p)) y) 0 ≤ pi.getD y 0 ∧
    primes.getD (pi.getD (min (min (x / (p * low)) (z / p)) y) 0) 0 ≤ x / (p * low) := by
  have hn : min (min (x / (p * low)) (z / p)) y ≤ y := min_le_right _ _
  have hlt := htab.pi_lt _ hn
  refine ⟨hlt, pi_mono y primes pi htab y _ hn le_rfl, ?_⟩
  have := (htab.pi_spec _ _ hn hlt).2 le_rfl
  exact le_trans this (le_trans (min_le_left _ _) (min_le_left _ _))

theorem to_int_id (v : Int) (h1 : -2 ^ 31 ≤ v) (h2 : v < 2 ^ 31) : to_int v = v := by
  unfold to_int
  omega

/-! ## The claims on the states of a run, the loops and the helpers -/

/-- C11. The guard on `update`. First, any run of `cross_off` calls `update` on offsets
that are present in the presence array when `cross_off` is entered, marks each of them absent,
and calls it on no offset twice (`Guarded`). Second, in every iteration `k` of the segment loop
of `S2_hard` (under its contract, for every segment size `≥ 1`, with or without the early
exits): the calls made on the tree after `tree.init` hold no further `init`, the offsets given
to `update` over all primes processed in the segment are pairwise different, and each of them
is present in the presence array that the pre-sieve leaves (so `update` is never called on an
offset that the pre-sieve marked absent) and absent at the end of the segment. -/
theorem update_guarded (T : BinaryIndexedTree) (abs : T.τ → List Bool)
    (hT : TreeContract T abs) (segment_size : Nat) (prune : Bool) (x y z c : Nat)
    (pi lpf : List Nat) (mu : List Int)
    (hpi : pi = generate_pi y) (hc : c ≤ pi.getD y 0) (hS : 1 ≤ segment_size)
    (hmu : y < mu.length) (hlpf : y < lpf.length) (k : Nat)
    (hk : 1 + k * segment_size < z + 1) :
    (∀ (prime low high multiple m : Nat) (st st' : HardState T),
      cross_off T prime low high multiple st = some (m, st') →
      ∃ tail : List TreeCall, st'.calls = st.calls ++ tail ∧
        Guarded st.sieve st'.sieve tail) ∧
    ∃ (st0 st1 st' : HardState T) (tail : List TreeCall),
      S2_hard_head T segment_size prune x y z c pi lpf mu k = some st0 ∧
      presieve T (generate_primes y) c (1 + k * segment_size)
        (min (1 + k * segment_size + segment_size) (z + 1)) c 1
        { st0 with sieve := List.replicate st0.sieve.length true } = some st1 ∧
      segment T segment_size prune x y z c (pi.getD (isqrt y) 0)
        (pi.getD (min (isqrt z) y) 0) (generate_primes y) pi lpf mu (1 + k * segment_size)
        st0 = some st' ∧
      st'.calls = st1.calls ++ TreeCall.init st1.sieve.length :: tail ∧
      (∀ size : Nat, TreeCall.init size ∉ tail) ∧
      (update_offsets tail).Nodup ∧
      ∀ off ∈ update_offsets tail,
        st1.sieve[off]? = some true ∧ st'.sieve[off]? = some false := by
  constructor
  · intro prime low high multiple m st st' h
    exact (cross_off_loop_guarded T prime low high st.sieve st.calls high multiple st m st'
      ⟨[], by simp, Guarded.at_build _⟩ h).1
  · obtain ⟨htab, hclen⟩ := contract_tables y c pi hpi hc
    have hpy : pi[isqrt y]? = some (pi.getD (isqrt y) 0) :=
      getElem?_eq_some_getD pi _ 0 (by rw [htab.pi_length]; have := isqrt_le y; omega)
    have hpz : pi[min (isqrt z) y]? = some (pi.getD (min (isqrt z) y) 0) :=
      getElem?_eq_some_getD pi _ 0
        (by rw [htab.pi_length]; have := min_le_right (isqrt z) y; omega)
    have hpsz := htab.pi_lt (min (isqrt z) y) (min_le_right _ _)
    obtain ⟨st, live, hrun, hinv, hlive, hdead, _⟩ :=
      segment_head_spec T abs hT segment_size prune x y z c pi lpf mu htab hclen hS hmu hlpf k
        hk
    obtain ⟨st', _, hrun', _⟩ :=
      segment_spec T abs hT segment_size prune x y z c (pi.getD (isqrt y) 0)
        (pi.getD (min (isqrt z) y) 0) (generate_primes y) pi lpf mu htab rfl hpsz hclen hS hmu
        hlpf (1 + k * segment_size) live st (by omega) hk hinv hlive hdead
    obtain ⟨st1, tail, hpre, hcalls, hg⟩ :=
      segment_guarded T segment_size prune x y z c _ _ _ pi lpf mu _ st st' hrun'
    refine ⟨st, st1, st', tail, ?_, hpre, hrun', hcalls, hg.no_init, hg.nodup,
      fun off hoff => ⟨hg.was_present off hoff, hg.now_absent off hoff⟩⟩
    unfold S2_hard_head
    rw [hpy, hpz]
    simp only [Option.bind_eq_bind, Option.some_bind]
    exact hrun

/-- C11, witness: the segment `[3, 5)` of `x = 50, y = 9, z = 5, c = 1` with segment size 2,
in which `update(0)` removes the position `3`. -/
theorem update_guarded_witness :
    (∀ (prime low high multiple m : Nat) (st st' : HardState windowTree),
      cross_off windowTree prime low high multiple st = some (m, st') →
      ∃ tail : List TreeCall, st'.calls = st.calls ++ tail ∧
        Guarded st.sieve st'.sieve tail) ∧
    ∃ (st0 st1 st' : HardState windowTree) (tail : List TreeCall),
      S2_hard_head windowTree 2 true 50 9 5 1 (generate_pi 9)
        [0, 2147483647, 2, 3, 2, 5, 2, 7, 2, 3] [0, 1, -1, -1, 0, -1, 1, -1, 0, 0] 1 = some st0 ∧
      presieve windowTree (generate_primes 9) 1 (1 + 1 * 2) (min (1 + 1 * 2 + 2) (5 + 1)) 1 1
        { st0 with sieve := List.replicate st0.sieve.length true } = some st1 ∧
      segment windowTree 2 true 50 9 5 1 ((generate_pi 9).getD (isqrt 9) 0)
        ((generate_pi 9).getD (min (isqrt 5) 9) 0) (generate_primes 9) (generate_pi 9)
        [0, 2147483647, 2, 3, 2, 5, 2, 7, 2, 3] [0, 1, -1, -1, 0, -1, 1, -1, 0, 0] (1 + 1 * 2)
        st0 = some st' ∧
      st'.calls = st1.calls ++ TreeCall.init st1.sieve.length :: tail ∧
      (∀ size : Nat, TreeCall.init size ∉ tail) ∧
      (update_offsets tail).Nodup ∧
      ∀ off ∈ update_offsets tail,
        st1.sieve[off]? = some true ∧ st'.sieve[off]? = some false :=
  update_guarded windowTree (fun t => t) windowTree_contract 2 true 50 9 5 1 (generate_pi 9)
    [0, 2147483647, 2, 3, 2, 5, 2, 7, 2, 3] [0, 1, -1, -1, 0, -1, 1, -1, 0, 0] rfl
    (by decide) (by decide) (by decide) (by decide) 1 (by decide)

/-- C12. Ordering invariant. Under the contract of `S2_hard` with `c ≥ 1`, for every segment
size `≥ 1`, in every iteration `k` of the segment loop (segment `[low, high)` with
`low = 1 + k * segment_size`) and for every prime index `b > c` whose leaves are evaluated
there, the state in which the phase loops reach `b` exists, and in it the presence array and
the tree (through the abstraction of the tree contract) hold, for every position `v` of the
segment, the same entry, which is "present" iff none of `primes[1], ..., primes[b - 1]` divides
`v`: the state reflects the pre-sieve and the crossing-off of exactly the indices below `b`. -/
theorem S2_hard_ordering (T : BinaryIndexedTree) (abs : T.τ → List Bool)
    (hT : TreeContract T abs) (segment_size x y z c : Nat) (pi lpf : List Nat) (mu : List Int)
    (hpi : pi = generate_pi y) (hc1 : 1 ≤ c) (hc : c ≤ pi.getD y 0) (hS : 1 ≤ segment_size)
    (hmu : y < mu.length) (hlpf : y < lpf.length) (k b : Nat)
    (hk : 1 + k * segment_size < z + 1)
    (hev : Evaluated x y z c (pi.getD (isqrt y) 0) (pi.getD (min (isqrt z) y) 0)
      (generate_primes y) pi (1 + k * segment_size) b) :
    ∃ st : HardState T,
      S2_hard_at T segment_size true x y z c pi lpf mu k b = some st ∧
      ∀ v : Nat, 1 + k * segment_size ≤ v →
        v < min (1 + k * segment_size + segment_size) (z + 1) →
        ∃ present : Bool,
          st.sieve[v - (1 + k * segment_size)]? = some present ∧
          (abs st.tree)[v - (1 + k * segment_size)]? = some present ∧
          (present = true ↔
            ∀ j : Nat, 1 ≤ j → j ≤ b - 1 → ¬ (generate_primes y).getD j 0 ∣ v) := by
  obtain ⟨htab, hclen⟩ := contract_tables y c pi hpi hc
  obtain ⟨hcb, hb, hno⟩ := hev
  obtain ⟨st, live, hrun, _, _, hinv⟩ :=
    S2_hard_at_spec T abs hT segment_size x y z c pi lpf mu htab hclen hS hmu hlpf k b hk hcb
      (by omega) (fun j h1 h2 => hno j (by omega) h1)
  refine ⟨st, hrun, ?_⟩
  intro v hv1 hv2
  obtain ⟨present, h1, h2⟩ := stage_iff_dvd c (generate_primes y) _ _ b st.sieve hc1 hcb
    (htab.first (by omega)) hinv.stage v hv1 hv2
  exact ⟨present, h1, by rw [hinv.tree_eq]; exact h1, h2⟩

/-- C12, witness: the index `b = 2` (prime 3) in the segment `[3, 5)` of
`x = 50, y = 9, z = 5, c = 1` with segment size 2. -/
theorem S2_hard_ordering_witness :
    ∃ st : HardState windowTree,
      S2_hard_at windowTree 2 true 50 9 5 1 (generate_pi 9)
        [0, 2147483647, 2, 3, 2, 5, 2, 7, 2, 3] [0, 1, -1, -1, 0, -1, 1, -1, 0, 0] 1 2 = some st ∧
      ∀ v : Nat, 1 + 1 * 2 ≤ v → v < min (1 + 1 * 2 + 2) (5 + 1) →
        ∃ present : Bool,
          st.sieve[v - (1 + 1 * 2)]? = some present ∧
          ((fun t => t) st.tree : List Bool)[v - (1 + 1 * 2)]? = some present ∧
          (present = true ↔
            ∀ j : Nat, 1 ≤ j → j ≤ 2 - 1 → ¬ (generate_primes 9).getD j 0 ∣ v) :=
  S2_hard_ordering windowTree (fun t => t) windowTree_contract 2 50 9 5 1 (generate_pi 9)
    [0, 2147483647, 2, 3, 2, 5, 2, 7, 2, 3] [0, 1, -1, -1, 0, -1, 1, -1, 0, 0] rfl
    (by decide) (by decide) (by decide) (by decide) (by decide) 1 2 (by decide) (by decide)

/-- C13, counterexample. At `x = 50, y = 9, z = 5, c = 1` with segment size 2, the leaves of
the index `b = 2` (prime 3) are evaluated in the segment `[3, 5)`. In the state in which the
phase loops reach `b = 2` there, `phi[2] + count(3, 3) = 2`, the number of odd integers in
`1..3`; the number of integers in `1..3` that none of `primes[0..2] = 0, 2, 3` divides is `1`.
The position `v = 3` is the one of the leaf query `x / (3 * 5)` that the code makes there. -/
theorem S2_hard_running_total_counterexample :
    Evaluated 50 9 5 1 ((generate_pi 9).getD (isqrt 9) 0)
      ((generate_pi 9).getD (min (isqrt 5) 9) 0) (generate_primes 9) (generate_pi 9)
      (1 + 1 * 2) 2 ∧
    (S2_hard_at windowTree 2 true 50 9 5 1 (generate_pi 9)
      [0, 2147483647, 2, 3, 2, 5, 2, 7, 2, 3] [0, 1, -1, -1, 0, -1, 1, -1, 0, 0] 1 2).map
        (fun st => st.phi.getD 2 0 + windowTree.count st.tree (1 + 1 * 2) 3) = some 2 ∧
    phi_inclusive (generate_primes 9) 3 2 = 1 := by
  decide

/-- C13, amended. Under the contract of `S2_hard` with `c ≥ 1`, for every segment size `≥ 1`, in
every iteration `k` of the segment loop and for every prime index `b` whose leaves are
evaluated there, in the state in which the phase loops reach `b`, for every position `v` with
`low ≤ v < high`: `phi[b]` plus the tree's count of the present positions from `low` up to `v`
equals the number of integers in `1..v` divisible by none of `primes[1], ..., primes[b - 1]`,
the primes of index below `b`, that is `phi(v, b - 1)`. -/
theorem S2_hard_running_total (T : BinaryIndexedTree) (abs : T.τ → List Bool)
    (hT : TreeContract T abs) (segment_size x y z c : Nat) (pi lpf : List Nat) (mu : List Int)
    (hpi : pi = generate_pi y) (hc1 : 1 ≤ c) (hc : c ≤ pi.getD y 0) (hS : 1 ≤ segment_size)
    (hmu : y < mu.length) (hlpf : y < lpf.length) (k b : Nat)
    (hk : 1 + k * segment_size < z + 1)
    (hev : Evaluated x y z c (pi.getD (isqrt y) 0) (pi.getD (min (isqrt z) y) 0)
      (generate_primes y) pi (1 + k * segment_size) b) :
    ∃ st : HardState T,
      S2_hard_at T segment_size true x y z c pi lpf mu k b = some st ∧
      ∀ v : Nat, 1 + k * segment_size ≤ v →
        v < min (1 + k * segment_size + segment_size) (z + 1) →
        st.phi.getD b 0 + T.count st.tree (1 + k * segment_size) v =
          (phi_ref (generate_primes y) v (b - 1) : Int) := by
  obtain ⟨htab, hclen⟩ := contract_tables y c pi hpi hc
  obtain ⟨hcb, hb, hno⟩ := hev
  obtain ⟨st, live, hrun, hbl, hdead, hinv⟩ :=
    S2_hard_at_spec T abs hT segment_size x y z c pi lpf mu htab hclen hS hmu hlpf k b hk hcb
      (by omega) (fun j h1 h2 => hno j (by omega) h1)
  have hlive : b < live := by
    by_contra hcon
    have : b = live := by omega
    subst this
    exact hno b le_rfl hcb (hdead hb)
  have hblen : b < (generate_primes y).length := by
    have h1 := htab.pi_lt (isqrt y) (isqrt_le y)
    have h2 := htab.pi_lt (min (isqrt z) y) (min_le_right _ _)
    rcases le_max_iff.1 hb with h | h <;> omega
  refine ⟨st, hrun, ?_⟩
  intro v hv1 hv2
  have hready : LeafReady T abs c (generate_primes y) (1 + k * segment_size)
      (min (1 + k * segment_size + segment_size) (z + 1)) b st :=
    ⟨hinv.tree_eq, hinv.stage, by rw [hinv.sieve_len]; exact hinv.window,
      by rw [hinv.phi_len]; exact hblen, hinv.todo_phi b le_rfl hlive⟩
  rw [query_eq T abs hT c (generate_primes y) _ _ b v st hready (by omega) hv1 hv2,
    phi_sieve_eq_phi_ref c (generate_primes y) v b hc1 hcb (htab.first (by omega))]

/-- C13, witness: the amended claim for `b = 2` in the segment `[3, 5)` of
`x = 50, y = 9, z = 5, c = 1` with segment size 2. -/
theorem S2_hard_running_total_witness :
    ∃ st : HardState windowTree,
      S2_hard_at windowTree 2 true 50 9 5 1 (generate_pi 9)
        [0, 2147483647, 2, 3, 2, 5, 2, 7, 2, 3] [0, 1, -1, -1, 0, -1, 1, -1, 0, 0] 1 2 = some st ∧
      ∀ v : Nat, 1 + 1 * 2 ≤ v → v < min (1 + 1 * 2 + 2) (5 + 1) →
        st.phi.getD 2 0 + windowTree.count st.tree (1 + 1 * 2) v =
          (phi_ref (generate_primes 9) v (2 - 1) : Int) :=
  S2_hard_running_total windowTree (fun t => t) windowTree_contract 2 50 9 5 1 (generate_pi 9)
    [0, 2147483647, 2, 3, 2, 5, 2, 7, 2, 3] [0, 1, -1, -1, 0, -1, 1, -1, 0, 0] rfl
    (by decide) (by decide) (by decide) (by decide) (by decide) 1 2 (by decide) (by decide)

/-- C14. Postcondition of `cross_off`: for every `p ≥ 1`, bounds `low ≤ high`, cursor
`m0 ≥ low` and presence array that holds the segment, `cross_off` returns; afterwards every
offset `m0 + 2 * p * k - low` with `m0 + 2 * p * k < high` is absent, every entry at another
index is what it was before, and the cursor returned is of the form `m0 + 2 * p * k`, is
`≥ high`, is the least such value, and is `m0` itself when `m0 ≥ high`. -/
theorem cross_off_postcondition (T : BinaryIndexedTree) (p low high m0 : Nat)
    (st : HardState T) (hp : 1 ≤ p) (hlh : low ≤ high) (hm : low ≤ m0)
    (hlen : high - low ≤ st.sieve.length) :
    ∃ (m' : Nat) (st' : HardState T),
      cross_off T p low high m0 st = some (m', st') ∧
      (∀ k : Nat, m0 + 2 * p * k < high → st'.sieve[m0 + 2 * p * k - low]? = some false) ∧
      (∀ i : Nat, (∀ k : Nat, m0 + 2 * p * k < high → i ≠ m0 + 2 * p * k - low) →
        st'.sieve[i]? = st.sieve[i]?) ∧
      (∃ k : Nat, m' = m0 + 2 * p * k) ∧ high ≤ m' ∧
      (∀ k : Nat, high ≤ m0 + 2 * p * k → m' ≤ m0 + 2 * p * k) ∧
      (high ≤ m0 → m' = m0) := by
  obtain ⟨m', st', hrun, _, _, _, _, hmod, hle, hge, hlt, heq, hin, hout⟩ :=
    cross_off_loop_general T p low high (by omega) high m0 st (by omega) hm hlen
  have hk : ∃ k : Nat, m' = m0 + 2 * p * k := by
    refine ⟨(m' - m0) / (p * 2), ?_⟩
    have h1 : (m' - m0) % (p * 2) = 0 := by
      have := (Nat.modEq_iff_dvd' hle).1 hmod.symm
      exact Nat.mod_eq_zero_of_dvd this
    have h2 := Nat.div_add_mod (m' - m0) (p * 2)
    rw [h1] at h2
    have h3 : 2 * p * ((m' - m0) / (p * 2)) = p * 2 * ((m' - m0) / (p * 2)) := by ring
    omega
  refine ⟨m', st', hrun, ?_, ?_, hk, hge, ?_, heq⟩
  · intro k hk1
    have h := hin (m0 + 2 * p * k) (by omega) hk1
    have hcong : (m0 + 2 * p * k) % (p * 2) = m0 % (p * 2) := by
      rw [show 2 * p * k = p * 2 * k by ring]
      exact Nat.add_mul_mod_self_left _ _ _
    rw [h, if_pos ⟨by omega, hcong⟩]
  · intro i hi
    by_cases hiw : i < high - low
    · have h := hin (low + i) (by omega) (by omega)
      rw [Nat.add_sub_cancel_left] at h
      rw [h, if_neg]
      rintro ⟨h1, h2⟩
      have h3 : (low + i - m0) % (p * 2) = 0 := by
        have := (Nat.modEq_iff_dvd' h1).1 h2.symm
        exact Nat.mod_eq_zero_of_dvd this
      have h4 := Nat.div_add_mod (low + i - m0) (p * 2)
      rw [h3] at h4
      have h5 : 2 * p * ((low + i - m0) / (p * 2)) = p * 2 * ((low + i - m0) / (p * 2)) := by
        ring
      exact hi ((low + i - m0) / (p * 2)) (by omega) (by omega)
    · exact hout i (by omega)
  · intro k hk1
    by_cases hm0 : high ≤ m0
    · have := heq hm0
      omega
    · have h1 := hlt (by omega)
      obtain ⟨k', hk'⟩ := hk
      by_contra hcon
      have h2 : 2 * p * k < 2 * p * k' := by omega
      have h3 : k < k' := lt_of_mul_lt_mul_left h2 (Nat.zero_le _)
      have h4 : 2 * p * (k + 1) ≤ 2 * p * k' := Nat.mul_le_mul_left _ h3
      have h5 : 2 * p * (k + 1) = 2 * p * k + p * 2 := by ring
      omega

/-- C14, witness: the prime `3` from the cursor `3` over the segment `[1, 9)`. -/
theorem cross_off_postcondition_witness :
    ∃ (m' : Nat) (st' : HardState windowTree),
      cross_off windowTree 3 1 9 3 ⟨List.replicate 8 true, [], [], [], 0, []⟩ =
        some (m', st') ∧
      (∀ k : Nat, 3 + 2 * 3 * k < 9 → st'.sieve[3 + 2 * 3 * k - 1]? = some false) ∧
      (∀ i : Nat, (∀ k : Nat, 3 + 2 * 3 * k < 9 → i ≠ 3 + 2 * 3 * k - 1) →
        st'.sieve[i]? = (List.replicate 8 true)[i]?) ∧
      (∃ k : Nat, m' = 3 + 2 * 3 * k) ∧ 9 ≤ m' ∧
      (∀ k : Nat, 9 ≤ 3 + 2 * 3 * k → m' ≤ 3 + 2 * 3 * k) ∧
      (9 ≤ 3 → m' = 3) :=
  cross_off_postcondition windowTree 3 1 9 3 ⟨List.replicate 8 true, [], [], [], 0, []⟩
    (by decide) (by decide) (by decide) (by decide)

/-- C15. Pre-sieve postcondition. Under the contract of `S2_hard`, for every segment size
`≥ 1`, with or without the early exits, in every iteration `k` of the segment loop (segment
`[low, high)`, `low = 1 + k * segment_size`): the state at the head of the iteration exists,
the pre-sieve (lines 98-109) run on it returns, and in the state it leaves, before `tree.init`,
a position `v` of the segment is present iff none of `primes[1], ..., primes[c]` divides `v`;
for every `1 ≤ b ≤ c` the cursor `next[b]` is a multiple of `primes[b]` that is `≥ high`, and
the least one; and the tree and the record of its calls are the ones from before the
pre-sieve. -/
theorem presieve_postcondition (T : BinaryIndexedTree) (abs : T.τ → List Bool)
    (hT : TreeContract T abs) (segment_size : Nat) (prune : Bool) (x y z c : Nat)
    (pi lpf : List Nat) (mu : List Int)
    (hpi : pi = generate_pi y) (hc : c ≤ pi.getD y 0) (hS : 1 ≤ segment_size)
    (hmu : y < mu.length) (hlpf : y < lpf.length) (k : Nat)
    (hk : 1 + k * segment_size < z + 1) :
    ∃ st0 st1 : HardState T,
      S2_hard_head T segment_size prune x y z c pi lpf mu k = some st0 ∧
      presieve T (generate_primes y) c (1 + k * segment_size)
        (min (1 + k * segment_size + segment_size) (z + 1)) c 1
        { st0 with sieve := List.replicate st0.sieve.length true } = some st1 ∧
      (∀ v : Nat, 1 + k * segment_size ≤ v →
        v < min (1 + k * segment_size + segment_size) (z + 1) →
        ∃ present : Bool, st1.sieve[v - (1 + k * segment_size)]? = some present ∧
          (present = true ↔
            ∀ j : Nat, 1 ≤ j → j ≤ c → ¬ (generate_primes y).getD j 0 ∣ v)) ∧
      (∀ b : Nat, 1 ≤ b → b ≤ c →
        (generate_primes y).getD b 0 ∣ st1.next.getD b 0 ∧
        min (1 + k * segment_size + segment_size) (z + 1) ≤ st1.next.getD b 0 ∧
        ∀ m : Nat, (generate_primes y).getD b 0 ∣ m →
          min (1 + k * segment_size + segment_size) (z + 1) ≤ m → st1.next.getD b 0 ≤ m) ∧
      st1.tree = st0.tree ∧ st1.calls = st0.calls := by
  obtain ⟨htab, hclen⟩ := contract_tables y c pi hpi hc
  have hpy : pi[isqrt y]? = some (pi.getD (isqrt y) 0) :=
    getElem?_eq_some_getD pi _ 0 (by rw [htab.pi_length]; have := isqrt_le y; omega)
  have hpz : pi[min (isqrt z) y]? = some (pi.getD (min (isqrt z) y) 0) :=
    getElem?_eq_some_getD pi _ 0
      (by rw [htab.pi_length]; have := min_le_right (isqrt z) y; omega)
  obtain ⟨st, live, hrun, hinv, hlive, hdead, _⟩ :=
    segment_head_spec T abs hT segment_size prune x y z c pi lpf mu htab hclen hS hmu hlpf k hk
  have hlh : 1 + k * segment_size < min (1 + k * segment_size + segment_size) (z + 1) :=
    lt_min (by omega) hk
  have hwin : min (1 + k * segment_size + segment_size) (z + 1) - (1 + k * segment_size) ≤
      segment_size := by
    have := min_le_left (1 + k * segment_size + segment_size) (z + 1)
    omega
  have hpos : ∀ j : Nat, 1 ≤ j → j ≤ c → 0 < (generate_primes y).getD j 0 :=
    fun j h1 h2 => by have := htab.two_le j h1 (by omega); omega
  obtain ⟨st1, hrun1, hl1, hn1, hstage1, hcur1, hother1, hphi1, htree1, hres1, hcalls1⟩ :=
    presieve_spec T c (generate_primes y) (1 + k * segment_size)
      (min (1 + k * segment_size + segment_size) (z + 1)) hclen hpos (le_of_lt hlh) c 1
      { st with sieve := List.replicate st.sieve.length true } (by omega) le_rfl (by omega)
      hinv.next_len (by simp only [List.length_replicate]; rw [hinv.sieve_len]; exact hwin)
      (by
        intro u hu1 hu2
        simp only
        rw [List.getElem?_replicate_of_lt (by rw [hinv.sieve_len]; omega),
          decide_eq_true (survives_one c (generate_primes y) u)])
      (fun j h1 h2 => hinv.cursor j h1 (Or.inl h2))
  refine ⟨st, st1, ?_, hrun1, ?_, ?_, htree1, hcalls1⟩
  · unfold S2_hard_head
    rw [hpy, hpz]
    simp only [Option.bind_eq_bind, Option.some_bind]
    exact hrun
  · intro v hv1 hv2
    refine ⟨_, hstage1 v hv1 hv2, ?_⟩
    rw [decide_eq_true_eq]
    constructor
    · intro h j hj1 hj2 hdvd
      exact h j hj1 (by omega) (removed_of_dvd_presieve c _ j v hj2 hdvd)
    · intro h j hj1 hj2 hrem
      exact h j hj1 (by omega) (removed_dvd c _ j v hrem)
  · intro b hb1 hb2
    exact cursor_least_multiple c (generate_primes y) _ b _ hb2 (hcur1 b hb1 hb2)

/-- C15, witness: the segment `[3, 5)` of `x = 50, y = 9, z = 5, c = 1` with segment size 2. -/
theorem presieve_postcondition_witness :
    ∃ st0 st1 : HardState windowTree,
      S2_hard_head windowTree 2 true 50 9 5 1 (generate_pi 9)
        [0, 2147483647, 2, 3, 2, 5, 2, 7, 2, 3] [0, 1, -1, -1, 0, -1, 1, -1, 0, 0] 1 = some st0 ∧
      presieve windowTree (generate_primes 9) 1 (1 + 1 * 2) (min (1 + 1 * 2 + 2) (5 + 1)) 1 1
        { st0 with sieve := List.replicate st0.sieve.length true } = some st1 ∧
      (∀ v : Nat, 1 + 1 * 2 ≤ v → v < min (1 + 1 * 2 + 2) (5 + 1) →
        ∃ present : Bool, st1.sieve[v - (1 + 1 * 2)]? = some present ∧
          (present = true ↔
            ∀ j : Nat, 1 ≤ j → j ≤ 1 → ¬ (generate_primes 9).getD j 0 ∣ v)) ∧
      (∀ b : Nat, 1 ≤ b → b ≤ 1 →
        (generate_primes 9).getD b 0 ∣ st1.next.getD b 0 ∧
        min (1 + 1 * 2 + 2) (5 + 1) ≤ st1.next.getD b 0 ∧
        ∀ m : Nat, (generate_primes 9).getD b 0 ∣ m →
          min (1 + 1 * 2 + 2) (5 + 1) ≤ m → st1.next.getD b 0 ≤ m) ∧
      st1.tree = st0.tree ∧ st1.calls = st0.calls :=
  presieve_postcondition windowTree (fun t => t) windowTree_contract 2 true 50 9 5 1
    (generate_pi 9) [0, 2147483647, 2, 3, 2, 5, 2, 7, 2, 3] [0, 1, -1, -1, 0, -1, 1, -1, 0, 0]
    rfl (by decide) (by decide) (by decide) (by decide) 1 (by decide)

/-- C16. Every leaf queried lies in the current segment. For the tables of `y`, a prime index
`1 ≤ b ≤ pi(y)`, a segment `1 ≤ low < high` and any state in which `phi[b]` can be read: the
leaf loop of phase A, run with the bounds `min_m` and `max_m` of lines 121-122, and the leaf
loop of phase B, run from the index `l` of line 148 with the bound `min_hard` of line 149,
return, and every call they make on the tree is `count(low, x / n)` for a product
`n = prime * m`, resp. `n = prime * primes[l]`, with `low ≤ x / n < high` and `1 ≤ n ≤ x`. -/
theorem leaf_queries_in_segment (T : BinaryIndexedTree) (x y z low high b : Nat)
    (pi lpf : List Nat) (mu : List Int) (hpi : pi = generate_pi y) (hb1 : 1 ≤ b)
    (hb : b ≤ pi.getD y 0) (hlow : 1 ≤ low) (hlh : low < high) (hmu : y < mu.length)
    (hlpf : y < lpf.length) (st : HardState T) (hphi : b < st.phi.length) :
    (∃ st' : HardState T,
      leavesA T x low b ((generate_primes y).getD b 0)
        (max (x / ((generate_primes y).getD b 0 * high)) (y / (generate_primes y).getD b 0))
        lpf mu (min (x / ((generate_primes y).getD b 0 * low)) y) st = some st' ∧
      CallsFrom (fun call => ∃ m n : Nat, n = (generate_primes y).getD b 0 * m ∧
          call = TreeCall.count low (x / n) ∧ low ≤ x / n ∧ x / n < high ∧
          1 ≤ n ∧ n ≤ x)
        st.calls st'.calls) ∧
    (∃ st' : HardState T,
      leavesB T x low b ((generate_primes y).getD b 0)
        (max (x / ((generate_primes y).getD b 0 * high)) ((generate_primes y).getD b 0))
        (generate_primes y)
        (pi.getD (min (min (x / ((generate_primes y).getD b 0 * low))
          (z / (generate_primes y).getD b 0)) y) 0) st = some st' ∧
      CallsFrom (fun call => ∃ l n : Nat,
          n = (generate_primes y).getD b 0 * (generate_primes y).getD l 0 ∧
          call = TreeCall.count low (x / n) ∧ low ≤ x / n ∧ x / n < high ∧
          1 ≤ n ∧ n ≤ x)
        st.calls st'.calls) := by
  obtain ⟨htab, hblen⟩ := contract_tables y b pi hpi hb
  have hp : 0 < (generate_primes y).getD b 0 := by
    have := htab.two_le b hb1 hblen
    omega
  constructor
  · obtain ⟨st', hrun, _, hcalls⟩ :=
      leavesA_queries T x y low high b ((generate_primes y).getD b 0)
        (max (x / ((generate_primes y).getD b 0 * high)) (y / (generate_primes y).getD b 0))
        lpf mu hp hlow (by omega) hmu hlpf (le_max_left _ _)
        (min (x / ((generate_primes y).getD b 0 * low)) y) st (min_le_right _ _)
        (min_le_left _ _) hphi
    refine ⟨st', hrun, CallsFrom.mono hcalls ?_⟩
    rintro call ⟨m', _, _, h3, h4, h5, h6, h7⟩
    exact ⟨m', _, rfl, h3, h4, h5, h6, h7⟩
  · obtain ⟨hl0, _, hle⟩ := leavesB_start y (generate_primes y) pi htab x z low
      ((generate_primes y).getD b 0)
    generalize pi.getD (min (min (x / ((generate_primes y).getD b 0 * low))
      (z / (generate_primes y).getD b 0)) y) 0 = l0 at hl0 hle ⊢
    obtain ⟨l1, st', hrun, _, hl1, _, _, hcalls, hall⟩ :=
      leavesB_queries T x y low high b
        (max (x / ((generate_primes y).getD b 0 * high)) ((generate_primes y).getD b 0))
        (generate_primes y) pi htab hp hlow (by omega) (le_max_left _ _) (le_max_right _ _)
        l0 st hl0 hle hphi
    refine ⟨st', hrun, _, hcalls, ?_⟩
    intro call hcall
    rw [List.mem_map] at hcall
    obtain ⟨i, hi, rfl⟩ := hcall
    rw [List.mem_range] at hi
    obtain ⟨_, h2, h3, h4, h5⟩ := hall (l0 - i) (by omega) (by omega)
    exact ⟨l0 - i, _, rfl, rfl, h2, h3, h4, h5⟩

/-- C16, witness: the index `b = 2` (prime 3) in the segment `[3, 5)` of
`x = 50, y = 9, z = 5`, on the initial state. -/
theorem leaf_queries_in_segment_witness :
    (∃ st' : HardState windowTree,
      leavesA windowTree 50 3 2 ((generate_primes 9).getD 2 0)
        (max (50 / ((generate_primes 9).getD 2 0 * 5)) (9 / (generate_primes 9).getD 2 0))
        [0, 2147483647, 2, 3, 2, 5, 2, 7, 2, 3] [0, 1, -1, -1, 0, -1, 1, -1, 0, 0]
        (min (50 / ((generate_primes 9).getD 2 0 * 3)) 9) (S2_hard_init windowTree 2 9) =
          some st' ∧
      CallsFrom (fun call => ∃ m n : Nat, n = (generate_primes 9).getD 2 0 * m ∧
          call = TreeCall.count 3 (50 / n) ∧ 3 ≤ 50 / n ∧ 50 / n < 5 ∧ 1 ≤ n ∧ n ≤ 50)
        (S2_hard_init windowTree 2 9).calls st'.calls) ∧
    (∃ st' : HardState windowTree,
      leavesB windowTree 50 3 2 ((generate_primes 9).getD 2 0)
        (max (50 / ((generate_primes 9).getD 2 0 * 5)) ((generate_primes 9).getD 2 0))
        (generate_primes 9)
        ((generate_pi 9).getD (min (min (50 / ((generate_primes 9).getD 2 0 * 3))
          (5 / (generate_primes 9).getD 2 0)) 9) 0) (S2_hard_init windowTree 2 9) = some st' ∧
      CallsFrom (fun call => ∃ l n : Nat,
          n = (generate_primes 9).getD 2 0 * (generate_primes 9).getD l 0 ∧
          call = TreeCall.count 3 (50 / n) ∧ 3 ≤ 50 / n ∧ 50 / n < 5 ∧ 1 ≤ n ∧ n ≤ 50)
        (S2_hard_init windowTree 2 9).calls st'.calls) :=
  leaf_queries_in_segment windowTree 50 9 5 3 5 2 (generate_pi 9)
    [0, 2147483647, 2, 3, 2, 5, 2, 7, 2, 3] [0, 1, -1, -1, 0, -1, 1, -1, 0, 0] rfl
    (by decide) (by decide) (by decide) (by decide) (by decide) (by decide)
    (S2_hard_init windowTree 2 9) (by decide)

/-- C17. Pruning is monotone across segments. Under the contract of `S2_hard`, for every
segment size `≥ 1` and iterations `k ≤ k'` of the segment loop: if the early exit fires at the
prime index `b` in the segment of `k`, it fires at some index `b' ≤ b` in the segment of `k'`;
and if the leaves of `b` are evaluated in the segment of `k'`, they are evaluated in the
segment of `k`, the state in which the phase loops reach `b` in the segment of `k'` exists and
has `next[b] ≥ low`, and the iteration of `b` (leaf loop, fold, `cross_off`) runs to its end
there, which in the embedding means that every access `sieve[m - low]` of `cross_off` has
`0 ≤ m - low < segment_size`. -/
theorem S2_hard_pruning_monotone (T : BinaryIndexedTree) (abs : T.τ → List Bool)
    (hT : TreeContract T abs) (segment_size x y z c : Nat) (pi lpf : List Nat) (mu : List Int)
    (hpi : pi = generate_pi y) (hc : c ≤ pi.getD y 0) (hS : 1 ≤ segment_size)
    (hmu : y < mu.length) (hlpf : y < lpf.length) (k k' b : Nat) (hkk : k ≤ k')
    (hk' : 1 + k' * segment_size < z + 1) :
    (ExitsAt x y z c (pi.getD (isqrt y) 0) (pi.getD (min (isqrt z) y) 0)
        (generate_primes y) pi (1 + k * segment_size) b →
      ∃ b' : Nat, b' ≤ b ∧
        ExitsAt x y z c (pi.getD (isqrt y) 0) (pi.getD (min (isqrt z) y) 0)
          (generate_primes y) pi (1 + k' * segment_size) b') ∧
    (Evaluated x y z c (pi.getD (isqrt y) 0) (pi.getD (min (isqrt z) y) 0)
        (generate_primes y) pi (1 + k' * segment_size) b →
      Evaluated x y z c (pi.getD (isqrt y) 0) (pi.getD (min (isqrt z) y) 0)
        (generate_primes y) pi (1 + k * segment_size) b ∧
      ∃ st st' : HardState T,
        S2_hard_at T segment_size true x y z c pi lpf mu k' b = some st ∧
        1 + k' * segment_size ≤ st.next.getD b 0 ∧
        S2_hard_at T segment_size true x y z c pi lpf mu k' (b + 1) = some st') := by
  obtain ⟨htab, hclen⟩ := contract_tables y c pi hpi hc
  have hlen : ∀ j : Nat, j ≤ max (pi.getD (isqrt y) 0) (pi.getD (min (isqrt z) y) 0) →
      j < (generate_primes y).length := by
    intro j hj
    have h1 := htab.pi_lt (isqrt y) (isqrt_le y)
    have h2 := htab.pi_lt (min (isqrt z) y) (min_le_right _ _)
    rcases le_max_iff.1 hj with h | h <;> omega
  have hlow : 1 + k * segment_size ≤ 1 + k' * segment_size := by
    have := Nat.mul_le_mul_right segment_size hkk
    omega
  have hmono : ∀ j : Nat, c < j →
      j ≤ max (pi.getD (isqrt y) 0) (pi.getD (min (isqrt z) y) 0) →
      Dead x y z (pi.getD (isqrt y) 0) (generate_primes y) pi (1 + k * segment_size) j →
      Dead x y z (pi.getD (isqrt y) 0) (generate_primes y) pi (1 + k' * segment_size) j :=
    fun j h1 h2 h => dead_mono y (generate_primes y) pi htab x z (pi.getD (isqrt y) 0)
      (1 + k * segment_size) (1 + k' * segment_size) j (by omega) hlow (by omega)
      (hlen j h2) h
  constructor
  · rintro ⟨hcb, hb, hd, _⟩
    have hex : ∃ j : Nat, c < j ∧
        Dead x y z (pi.getD (isqrt y) 0) (generate_primes y) pi (1 + k' * segment_size) j :=
      ⟨b, hcb, hmono b hcb hb hd⟩
    have hfind := Nat.find_spec hex
    have hle : Nat.find hex ≤ b := Nat.find_min' hex ⟨hcb, hmono b hcb hb hd⟩
    refine ⟨Nat.find hex, hle, hfind.1, le_trans hle hb, hfind.2, ?_⟩
    intro j hj hcj hdj
    exact Nat.find_min hex hj ⟨hcj, hdj⟩
  · rintro ⟨hcb, hb, hno⟩
    refine ⟨⟨hcb, hb, fun j hj hcj hdj =>
      hno j hj hcj (hmono j hcj (le_trans hj hb) hdj)⟩, ?_⟩
    obtain ⟨st, live, hrun, hbl, hdead, hinv⟩ :=
      S2_hard_at_spec T abs hT segment_size x y z c pi lpf mu htab hclen hS hmu hlpf k' b hk'
        hcb (by omega) (fun j h1 h2 => hno j (by omega) h1)
    obtain ⟨st', _, hrun', _, _, _⟩ :=
      S2_hard_at_spec T abs hT segment_size x y z c pi lpf mu htab hclen hS hmu hlpf k'
        (b + 1) hk' (by omega) (by omega) (fun j h1 h2 => hno j (by omega) h1)
    have hlive : b < live := by
      by_contra hcon
      have : b = live := by omega
      subst this
      exact hno b le_rfl hcb (hdead hb)
    exact ⟨st, st', hrun, (hinv.todo_cursor b le_rfl hlive).2.1, hrun'⟩

/-- C17, witness: `x = 50, y = 9, z = 8, c = 1` with segment size 2 (segments `[1, 3)`,
`[3, 5)`, `[5, 7)`, `[7, 9)`). The exit fires at `b = 2` in the segment `[5, 7)` and again in
`[7, 9)`; the leaves of `b = 2` are evaluated in `[3, 5)` and in `[1, 3)`. -/
theorem S2_hard_pruning_monotone_witness :
    (ExitsAt 50 9 8 1 ((generate_pi 9).getD (isqrt 9) 0)
        ((generate_pi 9).getD (min (isqrt 8) 9) 0) (generate_primes 9) (generate_pi 9)
        (1 + 2 * 2) 2 ∧
      ∃ b' : Nat, b' ≤ 2 ∧
        ExitsAt 50 9 8 1 ((generate_pi 9).getD (isqrt 9) 0)
          ((generate_pi 9).getD (min (isqrt 8) 9) 0) (generate_primes 9) (generate_pi 9)
          (1 + 3 * 2) b') ∧
    (Evaluated 50 9 8 1 ((generate_pi 9).getD (isqrt 9) 0)
        ((generate_pi 9).getD (min (isqrt 8) 9) 0) (generate_primes 9) (generate_pi 9)
        (1 + 0 * 2) 2 ∧
      ∃ st st' : HardState windowTree,
        S2_hard_at windowTree 2 true 50 9 8 1 (generate_pi 9)
          [0, 2147483647, 2, 3, 2, 5, 2, 7, 2, 3]
          [0, 1, -1, -1, 0, -1, 1, -1, 0, 0] 1 2 = some st ∧
        1 + 1 * 2 ≤ st.next.getD 2 0 ∧
        S2_hard_at windowTree 2 true 50 9 8 1 (generate_pi 9)
          [0, 2147483647, 2, 3, 2, 5, 2, 7, 2, 3]
          [0, 1, -1, -1, 0, -1, 1, -1, 0, 0] 1 (2 + 1) = some st') :=
  ⟨⟨by decide,
    (S2_hard_pruning_monotone windowTree (fun t => t) windowTree_contract 2 50 9 8 1
      (generate_pi 9) [0, 2147483647, 2, 3, 2, 5, 2, 7, 2, 3] [0, 1, -1, -1, 0, -1, 1, -1, 0, 0]
      rfl (by decide) (by decide) (by decide) (by decide) 2 3 2 (by decide) (by decide)).1
      (by decide)⟩,
    (S2_hard_pruning_monotone windowTree (fun t => t) windowTree_contract 2 50 9 8 1
      (generate_pi 9) [0, 2147483647, 2, 3, 2, 5, 2, 7, 2, 3] [0, 1, -1, -1, 0, -1, 1, -1, 0, 0]
      rfl (by decide) (by decide) (by decide) (by decide) 0 1 2 (by decide) (by decide)).2
      (by decide)⟩

/-- C18. The leaf loops stay inside the tables. For the tables of `y`, a prime index
`1 ≤ b ≤ pi(y)`, a segment `1 ≤ low < high` and any state in which `phi[b]` can be read. Phase
B: when the exit of line 151 does not fire (`prime < primes[l]` for the index `l` of line 148),
the loop `for (; primes[l] > min_hard; l--)` returns, having stopped at an index `l1 ≥ b` where
its condition is false; the calls it has made are exactly the queries of the indices
`l, l - 1, ..., l1 + 1`, and each index it evaluates satisfies `b < l ≤ pi(y)` and
`primes[b] < primes[l]`. Phase A: the leaf loop run with the bounds of lines 121-122 returns,
and it reads `mu` and `lpf` at indices `2 ≤ m ≤ y` only: with any other tables that agree with
`mu` and `lpf` on `2..y` it returns the same state. -/
theorem leaf_loops_stay_in_tables (T : BinaryIndexedTree) (x y z low high b : Nat)
    (pi lpf : List Nat) (mu : List Int) (hpi : pi = generate_pi y) (hb1 : 1 ≤ b)
    (hb : b ≤ pi.getD y 0) (hlow : 1 ≤ low) (hlh : low < high) (hmu : y < mu.length)
    (hlpf : y < lpf.length) (st : HardState T) (hphi : b < st.phi.length) :
    ((generate_primes y).getD b 0 <
        (generate_primes y).getD (pi.getD (min (min (x / ((generate_primes y).getD b 0 * low))
          (z / (generate_primes y).getD b 0)) y) 0) 0 →
      ∃ (l1 : Nat) (st' : HardState T),
        leavesB T x low b ((generate_primes y).getD b 0)
          (max (x / ((generate_primes y).getD b 0 * high)) ((generate_primes y).getD b 0))
          (generate_primes y)
          (pi.getD (min (min (x / ((generate_primes y).getD b 0 * low))
            (z / (generate_primes y).getD b 0)) y) 0) st = some st' ∧
        b ≤ l1 ∧
        ¬ (generate_primes y).getD l1 0 >
          max (x / ((generate_primes y).getD b 0 * high)) ((generate_primes y).getD b 0) ∧
        st'.calls = st.calls ++
          (List.range (pi.getD (min (min (x / ((generate_primes y).getD b 0 * low))
              (z / (generate_primes y).getD b 0)) y) 0 - l1)).map (fun i =>
            TreeCall.count low (x / ((generate_primes y).getD b 0 *
              (generate_primes y).getD (pi.getD (min (min
                (x / ((generate_primes y).getD b 0 * low))
                (z / (generate_primes y).getD b 0)) y) 0 - i) 0))) ∧
        ∀ l : Nat, l1 < l →
          l ≤ pi.getD (min (min (x / ((generate_primes y).getD b 0 * low))
            (z / (generate_primes y).getD b 0)) y) 0 →
          b < l ∧ l ≤ pi.getD y 0 ∧
            (generate_primes y).getD b 0 < (generate_primes y).getD l 0) ∧
    (∃ st' : HardState T,
      leavesA T x low b ((generate_primes y).getD b 0)
        (max (x / ((generate_primes y).getD b 0 * high)) (y / (generate_primes y).getD b 0))
        lpf mu (min (x / ((generate_primes y).getD b 0 * low)) y) st = some st' ∧
      ∀ (lpf' : List Nat) (mu' : List Int),
        (∀ m : Nat, 2 ≤ m → m ≤ y → mu'[m]? = mu[m]? ∧ lpf'[m]? = lpf[m]?) →
        leavesA T x low b ((generate_primes y).getD b 0)
          (max (x / ((generate_primes y).getD b 0 * high)) (y / (generate_primes y).getD b 0))
          lpf' mu' (min (x / ((generate_primes y).getD b 0 * low)) y) st = some st') := by
  obtain ⟨htab, hblen⟩ := contract_tables y b pi hpi hb
  have hp2 := htab.two_le b hb1 hblen
  have hp : 0 < (generate_primes y).getD b 0 := by omega
  constructor
  · intro hguard
    obtain ⟨hl0, hl0y, hle⟩ := leavesB_start y (generate_primes y) pi htab x z low
      ((generate_primes y).getD b 0)
    generalize pi.getD (min (min (x / ((generate_primes y).getD b 0 * low))
      (z / (generate_primes y).getD b 0)) y) 0 = l0 at hl0 hl0y hle hguard ⊢
    obtain ⟨l1, st', hrun, _, hl1, hbl, hstop, hcalls, hall⟩ :=
      leavesB_queries T x y low high b
        (max (x / ((generate_primes y).getD b 0 * high)) ((generate_primes y).getD b 0))
        (generate_primes y) pi htab hp hlow (by omega) (le_max_left _ _) (le_max_right _ _)
        l0 st hl0 hle hphi
    have hbl0 : b ≤ l0 := by
      by_contra hcon
      have := primes_mono_le y (generate_primes y) pi htab l0 b (by omega) hblen
      omega
    have hbl1 : b ≤ l1 := hbl hbl0
    refine ⟨l1, st', hrun, hbl1, not_lt.2 hstop, hcalls, ?_⟩
    intro l h1 h2
    have hgt := (hall l h1 h2).1
    have hpl : (generate_primes y).getD b 0 < (generate_primes y).getD l 0 :=
      lt_of_le_of_lt (le_max_right _ _) hgt
    exact ⟨by omega, by omega, hpl⟩
  · obtain ⟨st', hrun, _, _⟩ :=
      leavesA_queries T x y low high b ((generate_primes y).getD b 0)
        (max (x / ((generate_primes y).getD b 0 * high)) (y / (generate_primes y).getD b 0))
        lpf mu hp hlow (by omega) hmu hlpf (le_max_left _ _)
        (min (x / ((generate_primes y).getD b 0 * low)) y) st (min_le_right _ _)
        (min_le_left _ _) hphi
    refine ⟨st', hrun, ?_⟩
    intro lpf' mu' hagree
    rw [leavesA_reads T x low b _ _ lpf lpf' mu mu' _ st, hrun]
    intro m' h1 h2
    have hpy : (generate_primes y).getD b 0 ≤ y := (htab.pi_spec y b le_rfl hblen).2 hb
    have h3 : 1 ≤ y / (generate_primes y).getD b 0 := Nat.div_pos hpy hp
    have h4 := le_max_right (x / ((generate_primes y).getD b 0 * high))
      (y / (generate_primes y).getD b 0)
    have h5 := min_le_right (x / ((generate_primes y).getD b 0 * low)) y
    exact hagree m' (by omega) (by omega)

/-- C18, witness: the index `b = 2` (prime 3) in the segment `[5, 9)` of
`x = 75, y = 5, z = 15` (segment size 4), on the initial state. The exit of line 151 does not
fire: the loop starts at `l = pi[min(75 / 15, 15 / 3, 5)] = 3` with `primes[3] = 5 > 3`. It
evaluates `l = 3`, the pair `3 * 5` with the query `count(5, 5)`, and stops at `l1 = 2`, where
`primes[2] = 3` is not above `min_hard = max(75 / 27, 3) = 3`. The leaf loop of phase A reads
`m = 5, 4, 3` there. -/
theorem leaf_loops_stay_in_tables_witness :
    ((generate_primes 5).getD 2 0 <
        (generate_primes 5).getD ((generate_pi 5).getD
          (min (min (75 / ((generate_primes 5).getD 2 0 * 5))
            (15 / (generate_primes 5).getD 2 0)) 5) 0) 0 ∧
      (leavesB windowTree 75 5 2 ((generate_primes 5).getD 2 0)
          (max (75 / ((generate_primes 5).getD 2 0 * 9)) ((generate_primes 5).getD 2 0))
          (generate_primes 5)
          ((generate_pi 5).getD (min (min (75 / ((generate_primes 5).getD 2 0 * 5))
            (15 / (generate_primes 5).getD 2 0)) 5) 0) (S2_hard_init windowTree 4 5)).map
              (fun st => st.calls) = some [TreeCall.count 5 5] ∧
      ∃ (l1 : Nat) (st' : HardState windowTree),
        leavesB windowTree 75 5 2 ((generate_primes 5).getD 2 0)
          (max (75 / ((generate_primes 5).getD 2 0 * 9)) ((generate_primes 5).getD 2 0))
          (generate_primes 5)
          ((generate_pi 5).getD (min (min (75 / ((generate_primes 5).getD 2 0 * 5))
            (15 / (generate_primes 5).getD 2 0)) 5) 0) (S2_hard_init windowTree 4 5) =
              some st' ∧
        2 ≤ l1 ∧
        ¬ (generate_primes 5).getD l1 0 >
          max (75 / ((generate_primes 5).getD 2 0 * 9)) ((generate_primes 5).getD 2 0) ∧
        st'.calls = (S2_hard_init windowTree 4 5).calls ++
          (List.range ((generate_pi 5).getD (min (min (75 / ((generate_primes 5).getD 2 0 * 5))
              (15 / (generate_primes 5).getD 2 0)) 5) 0 - l1)).map (fun i =>
            TreeCall.count 5 (75 / ((generate_primes 5).getD 2 0 *
              (generate_primes 5).getD ((generate_pi 5).getD (min (min
                (75 / ((generate_primes 5).getD 2 0 * 5))
                (15 / (generate_primes 5).getD 2 0)) 5) 0 - i) 0))) ∧
        ∀ l : Nat, l1 < l →
          l ≤ (generate_pi 5).getD (min (min (75 / ((generate_primes 5).getD 2 0 * 5))
            (15 / (generate_primes 5).getD 2 0)) 5) 0 →
          2 < l ∧ l ≤ (generate_pi 5).getD 5 0 ∧
            (generate_primes 5).getD 2 0 < (generate_primes 5).getD l 0) ∧
    (∃ st' : HardState windowTree,
      leavesA windowTree 75 5 2 ((generate_primes 5).getD 2 0)
        (max (75 / ((generate_primes 5).getD 2 0 * 9)) (5 / (generate_primes 5).getD 2 0))
        [0, 2147483647, 2, 3, 2, 5] [0, 1, -1, -1, 0, -1]
        (min (75 / ((generate_primes 5).getD 2 0 * 5)) 5) (S2_hard_init windowTree 4 5) =
          some st' ∧
      ∀ (lpf' : List Nat) (mu' : List Int),
        (∀ m : Nat, 2 ≤ m → m ≤ 5 →
          mu'[m]? = ([0, 1, -1, -1, 0, -1] : List Int)[m]? ∧
          lpf'[m]? = ([0, 2147483647, 2, 3, 2, 5] : List Nat)[m]?) →
        leavesA windowTree 75 5 2 ((generate_primes 5).getD 2 0)
          (max (75 / ((generate_primes 5).getD 2 0 * 9)) (5 / (generate_primes 5).getD 2 0))
          lpf' mu' (min (75 / ((generate_primes 5).getD 2 0 * 5)) 5)
          (S2_hard_init windowTree 4 5) = some st') :=
  ⟨⟨by decide, by decide,
    (leaf_loops_stay_in_tables windowTree 75 5 15 5 9 2 (generate_pi 5)
      [0, 2147483647, 2, 3, 2, 5] [0, 1, -1, -1, 0, -1] rfl
      (by decide) (by decide) (by decide) (by decide) (by decide) (by decide)
      (S2_hard_init windowTree 4 5) (by decide)).1 (by decide)⟩,
    (leaf_loops_stay_in_tables windowTree 75 5 15 5 9 2 (generate_pi 5)
      [0, 2147483647, 2, 3, 2, 5] [0, 1, -1, -1, 0, -1] rfl
      (by decide) (by decide) (by decide) (by decide) (by decide) (by decide)
      (S2_hard_init windowTree 4 5) (by decide)).2⟩

/-- C19. The Fenwick build loop of `practice/tree.cc`. For every input array `sieve` (of a
length below `2^64`, even or odd; sums are taken in the integers), the loop returns an array
`tree_` of `n / 2` nodes in which, for every node `i`, the value `k = (i + 1) & ~i` is a power
of two that divides `i + 1` while `2 * k` does not (the lowest set bit of `i + 1`) and
`tree_[i]` is the sum of `sieve[2 * j]` over the `k` indices `j` in `(i - k, i]`; and every read
`tree_[j - 1]` of the inner loop, made while node `i` is built, has `0 ≤ j - 1 < i`. -/
theorem tree_build_correct (sieve : List Int) (h64 : sieve.length < 2 ^ 64) :
    ∃ s : BuildState,
      tree_build sieve = some s ∧ s.tree_.length = sieve.length / 2 ∧
      (∀ i : Nat, i < sieve.length / 2 →
        (∃ t : Nat, low_bit i = 2 ^ t ∧ 2 ^ t ∣ i + 1 ∧ ¬ 2 ^ (t + 1) ∣ i + 1) ∧
        s.tree_.getD i 0 =
          ∑ j ∈ Finset.Ico (i + 1 - low_bit i) (i + 1), sieve.getD (2 * j) 0) ∧
      (∀ e ∈ s.reads, e.2 < e.1) := by
  obtain ⟨s, hrun, hlen, hall, hreads⟩ :=
    build_loop_spec sieve (sieve.length / 2) (by omega) h64 (sieve.length / 2) 0
      { tree_ := List.replicate (sieve.length / 2) 0, reads := [] } (by omega) (by omega)
      (by simp) (fun i' hi' => by omega) (by simp)
  refine ⟨s, hrun, hlen, ?_, hreads⟩
  intro i hi
  refine ⟨?_, hall i hi⟩
  obtain ⟨t, a, hta⟩ := exists_pow_mul_odd i
  refine ⟨t, low_bit_eq t a i hta (by omega), ⟨2 * a + 1, hta⟩, ?_⟩
  rintro ⟨q, hq⟩
  rw [hta, pow_succ, mul_assoc] at hq
  have := Nat.eq_of_mul_eq_mul_left (Nat.two_pow_pos t) hq
  omega

/-- C19, witness: the run of `main`, with `n = 16` and `sieve[i] = i`. -/
theorem tree_build_correct_witness :
    ∃ s : BuildState,
      tree_main = some s ∧
      s.tree_.length = ((List.range 16).map (fun i => (i : Int))).length / 2 ∧
      (∀ i : Nat, i < ((List.range 16).map (fun i => (i : Int))).length / 2 →
        (∃ t : Nat, low_bit i = 2 ^ t ∧ 2 ^ t ∣ i + 1 ∧ ¬ 2 ^ (t + 1) ∣ i + 1) ∧
        s.tree_.getD i 0 =
          ∑ j ∈ Finset.Ico (i + 1 - low_bit i) (i + 1),
            ((List.range 16).map (fun i => (i : Int))).getD (2 * j) 0) ∧
      (∀ e ∈ s.reads, e.2 < e.1) :=
  tree_build_correct ((List.range 16).map (fun i => (i : Int))) (by decide)

/-- C20. The function `ideal_num_threads` never divides by zero and clamps its result: for
every `int` value `threads`, every `sieve_limit ≥ 0` and every `thread_threshold` (zero and
negative values included), the divisor `max(1, thread_threshold)` is `≥ 1`, the division is
defined, and the function returns `max(1, min(threads, sieve_limit / max(1, thread_threshold)))`,
which is `≥ 1` and, when `threads ≥ 1`, at most `threads`. -/
theorem ideal_num_threads_clamped (threads sieve_limit thread_threshold : Int)
    (hlo : -2 ^ 31 ≤ threads) (hhi : threads < 2 ^ 31) (hs : 0 ≤ sieve_limit) :
    1 ≤ max 1 thread_threshold ∧
    idiv sieve_limit (max 1 thread_threshold) =
      some (sieve_limit / max 1 thread_threshold) ∧
    ideal_num_threads threads sieve_limit thread_threshold =
      some (max 1 (min threads (sieve_limit / max 1 thread_threshold))) ∧
    1 ≤ max 1 (min threads (sieve_limit / max 1 thread_threshold)) ∧
    (1 ≤ threads →
      max 1 (min threads (sieve_limit / max 1 thread_threshold)) ≤ threads) := by
  have hd : 1 ≤ max 1 thread_threshold := le_max_left _ _
  have hq : 0 ≤ sieve_limit / max 1 thread_threshold := Int.ediv_nonneg hs (by omega)
  have hdiv : idiv sieve_limit (max 1 thread_threshold) =
      some (sieve_limit / max 1 thread_threshold) := by
    unfold idiv
    rw [if_neg (by omega), Int.tdiv_eq_ediv hs (by omega)]
  refine ⟨hd, hdiv, ?_, le_max_left _ _, ?_⟩
  · unfold ideal_num_threads
    simp only [hdiv, Option.bind_eq_bind, Option.some_bind, Option.pure_def]
    rw [to_int_id]
    · omega
    · omega
  · intro ht
    omega

/-- C20, witness: `threads = 8`, `sieve_limit = 100` and the negative threshold `-5`. -/
theorem ideal_num_threads_clamped_witness :
    1 ≤ max 1 (-5 : Int) ∧
    idiv 100 (max 1 (-5)) = some (100 / max 1 (-5)) ∧
    ideal_num_threads 8 100 (-5) = some (max 1 (min 8 (100 / max 1 (-5)))) ∧
    1 ≤ max 1 (min 8 (100 / max 1 (-5 : Int))) ∧
    (1 ≤ (8 : Int) → max 1 (min 8 (100 / max 1 (-5 : Int))) ≤ 8) :=
  ideal_num_threads_clamped 8 100 (-5) (by decide) (by decide) (by decide)

end Primecount
